import Mathlib

/-!
# ibex-lib: set-membership predicates, bisection and segment intersection

A shallow embedding of

* `src/arithmetic/ibex_SetMembership.h` (the predicates `is_subset`, `contains`,
  `intersects`, `is_disjoint`, ... on intervals and interval vectors),
* the comparison functions `sorty` and `sorty2`, the geometric helpers `getSlopeSegment` and
  `pointIntersection` and the method `optimize_pf` of
  `plugins/optim-mop/src/strategy/ibex_OptimizerMOP.h`,
* the method `original_index` of `src/system/ibex_NormalizedSystem.h`,
* the helpers `almost_eq` and `check` of `tests/utils.cpp`,

together with a model of the contractor framework described in the specification and of
the normalization documented in `ibex_NormalizedSystem.h`.

Numbers.  A C++ `double` other than NaN is a `Dbl`: minus infinity, a rational number or
plus infinity.  Where the code computes with doubles (`getSlopeSegment`, `pointIntersection`,
`almost_eq`, `optimize_pf`), a value is a `Double`, NaN or a `Dbl`, and the result of an
operation on finite values is rounded to the nearest double (`round64`: 53 bits of
precision, ties to even, gradual underflow, overflow to an infinity).
-/

namespace ibex

/-! ## Doubles other than NaN -/

/-- A double other than NaN; a finite value is given by the rational number it stands for. -/
inductive Dbl where
  | negInf : Dbl
  | fin (q : ℚ) : Dbl
  | posInf : Dbl
deriving DecidableEq

/-- The constant `NEG_INFINITY`. -/
abbrev NEG_INFINITY : Dbl := Dbl.negInf

/-- The constant `POS_INFINITY`. -/
abbrev POS_INFINITY : Dbl := Dbl.posInf

namespace Dbl

/-- The comparison `a <= b` of two doubles. -/
def le : Dbl → Dbl → Bool
  | negInf, _ => true
  | _, posInf => true
  | fin a, fin b => decide (a ≤ b)
  | _, _ => false

instance : LE Dbl := ⟨fun a b => le a b = true⟩

instance : LT Dbl := ⟨fun a b => le b a = false⟩

instance decLE : DecidableRel (fun a b : Dbl => a ≤ b) :=
  fun a b => inferInstanceAs (Decidable (le a b = true))

instance : LinearOrder Dbl where
  le_refl a := by
    show le a a = true
    cases a <;> simp [le]
  le_trans a b c := by
    show le a b = true → le b c = true → le a c = true
    cases a <;> cases b <;> cases c <;> simp [le]
    exact le_trans
  le_antisymm a b := by
    show le a b = true → le b a = true → a = b
    cases a <;> cases b <;> simp [le]
    exact le_antisymm
  le_total a b := by
    show le a b = true ∨ le b a = true
    cases a <;> cases b <;> simp [le]
    exact le_total _ _
  lt_iff_le_not_le a b := by
    show le b a = false ↔ le a b = true ∧ ¬ le b a = true
    cases a <;> cases b <;> simp [le]
    intro h; exact le_of_lt h
  decidableLE := decLE

end Dbl

/-! ## Intervals and interval vectors -/

/-- Modelled from the spec: the class `Interval` is declared in a header that is not embedded here.  An
interval is "a closed real interval `[lb, ub]` or the distinguished empty value": it has the
two bounds returned by `lb()` and `ub()` and the flag returned by `is_empty()`.  Nothing is
assumed about the bounds of an empty interval. -/
structure Interval where
  lb : Dbl
  ub : Dbl
  is_empty : Bool
deriving DecidableEq

/-- Modelled from the spec: the class `IntervalVector` is declared in a header that is not embedded here.
A box is an ordered vector of intervals; `size()` is the length and `x[i]` the i-th entry. -/
abbrev IntervalVector := List Interval

/-- A vector of doubles (`Vector`). -/
abbrev Vector := List Dbl

namespace Interval

/-- The data-model invariant of an interval: `lb <= ub` unless empty. -/
def valid (x : Interval) : Prop := x.is_empty = true ∨ x.lb ≤ x.ub

instance (x : Interval) : Decidable x.valid := inferInstanceAs (Decidable (_ ∨ _))

/-- Modelled from the spec: the constant `Interval::EMPTY_SET`, the distinguished empty value. -/
def EMPTY_SET : Interval := ⟨POS_INFINITY, NEG_INFINITY, true⟩

/-- Modelled from the spec: the constructor `Interval(a,b)`, the closed interval `[a,b]`; bounds
in the wrong order give the empty value (invariant `lb <= ub` unless empty). -/
def ofBounds (a b : Dbl) : Interval := if a ≤ b then ⟨a, b, false⟩ else EMPTY_SET

end Interval

namespace IntervalVector

/-- The method `size()`. -/
def size (x : IntervalVector) : Nat := x.length

/-- Modelled from the spec: the method `IntervalVector::is_empty()`; "a box is empty iff any
component is empty". -/
def is_empty (x : IntervalVector) : Bool := x.any (fun c => c.is_empty)

end IntervalVector

/-! ## `ibex_SetMembership.h`: the basic conditions on intervals -/

/-- The function `basic_is_subset(const Interval&, const Interval&)`. -/
def basic_is_subset (x y : Interval) : Bool :=
  decide (y.lb ≤ x.lb) && decide (y.ub ≥ x.ub)

/-- The function `basic_is_strict_subset(const Interval&, const Interval&)`. -/
def basic_is_strict_subset (x y : Interval) : Bool :=
  (decide (y.lb = NEG_INFINITY) || decide (y.lb < x.lb)) &&
  (decide (y.ub = POS_INFINITY) || decide (y.ub > x.ub))

/-- The function `basic_is_superset(const Interval&, const Interval&)`. -/
def basic_is_superset (x y : Interval) : Bool := basic_is_subset y x

/-- The function `basic_is_strict_superset(const Interval&, const Interval&)`. -/
def basic_is_strict_superset (x y : Interval) : Bool := basic_is_strict_subset y x

/-- The function `basic_contains(const Interval&, double)`. -/
def basic_contains (x : Interval) (d : Dbl) : Bool :=
  decide (d ≥ x.lb) && decide (d ≤ x.ub)

/-- The function `basic_strictly_contains(const Interval&, double)`. -/
def basic_strictly_contains (x : Interval) (d : Dbl) : Bool :=
  decide (d > x.lb) && decide (d < x.ub)

/-- The function `basic_intersects(const Interval&, const Interval&)`. -/
def basic_intersects (x y : Interval) : Bool :=
  decide (x.lb ≤ y.ub) && decide (x.ub ≥ y.lb)

/-- The function `basic_strictly_intersects(const Interval&, const Interval&)`. -/
def basic_strictly_intersects (x y : Interval) : Bool :=
  decide (x.lb < y.ub) && decide (x.ub > y.lb)

/-- The function `basic_is_disjoint(const Interval&, const Interval&)`. -/
def basic_is_disjoint (x y : Interval) : Bool :=
  decide (x.lb > y.ub) || decide (x.ub < y.lb)

/-! ## The vector overloads generated by the two macros

A vector overload first asserts that the two sizes agree.  The result is `none` when the
assertion fails and `some b` when the loop returns `b`. -/

/-- The loop of `__IBEX_GENERATE_BASIC_SET_OP_AND__`: `false` at the first index where the
condition fails, `true` at the end. -/
def andLoop {α β : Type} (cond : α → β → Bool) : List α → List β → Bool
  | a :: as, b :: bs => if !cond a b then false else andLoop cond as bs
  | _, _ => true

/-- The loop of `__IBEX_GENERATE_BASIC_SET_OP_OR__`: `true` at the first index where the
condition holds, `false` at the end. -/
def orLoop {α β : Type} (cond : α → β → Bool) : List α → List β → Bool
  | a :: as, b :: bs => if cond a b then true else orLoop cond as bs
  | _, _ => false

/-- The `VECTOR` overload of `__IBEX_GENERATE_BASIC_SET_OP_AND__`. -/
def vectorAnd {α β : Type} (cond : α → β → Bool) (x : List α) (y : List β) : Option Bool :=
  if x.length = y.length then some (andLoop cond x y) else none

/-- The `VECTOR` overload of `__IBEX_GENERATE_BASIC_SET_OP_OR__`. -/
def vectorOr {α β : Type} (cond : α → β → Bool) (x : List α) (y : List β) : Option Bool :=
  if x.length = y.length then some (orLoop cond x y) else none

/-- The conjunction `!e && r` of the templates, where evaluating `r` may fail an assertion:
`r` is not evaluated when `e` holds. -/
def guardNot (e : Bool) (r : Option Bool) : Option Bool := if e then some false else r

/-- The disjunction `e || r` of the templates, where evaluating `r` may fail an assertion:
`r` is not evaluated when `e` holds. -/
def guardOr (e : Bool) (r : Option Bool) : Option Bool := if e then some true else r

/-! ## The templates, instantiated on `Interval` -/

namespace Interval

/-- The template `is_subset` on intervals. -/
def is_subset (x y : Interval) : Bool :=
  x.is_empty || (!y.is_empty && basic_is_subset x y)

/-- The template `is_strict_subset` on intervals. -/
def is_strict_subset (x y : Interval) : Bool :=
  x.is_empty || (!y.is_empty && basic_is_strict_subset x y)

/-- The template `is_superset` on intervals. -/
def is_superset (x y : Interval) : Bool := is_subset y x

/-- The template `is_strict_superset` on intervals. -/
def is_strict_superset (x y : Interval) : Bool := is_strict_subset y x

/-- The template `contains` on an interval and a double. -/
def contains (x : Interval) (d : Dbl) : Bool := !x.is_empty && basic_contains x d

/-- The template `strictly_contains` on an interval and a double. -/
def strictly_contains (x : Interval) (d : Dbl) : Bool :=
  !x.is_empty && basic_strictly_contains x d

/-- The template `intersects` on intervals. -/
def intersects (x y : Interval) : Bool :=
  !x.is_empty && !y.is_empty && basic_intersects x y

/-- The template `strictly_intersects` on intervals. -/
def strictly_intersects (x y : Interval) : Bool :=
  !x.is_empty && !y.is_empty && basic_strictly_intersects x y

/-- The template `is_disjoint` on intervals. -/
def is_disjoint (x y : Interval) : Bool :=
  x.is_empty || y.is_empty || basic_is_disjoint x y

end Interval

/-! ## The templates, instantiated on `IntervalVector` -/

namespace IntervalVector

/-- The template `is_subset` on interval vectors. -/
def is_subset (x y : IntervalVector) : Option Bool :=
  guardOr x.is_empty (guardNot y.is_empty (vectorAnd basic_is_subset x y))

/-- The template `is_strict_subset` on interval vectors. -/
def is_strict_subset (x y : IntervalVector) : Option Bool :=
  guardOr x.is_empty (guardNot y.is_empty (vectorAnd basic_is_strict_subset x y))

/-- The template `is_superset` on interval vectors. -/
def is_superset (x y : IntervalVector) : Option Bool := is_subset y x

/-- The template `is_strict_superset` on interval vectors. -/
def is_strict_superset (x y : IntervalVector) : Option Bool := is_strict_subset y x

/-- The template `contains` on an interval vector and a vector of doubles. -/
def contains (x : IntervalVector) (d : Vector) : Option Bool :=
  guardNot x.is_empty (vectorAnd basic_contains x d)

/-- The template `strictly_contains` on an interval vector and a vector of doubles. -/
def strictly_contains (x : IntervalVector) (d : Vector) : Option Bool :=
  guardNot x.is_empty (vectorAnd basic_strictly_contains x d)

/-- The template `intersects` on interval vectors. -/
def intersects (x y : IntervalVector) : Option Bool :=
  guardNot x.is_empty (guardNot y.is_empty (vectorAnd basic_intersects x y))

/-- The template `strictly_intersects` on interval vectors. -/
def strictly_intersects (x y : IntervalVector) : Option Bool :=
  guardNot x.is_empty (guardNot y.is_empty (vectorAnd basic_strictly_intersects x y))

/-- The template `is_disjoint` on interval vectors. -/
def is_disjoint (x y : IntervalVector) : Option Bool :=
  guardOr x.is_empty (guardOr y.is_empty (vectorOr basic_is_disjoint x y))

end IntervalVector

/-! ## The bisection step of `optimize_pf` -/

namespace Interval

/-- Modelled from the spec: the method `Interval::mid()`, the midpoint of an interval.  It is
modelled for a non-empty interval with finite bounds, where it is `(lb+ub)/2`; the result is
`none` for the other intervals, for which the midpoint is not described. -/
def mid (x : Interval) : Option Dbl :=
  if x.is_empty then none else
  match x.lb, x.ub with
  | Dbl.fin a, Dbl.fin b => some (Dbl.fin ((a + b) / 2))
  | _, _ => none

end Interval

/-- The bisection at the end of the loop of `OptimizerMOP::optimize_pf`:
`tl = Interval(n.t.lb(), n.t.mid())` and `tr = Interval(n.t.mid(), n.t.ub())`. -/
def bisection (t : Interval) : Option (Interval × Interval) :=
  match t.mid with
  | some m => some (Interval.ofBounds t.lb m, Interval.ofBounds m t.ub)
  | none => none

/-! ## Doubles with NaN and their arithmetic

`pointIntersection` and `getSlopeSegment` compute with doubles.  Finite values are rational;
the exact result of an operation on them is rounded to the nearest double of the binary64
format, a tie going to the double with an even mantissa (`round64`).  The operations on
infinities and the invalid operations follow IEEE 754 (`0*inf`, `inf-inf`, `0/0`, `inf/inf`
are NaN, a non-zero number divided by zero is an infinity, every comparison with NaN is
false).  There is one zero, the positive one. -/

/-- A C++ `double`: NaN or a value. -/
inductive Double where
  | nan : Double
  | val (d : Dbl) : Double
deriving DecidableEq

/-- The integer nearest to `r`; of two nearest integers, the even one. -/
def roundEven (r : ℚ) : ℤ :=
  if r - (⌊r⌋ : ℚ) < 1 / 2 then ⌊r⌋
  else if 1 / 2 < r - (⌊r⌋ : ℚ) then ⌊r⌋ + 1
  else if ⌊r⌋ % 2 = 0 then ⌊r⌋ else ⌊r⌋ + 1

/-- The exponent of the spacing of the doubles around `q`: with `2^e <= |q| < 2^(e+1)` the
doubles around `q` are the multiples of `2^(e-52)`, and those of `2^-1074` below `2^-1022`
(the subnormal numbers). -/
def ulpExp (q : ℚ) : ℤ := max (Int.log 2 |q|) (-1022) - 52

/-- The double nearest to the rational number `q`, as the operations of the binary64 format
round their exact result: to the nearest multiple of the spacing, a tie to the even one; a
result of absolute value `2^1024` or more is an infinity. -/
def round64 (q : ℚ) : Dbl :=
  if q = 0 then Dbl.fin 0
  else if (2 : ℚ) ^ (1024 : ℤ) ≤ |(roundEven (q / 2 ^ ulpExp q) : ℚ) * 2 ^ ulpExp q| then
    (if 0 < q then Dbl.posInf else Dbl.negInf)
  else Dbl.fin ((roundEven (q / 2 ^ ulpExp q) : ℚ) * 2 ^ ulpExp q)

/-- The rational number `q` is the value of a finite double: rounding leaves it unchanged. -/
def representable (q : ℚ) : Prop := round64 q = Dbl.fin q

instance (q : ℚ) : Decidable (representable q) := inferInstanceAs (Decidable (_ = _))

namespace Dbl

/-- The opposite `-a`. -/
def neg : Dbl → Dbl
  | negInf => posInf
  | fin a => fin (-a)
  | posInf => negInf

/-- The sum `a + b`, rounded; `inf + (-inf)` is NaN. -/
def add : Dbl → Dbl → Double
  | fin a, fin b => Double.val (round64 (a + b))
  | posInf, negInf => Double.nan
  | negInf, posInf => Double.nan
  | posInf, _ => Double.val posInf
  | _, posInf => Double.val posInf
  | negInf, _ => Double.val negInf
  | _, negInf => Double.val negInf

/-- The infinity with the sign of `a * b`, for an infinite `b` of sign `pos`; NaN when `a` is
zero. -/
def mulInf (a : ℚ) (pos : Bool) : Double :=
  if a = 0 then Double.nan
  else if (decide (0 < a)) = pos then Double.val posInf else Double.val negInf

/-- The product `a * b`, rounded; `0 * inf` is NaN. -/
def mul : Dbl → Dbl → Double
  | fin a, fin b => Double.val (round64 (a * b))
  | fin a, posInf => mulInf a true
  | fin a, negInf => mulInf a false
  | posInf, fin b => mulInf b true
  | negInf, fin b => mulInf b false
  | posInf, posInf => Double.val posInf
  | negInf, negInf => Double.val posInf
  | posInf, negInf => Double.val negInf
  | negInf, posInf => Double.val negInf

/-- The quotient `a / b`, rounded; `0/0` and `inf/inf` are NaN, `a/0` is an infinity with the
sign of `a`, `a/inf` is zero. -/
def div : Dbl → Dbl → Double
  | fin a, fin b =>
    if b = 0 then
      (if a = 0 then Double.nan
       else if 0 < a then Double.val posInf else Double.val negInf)
    else Double.val (round64 (a / b))
  | fin _, posInf => Double.val (fin 0)
  | fin _, negInf => Double.val (fin 0)
  | posInf, fin b => if 0 ≤ b then Double.val posInf else Double.val negInf
  | negInf, fin b => if 0 ≤ b then Double.val negInf else Double.val posInf
  | _, _ => Double.nan

end Dbl

namespace Double

/-- The double of a rational number. -/
def ofRat (q : ℚ) : Double := val (Dbl.fin q)

/-- The sum of two doubles. -/
def add : Double → Double → Double
  | val a, val b => Dbl.add a b
  | _, _ => nan

/-- The difference of two doubles. -/
def sub : Double → Double → Double
  | val a, val b => Dbl.add a (Dbl.neg b)
  | _, _ => nan

/-- The product of two doubles. -/
def mul : Double → Double → Double
  | val a, val b => Dbl.mul a b
  | _, _ => nan

/-- The quotient of two doubles. -/
def div : Double → Double → Double
  | val a, val b => Dbl.div a b
  | _, _ => nan

instance : Add Double := ⟨add⟩

instance : Sub Double := ⟨sub⟩

instance : Mul Double := ⟨mul⟩

instance : Div Double := ⟨div⟩

/-- The comparison `a == b`, false when an operand is NaN. -/
def eq : Double → Double → Bool
  | val a, val b => decide (a = b)
  | _, _ => false

/-- The comparison `a <= b`, false when an operand is NaN. -/
def le : Double → Double → Bool
  | val a, val b => decide (a ≤ b)
  | _, _ => false

end Double

/-- The type `pair<double,double>`: `first` and `second` are the two components. -/
abbrev Pair := Double × Double

/-! ## `OptimizerMOP::getSlopeSegment` and `OptimizerMOP::pointIntersection` -/

/-- The method `OptimizerMOP::getSlopeSegment(first, last)`. -/
def getSlopeSegment (first last : Pair) : Double :=
  if (Double.eq last.2 (Double.val NEG_INFINITY) &&
        Double.eq first.2 (Double.val NEG_INFINITY)) ||
      (Double.eq last.2 (Double.val POS_INFINITY) && Double.eq first.2 (Double.val POS_INFINITY))
  then Double.ofRat 0
  else if (Double.eq last.1 (Double.val NEG_INFINITY) &&
        Double.eq first.1 (Double.val NEG_INFINITY)) ||
      (Double.eq last.1 (Double.val POS_INFINITY) && Double.eq first.1 (Double.val POS_INFINITY))
  then Double.val POS_INFINITY
  else if Double.eq last.2 first.2 then Double.ofRat 0
  else if Double.eq last.1 first.1 then Double.val POS_INFINITY
  else
    let slope1 := last.2 - first.2
    let slope2 := last.1 - first.1
    slope1 / slope2

/-- The method `OptimizerMOP::pointIntersection(v10, v11, v20, v21)`.  The local
`interseccion` starts as `(0.0, 0.0)`; each branch assigns its components. -/
def pointIntersection (v10 v11 v20 v21 : Pair) : Pair :=
  let interseccion : Pair := (Double.ofRat 0, Double.ofRat 0)
  let m := getSlopeSegment v10 v11
  let n := getSlopeSegment v20 v21
  let c := v10.2 - v10.1 * m
  let d := v20.2 - v20.1 * n
  if Double.eq m (Double.val POS_INFINITY) && Double.eq n (Double.ofRat 0) then
    let interseccion : Pair :=
      if (Double.le v20.1 v10.1 && Double.le v10.1 v21.1) ||
          (Double.le v21.1 v10.1 && Double.le v10.1 v20.1)
      then (v10.1, interseccion.2) else interseccion
    let interseccion : Pair :=
      if (Double.le v10.2 v20.2 && Double.le v20.2 v11.2) ||
          (Double.le v11.2 v20.2 && Double.le v20.2 v10.2)
      then (interseccion.1, v20.2) else interseccion
    interseccion
  else if Double.eq m (Double.ofRat 0) && Double.eq n (Double.val POS_INFINITY) then
    let interseccion : Pair :=
      if (Double.le v10.1 v20.1 && Double.le v20.1 v11.1) ||
          (Double.le v11.1 v20.1 && Double.le v20.1 v10.1)
      then (v20.1, interseccion.2) else interseccion
    let interseccion : Pair :=
      if (Double.le v20.2 v10.2 && Double.le v10.2 v21.2) ||
          (Double.le v21.2 v10.2 && Double.le v10.2 v20.2)
      then (interseccion.1, v10.2) else interseccion
    interseccion
  else if Double.eq (v11.1 - v10.1) (Double.ofRat 0) then
    (v11.1, n * v11.1 + d)
  else if Double.eq (v21.1 - v20.1) (Double.ofRat 0) then
    (v21.1, m * v21.1 + c)
  else
    let x := (d - c) / (m - n)
    (x, m * x + c)

/-- The point `p` lies on the segment from `a` to `b` (points with finite coordinates):
`p = a + t (b - a)` for some `t` between 0 and 1. -/
def onSegment (p a b : ℚ × ℚ) : Prop :=
  ∃ t : ℚ, 0 ≤ t ∧ t ≤ 1 ∧ p.1 = a.1 + t * (b.1 - a.1) ∧ p.2 = a.2 + t * (b.2 - a.2)

/-- The pair of doubles of a point with finite coordinates. -/
def Pair.ofRat (p : ℚ × ℚ) : Pair := (Double.ofRat p.1, Double.ofRat p.2)

/-! ## The contractor framework, modelled from the specification

The contractor classes (`Ctc`, `CtcFwdBwd`, `CtcNewton`, `CtcCompo`, `CtcFixPoint`,
`CtcQInter`) are used by `examples/ibex_snippets.cpp`; their code is not embedded here.
They are modelled from sections 4.1 to 4.6 of the specification.  The `Function`
capability they consume is external: what it computes is a parameter of the contractor. -/

namespace Interval

/-- Modelled from the spec: the intersection `x & y` of two intervals, used wherever a
contractor "intersects with the existing enclosure"; it is empty when an operand is empty or
when the bounds cross. -/
def inter (x y : Interval) : Interval :=
  if x.is_empty || y.is_empty then EMPTY_SET
  else ofBounds (max x.lb y.lb) (min x.ub y.ub)

/-- Modelled from the spec: the hull `x | y` of two intervals, the smallest interval that
contains both; an empty operand is ignored. -/
def hull (x y : Interval) : Interval :=
  if x.is_empty then y
  else if y.is_empty then x
  else ⟨min x.lb y.lb, max x.ub y.ub, false⟩

end Interval

namespace IntervalVector

/-- Modelled from the spec: the empty box of size `n` (`IntervalVector::empty(n)`), all of
whose components are the empty value. -/
def empty (n : Nat) : IntervalVector := List.replicate n Interval.EMPTY_SET

/-- Modelled from the spec: the equality `x == y` of two boxes of the composition law: the
sizes agree and either both boxes are empty or they have the same components. -/
def eq (x y : IntervalVector) : Bool :=
  decide (x.size = y.size) && ((x.is_empty && y.is_empty) || decide (x = y))

/-- Modelled from the spec: the intersection `x & y` of two boxes, component by component;
it is empty as soon as one component is. -/
def inter (x y : IntervalVector) : IntervalVector :=
  List.zipWith Interval.inter x y

/-- Modelled from the spec: the hull `x | y` of two boxes, component by component; an empty
box is ignored. -/
def hull (x y : IntervalVector) : IntervalVector :=
  if x.is_empty then y
  else if y.is_empty then x
  else List.zipWith Interval.hull x y

/-- Modelled from the spec: a box intersected "dimension-wise" with the intervals `f i`,
`f (i+1)`, ... computed for its variables. -/
def interFrom (f : Nat → Interval) : Nat → IntervalVector → IntervalVector
  | _, [] => []
  | i, c :: cs => c.inter (f i) :: interFrom f (i + 1) cs

end IntervalVector

/-- Modelled from the spec: the contractor variants of section 4 (`Ctc` and its subclasses).

* `FwdBwd proj`: forward-backward propagation of one constraint; `proj box i` is the
  projection that the backward pass of the external `Function` computes for variable `i`,
  which is intersected with the existing enclosure of the variable.  The box is empty as
  soon as one of these intersections is.
* `Newton gaussSeidel ratioBelow`: interval Newton; `gaussSeidel x` is the candidate
  `m + Δ` of the preconditioned Gauss-Seidel step, `none` when the midpoint Jacobian is
  singular, and `ratioBelow x x'` tells that the contraction ratio fell below the tolerance.
* `Compo list`: sequential composition.
* `FixPoint c ratioBelow`: iteration of `c`; `ratioBelow b b'` tells that the reduction
  from `b` to `b'` is below the ratio.
* `QInter list q`: q-relaxed intersection of the contractors of `list`. -/
inductive Ctc where
  | FwdBwd (proj : IntervalVector → Nat → Interval) : Ctc
  | Newton (gaussSeidel : IntervalVector → Option (Nat → Interval))
      (ratioBelow : IntervalVector → IntervalVector → Bool) : Ctc
  | Compo (list : List Ctc) : Ctc
  | FixPoint (c : Ctc) (ratioBelow : IntervalVector → IntervalVector → Bool) : Ctc
  | QInter (list : List Ctc) (q : Nat) : Ctc

/-- Modelled from the spec: the loop of `CtcNewton` (section 4.3), at most `fuel` times:
the candidate is intersected dimension-wise with `x`; the loop stops on a singular Jacobian
(`x` unchanged), on an empty box, when nothing was reduced or when the ratio is below the
tolerance. -/
def newtonLoop (gaussSeidel : IntervalVector → Option (Nat → Interval))
    (ratioBelow : IntervalVector → IntervalVector → Bool) :
    Nat → IntervalVector → IntervalVector
  | 0, x => x
  | fuel + 1, x =>
    match gaussSeidel x with
    | none => x
    | some cand =>
      let x' := IntervalVector.interFrom cand 0 x
      if x'.is_empty then x'
      else if x' = x || ratioBelow x x' then x'
      else newtonLoop gaussSeidel ratioBelow fuel x'

/-- Modelled from the spec: the loop of `CtcFixPoint` (section 4.5), at most `fuel` times:
the sub-contractor `c` is applied again until the box is empty or the reduction is below
the ratio. -/
def fixPointLoop (c : IntervalVector → IntervalVector)
    (ratioBelow : IntervalVector → IntervalVector → Bool) :
    Nat → IntervalVector → IntervalVector
  | 0, b => b
  | fuel + 1, b =>
    let b' := c b
    if b'.is_empty then b'
    else if ratioBelow b b' then b'
    else fixPointLoop c ratioBelow fuel b'

/-- The smallest element of a list of doubles. -/
def minList : List Dbl → Option Dbl
  | [] => none
  | d :: ds =>
    match minList ds with
    | none => some d
    | some m => some (min d m)

/-- The greatest element of a list of doubles. -/
def maxList : List Dbl → Option Dbl
  | [] => none
  | d :: ds =>
    match maxList ds with
    | none => some d
    | some m => some (max d m)

/-- Modelled from the spec: the "running coverage count" of the sweep at `d`, the number of
intervals of `xs` that contain `d`. -/
def coverage (xs : List Interval) (d : Dbl) : Nat :=
  xs.countP (fun x => x.contains d)

/-- Modelled from the spec: the left endpoints of the intervals `ys` at which the coverage
count is at least `q`. -/
def lowers (ys : List Interval) (q : Nat) : List Dbl :=
  (ys.map (fun x => x.lb)).filter (fun d => decide (q ≤ coverage ys d))

/-- Modelled from the spec: the right endpoints of the intervals `ys` at which the coverage
count is at least `q`. -/
def uppers (ys : List Interval) (q : Nat) : List Dbl :=
  (ys.map (fun x => x.ub)).filter (fun d => decide (q ≤ coverage ys d))

/-- Modelled from the spec: the q-relaxed intersection in one dimension (section 4.6), "the
smallest interval that is covered by at least `q` of the `m` contracted intervals": among
the endpoints of the intervals that are not empty, the least left endpoint and the greatest
right endpoint where the coverage count is at least `q` bound the result; it is empty when
the coverage never reaches `q`. -/
def qinter1 (xs : List Interval) (q : Nat) : Interval :=
  let ys := xs.filter (fun x => !x.is_empty)
  match minList (lowers ys q), maxList (uppers ys q) with
  | some l, some u => Interval.ofBounds l u
  | _, _ => Interval.EMPTY_SET

/-- The components of index `i` of a list of boxes. -/
def column (i : Nat) (boxes : List IntervalVector) : List Interval :=
  boxes.map (fun b => b.getD i Interval.EMPTY_SET)

/-- Modelled from the spec: the q-relaxed intersection of a list of candidate boxes of size
`n`, computed "per dimension" on the candidates that are not empty. -/
def qinter (n : Nat) (boxes : List IntervalVector) (q : Nat) : IntervalVector :=
  let refs := boxes.filter (fun b => !b.is_empty)
  (List.range n).map (fun i => qinter1 (column i refs) q)

/-- Modelled from the spec: the plain intersection of the candidates `c`, `cs`. -/
def interAll (c : IntervalVector) (cs : List IntervalVector) : IntervalVector :=
  cs.foldl IntervalVector.inter c

/-- Modelled from the spec: the hull of a list of candidates of size `n`. -/
def hullAll (n : Nat) (boxes : List IntervalVector) : IntervalVector :=
  boxes.foldl IntervalVector.hull (IntervalVector.empty n)

mutual

/-- Modelled from the spec: `contract(box)` for each contractor variant.  `fuel` bounds the
number of iterations of the loops of `CtcNewton` and `CtcFixPoint`, which the specification
leaves without a cap: the result is the box reached after at most `fuel` iterations. -/
def Ctc.contract : Nat → Ctc → IntervalVector → IntervalVector
  | _, Ctc.FwdBwd proj, b => IntervalVector.interFrom (proj b) 0 b
  | fuel, Ctc.Newton gaussSeidel ratioBelow, b => newtonLoop gaussSeidel ratioBelow fuel b
  | fuel, Ctc.Compo list, b => Ctc.contractSeq fuel list b
  | fuel, Ctc.FixPoint c ratioBelow, b =>
    fixPointLoop (fun x => Ctc.contract fuel c x) ratioBelow fuel b
  | fuel, Ctc.QInter list q, b => qinter b.size (Ctc.contractEach fuel list b) q

/-- Modelled from the spec: the sub-contractors of `CtcCompo` applied "in a fixed order,
each consuming the box already contracted by its predecessor", stopping "the moment any
sub-contractor empties the box". -/
def Ctc.contractSeq : Nat → List Ctc → IntervalVector → IntervalVector
  | _, [], b => b
  | fuel, c :: cs, b =>
    let b' := Ctc.contract fuel c b
    if b'.is_empty then b' else Ctc.contractSeq fuel cs b'

/-- Modelled from the spec: the candidates of `CtcQInter`, each sub-contractor "producing,
for the same box, an independently contracted candidate". -/
def Ctc.contractEach : Nat → List Ctc → IntervalVector → List IntervalVector
  | _, [], _ => []
  | fuel, c :: cs, b => Ctc.contract fuel c b :: Ctc.contractEach fuel cs b

end

namespace IntervalVector

/-- The relation between the box `r` left by a contraction and the box `b` it was given:
the size is kept and `is_subset(r,b)` returns `true`. -/
def Contracted (r b : IntervalVector) : Prop :=
  r.length = b.length ∧ r.is_subset b = some true

/-- The invariant of a box: every component satisfies the invariant of intervals. -/
def valid (b : IntervalVector) : Prop := ∀ x ∈ b, x.valid

end IntervalVector

namespace Interval

/-- The two shapes of an interval built by the operations of the model: the empty value
`EMPTY_SET`, or a non-empty interval with `lb <= ub`. -/
def canonical (x : Interval) : Prop := x = EMPTY_SET ∨ (x.is_empty = false ∧ x.lb ≤ x.ub)

end Interval

/-! ## The comparison functions `sorty` and `sorty2` of `ibex_OptimizerMOP.h` -/

namespace Double

/-- The comparison `a != b`, true when an operand is NaN. -/
def ne (a b : Double) : Bool := !(eq a b)

/-- The comparison `a < b`, false when an operand is NaN. -/
def lt : Double → Double → Bool
  | val a, val b => decide (a < b)
  | _, _ => false

/-- The comparison `a > b`, false when an operand is NaN. -/
def gt (a b : Double) : Bool := lt b a

end Double

/-- The pair of doubles of two doubles other than NaN. -/
def Pair.ofDbl (p : Dbl × Dbl) : Pair := (Double.val p.1, Double.val p.2)

/-- The call operator of `struct sorty`: `p1.second > p2.second`. -/
def sorty (p1 p2 : Pair) : Bool := Double.gt p1.2 p2.2

/-- The call operator of `struct sorty2`: `p1.first < p2.first` when the first components
differ, `p1.second > p2.second` otherwise. -/
def sorty2 (p1 p2 : Pair) : Bool :=
  if Double.ne p1.1 p2.1 then Double.lt p1.1 p2.1
  else Double.gt p1.2 p2.2

/-- The keys of a `std::map` after `insert(k)`, for the comparison `comp` of the map: the keys
are kept in the order of `comp`, and `k` is not inserted when the map already holds a key
equivalent to it (neither `comp k h` nor `comp h k`). -/
def mapInsert {K : Type} (comp : K → K → Bool) (k : K) : List K → List K
  | [] => [k]
  | h :: t =>
    if comp k h then k :: h :: t
    else if comp h k then h :: mapInsert comp k t
    else h :: t

/-- The keys of the map `NDSy` (a `std::map` with the comparison `sorty`) after the insertion
of the points `ps`, in this order, into the empty map. -/
def NDSy_keys (ps : List (Dbl × Dbl)) : List (Dbl × Dbl) :=
  ps.foldl (fun m p => mapInsert (fun a b => sorty (Pair.ofDbl a) (Pair.ofDbl b)) p m) []

/-! ## The test helpers of `tests/utils.cpp` -/

/-- The ways a call ends: it returns a value, it fails an assertion, it reads an array
outside its bounds, it ends the program with `exit(status)`, or the model stops (the fuel
of a loop is used up, or an operation that is not modelled is reached). -/
inductive Outcome (α : Type) where
  | value (a : α) : Outcome α
  | assertFailed : Outcome α
  | outOfBounds : Outcome α
  | exit (status : Int) : Outcome α
  | outOfFuel : Outcome α
  | unmodelled : Outcome α
deriving DecidableEq

namespace Dbl

/-- The absolute value of a double other than NaN. -/
def abs : Dbl → Dbl
  | negInf => posInf
  | fin q => fin |q|
  | posInf => posInf

end Dbl

namespace Double

/-- The function `fabs` of `<math.h>`. -/
def fabs : Double → Double
  | nan => nan
  | val d => val (Dbl.abs d)

end Double

/-- Two corresponding bounds are close for the tolerance `err`: both are the same infinity,
or both are finite and at distance at most `err`. -/
def closeBounds (a b : Dbl) (err : ℚ) : Prop :=
  (a = Dbl.negInf ∧ b = Dbl.negInf) ∨ (a = Dbl.posInf ∧ b = Dbl.posInf) ∨
    ∃ p q : ℚ, a = Dbl.fin p ∧ b = Dbl.fin q ∧ |p - q| ≤ err

/-- Two corresponding bounds are close for the tolerance `err` in double arithmetic: both are
the same infinity, or both are finite and their difference, rounded to the nearest double, is
at most `err` in absolute value. -/
def closeBoundsRounded (a b : Dbl) (err : ℚ) : Prop :=
  (a = Dbl.negInf ∧ b = Dbl.negInf) ∨ (a = Dbl.posInf ∧ b = Dbl.posInf) ∨
    ∃ p q : ℚ, a = Dbl.fin p ∧ b = Dbl.fin q ∧ Dbl.abs (round64 (p - q)) ≤ Dbl.fin err

/-- The bound `a` is a double: an infinity or a finite double. -/
def Dbl.isDouble : Dbl → Prop
  | Dbl.fin q => representable q
  | _ => True

namespace TestIbex

/-- The function `TestIbex::almost_eq(const Interval&, const Interval&, double)`. -/
def almost_eq (y_actual y_expected : Interval) (err : Double) : Bool :=
  if y_actual.is_empty && y_expected.is_empty then true
  else if
    (if Double.eq (Double.val y_actual.lb) (Double.val NEG_INFINITY) then
      Double.ne (Double.val y_expected.lb) (Double.val NEG_INFINITY)
    else
      Double.gt (Double.fabs (Double.val y_actual.lb - Double.val y_expected.lb)) err)
  then false
  else if
    (if Double.eq (Double.val y_actual.ub) (Double.val POS_INFINITY) then
      Double.ne (Double.val y_expected.ub) (Double.val POS_INFINITY)
    else
      Double.gt (Double.fabs (Double.val y_actual.ub - Double.val y_expected.ub)) err)
  then false
  else true

/-- The loop of `almost_eq` on interval vectors, from the index `i` on, for `n` more
indices: reading `y_actual[i]` or `y_expected[i]` past the end is `outOfBounds`. -/
def almost_eq_loop (y_actual y_expected : IntervalVector) (err : Double) :
    Nat → Nat → Outcome Bool
  | 0, _ => Outcome.value true
  | n + 1, i =>
    match y_actual.get? i, y_expected.get? i with
    | some a, some e =>
      if !almost_eq a e err then Outcome.value false
      else almost_eq_loop y_actual y_expected err n (i + 1)
    | _, _ => Outcome.outOfBounds

/-- The function `TestIbex::almost_eq(const IntervalVector&, const IntervalVector&, double)`.
Its first test compares `y_actual.size()` with `y_actual.size()`. -/
def almost_eq_vector (y_actual y_expected : IntervalVector) (err : Double) : Outcome Bool :=
  if y_actual.size ≠ y_actual.size then Outcome.value false
  else if y_actual.is_empty && y_expected.is_empty then Outcome.value true
  else almost_eq_loop y_actual y_expected err y_actual.size 0

/-- The function `TestIbex::check(const Interval&, const Interval&)`: the number of
assertions that fail.  The macro `TEST_ASSERT_DELTA` and the tolerance `ERROR` belong to the
test library and to `utils.h`: `deltaFails a b` tells whether
`TEST_ASSERT_DELTA(a, b, ERROR)` fails, and `cont` whether the test library goes on after a
failed assertion or returns from the function. -/
def check (deltaFails : Double → Double → Bool) (cont : Bool)
    (y_actual y_expected : Interval) : Nat :=
  if deltaFails (Double.val y_actual.lb) (Double.val y_expected.lb) then
    if !cont then 1
    else if deltaFails (Double.val y_actual.ub) (Double.val y_expected.ub) then 2 else 1
  else if deltaFails (Double.val y_actual.ub) (Double.val y_expected.ub) then 1 else 0

/-- The loop of `check` on interval vectors, from the index `i` on, for `n` more indices; `k`
assertions have failed so far. -/
def check_loop (deltaFails : Double → Double → Bool) (cont : Bool)
    (y_actual y_expected : IntervalVector) : Nat → Nat → Nat → Outcome Nat
  | 0, _, k => Outcome.value k
  | n + 1, i, k =>
    match y_actual.get? i, y_expected.get? i with
    | some a, some e =>
      check_loop deltaFails cont y_actual y_expected n (i + 1) (k + check deltaFails cont a e)
    | _, _ => Outcome.outOfBounds

/-- The function `TestIbex::check(const IntervalVector&, const IntervalVector&)`: the number
of assertions that fail.  Its first assertion, `TEST_ASSERT(y_actual.size()==y_actual.size())`,
compares `y_actual.size()` with itself. -/
def check_vector (deltaFails : Double → Double → Bool) (cont : Bool)
    (y_actual y_expected : IntervalVector) : Outcome Nat :=
  if y_actual.size ≠ y_actual.size then
    (if !cont then Outcome.value 1
     else if y_actual.is_empty && y_expected.is_empty then Outcome.value 1
     else check_loop deltaFails cont y_actual y_expected y_actual.size 0 1)
  else if y_actual.is_empty && y_expected.is_empty then Outcome.value 0
  else check_loop deltaFails cont y_actual y_expected y_actual.size 0 0

end TestIbex

/-! ## `ibex_NormalizedSystem.h` -/

/-- Modelled from the spec: a constraint of a normalized system, `f(x) <= rhs` when
`negated` is false and `-f(x) <= rhs` when it is true. -/
structure NormCtr (E : Type) where
  f : E
  negated : Bool
  rhs : ℚ

/-- The members of `NormalizedSystem` that `original_index` uses: `nb_ctr` (inherited from
`System`) and the array `_orig_index`, with the constraints `ctrs` of the system. -/
structure NormalizedSystem (E : Type) where
  nb_ctr : Int
  ctrs : List (NormCtr E)
  _orig_index : List Int

namespace NormalizedSystem

/-- The method `NormalizedSystem::original_index(int i)`: `assert(i<nb_ctr)`, then
`return _orig_index[i]`; reading the array outside its bounds is `outOfBounds`. -/
def original_index {E : Type} (N : NormalizedSystem E) (i : Int) : Outcome Int :=
  if ¬ (i < N.nb_ctr) then Outcome.assertFailed
  else if 0 ≤ i then
    match N._orig_index.get? i.toNat with
    | some v => Outcome.value v
    | none => Outcome.outOfBounds
  else Outcome.outOfBounds

end NormalizedSystem

/-! ## `OptimizerMOP::optimize_pf` -/

namespace Interval

/-- Modelled from the spec: the constructor `Interval(double d)`, the interval reduced to
`d`, which is also the implicit conversion of a `double` into an `Interval`. -/
def ofDouble (d : Dbl) : Interval := ofBounds d d

/-- Modelled from the spec: the method `Interval::diam()`, the diameter `ub - lb` of an
interval, NaN for the empty interval. -/
def diam (x : Interval) : Double :=
  if x.is_empty then Double.nan else Double.val x.ub - Double.val x.lb

end Interval

/-- Modelled from the spec: the class `PFunction`, declared in `ibex_OptimizerMOP.h` and
defined in a file that is not embedded: the enclosures `eval(t)` and `deriv(t)` of the
function `f1(xt) - m*f2(xt)` and of its derivative. -/
structure PFunction where
  eval : Interval → Interval
  deriv : Interval → Interval

/-- Modelled from the spec: the operations of the interval arithmetic that `optimize_pf`
applies: `x - y`, `x / y`, `d + x` and `d - x` for intervals `x`, `y` and a double `d`.  The
interval arithmetic is external: the operations are parameters. -/
structure IntervalArith where
  sub : Interval → Interval → Interval
  div : Interval → Interval → Interval
  addScalar : Dbl → Interval → Interval
  subScalar : Dbl → Interval → Interval

/-- The class `Node_t`: an interval `t` and the enclosure `ft` of the function on it. -/
structure Node_t where
  t : Interval
  ft : Interval

/-- The first inner loop `while(true)` of `optimize_pf`, which contracts `n.t` from the left:
the result is `n.t`, `LB` and `best_t` at the `break`.  The local `eps=0.01` is the double
nearest to `1/100`. -/
def contractLeft (A : IntervalArith) (pf : PFunction) (d : Interval) :
    Nat → Interval → Dbl → Dbl → Outcome (Interval × Dbl × Dbl)
  | 0, _, _, _ => Outcome.outOfFuel
  | fuel + 1, t, LB, best_t =>
    let y0 := pf.eval (Interval.ofDouble t.lb)
    if y0.is_empty then Outcome.value (t, LB, best_t)
    else if y0.ub > LB then Outcome.value (t, y0.ub, t.lb)
    else if d.ub = Dbl.fin 0 then Outcome.value (t, LB, best_t)
    else
      let x := A.div (A.sub (Interval.ofDouble LB) y0) (Interval.ofDouble d.ub)
      if x.lb > round64 (1 / 100) then
        contractLeft A pf d fuel (Interval.ofBounds (A.addScalar t.lb x).lb t.ub) LB best_t
      else Outcome.value (t, LB, best_t)

/-- The second inner loop `while(true)` of `optimize_pf`, which contracts `n.t` from the
right. -/
def contractRight (A : IntervalArith) (pf : PFunction) (d : Interval) :
    Nat → Interval → Dbl → Dbl → Outcome (Interval × Dbl × Dbl)
  | 0, _, _, _ => Outcome.outOfFuel
  | fuel + 1, t, LB, best_t =>
    let y0 := pf.eval (Interval.ofDouble t.ub)
    if y0.is_empty then Outcome.value (t, LB, best_t)
    else if y0.ub > LB then Outcome.value (t, y0.ub, t.ub)
    else if d.lb = Dbl.fin 0 then Outcome.value (t, LB, best_t)
    else
      let x := A.div (A.sub (Interval.ofDouble LB) y0) (Interval.ofDouble (Dbl.neg d.lb))
      if x.ub > round64 (1 / 100) then
        contractRight A pf d fuel (Interval.ofBounds t.lb (A.subScalar t.ub x).ub) LB best_t
      else Outcome.value (t, LB, best_t)

/-- The loop `while(!nodes.empty())` of `optimize_pf` and the final `return`: `nodes` is the
stack, its top first.  Each iteration and each iteration of the inner loops uses one unit of
`fuel`; a midpoint that is not modelled ends the model. -/
def searchLoop (A : IntervalArith) (pf : PFunction) (fuel0 : Nat) :
    Nat → List Node_t → Dbl → Dbl → Dbl → Outcome (Dbl × Dbl)
  | 0, _, _, _, _ => Outcome.outOfFuel
  | fuel + 1, nodes, LB, UB, best_t =>
    match nodes with
    | [] => Outcome.value (best_t, UB)
    | n :: rest =>
      if Double.lt (Double.val n.ft.ub) (Double.val LB + Double.val (round64 (1 / 100))) then
        searchLoop A pf fuel0 fuel rest LB (max UB n.ft.ub) best_t
      else if Double.lt n.t.diam (Double.val (round64 (1 / 100))) then
        searchLoop A pf fuel0 fuel rest LB (if n.ft.ub > UB then n.ft.ub else UB) best_t
      else
        match n.t.mid with
        | none => Outcome.unmodelled
        | some m =>
          let probing := (pf.eval (Interval.ofDouble m)).ub
          let best_t1 := if probing > LB then m else best_t
          let LB1 := if probing > LB then probing else LB
          let d := pf.deriv n.t
          match contractLeft A pf d fuel0 n.t LB1 best_t1 with
          | Outcome.value (t2, LB2, best_t2) =>
            match contractRight A pf d fuel0 t2 LB2 best_t2 with
            | Outcome.value (t3, LB3, best_t3) =>
              match bisection t3 with
              | some (tl, tr) =>
                searchLoop A pf fuel0 fuel (⟨tr, pf.eval tr⟩ :: ⟨tl, pf.eval tl⟩ :: rest)
                  LB3 UB best_t3
              | none => Outcome.unmodelled
            | Outcome.unmodelled => Outcome.unmodelled
            | _ => Outcome.outOfFuel
          | Outcome.unmodelled => Outcome.unmodelled
          | _ => Outcome.outOfFuel

/-- The method `OptimizerMOP::optimize_pf(PFunction& pf, bool minimize)`: with `minimize`
the message "minimize f1(t)+w*f2(t) is not implemented yet!" is printed and the program
ends with `exit(0)`; otherwise the search starts from the node `[0,1]`. -/
def optimize_pf (A : IntervalArith) (pf : PFunction) (minimize : Bool) (fuel : Nat) :
    Outcome (Dbl × Dbl) :=
  if minimize then Outcome.exit 0
  else
    searchLoop A pf fuel fuel
      [⟨Interval.ofBounds (Dbl.fin 0) (Dbl.fin 1),
        pf.eval (Interval.ofBounds (Dbl.fin 0) (Dbl.fin 1))⟩]
      NEG_INFINITY NEG_INFINITY (Dbl.fin 0)

/-! # Lemmas and theorems -/

namespace Dbl

theorem le_def (a b : Dbl) : a ≤ b ↔ le a b = true := Iff.rfl

theorem lt_def (a b : Dbl) : a < b ↔ le b a = false := Iff.rfl

@[simp] theorem fin_le_fin (a b : ℚ) : fin a ≤ fin b ↔ a ≤ b := by simp [le_def, le]

@[simp] theorem fin_lt_fin (a b : ℚ) : fin a < fin b ↔ a < b := by simp [lt_def, le]

@[simp] theorem negInf_le (a : Dbl) : negInf ≤ a := by cases a <;> simp [le_def, le]

@[simp] theorem le_posInf (a : Dbl) : a ≤ posInf := by cases a <;> simp [le_def, le]

@[simp] theorem fin_lt_posInf (a : ℚ) : fin a < posInf := by simp [lt_def, le]

@[simp] theorem negInf_lt_fin (a : ℚ) : negInf < fin a := by simp [lt_def, le]

@[simp] theorem negInf_lt_posInf : negInf < posInf := by simp [lt_def, le]

@[simp] theorem not_posInf_le_fin (a : ℚ) : ¬ posInf ≤ fin a := by simp [le_def, le]

@[simp] theorem not_fin_le_negInf (a : ℚ) : ¬ fin a ≤ negInf := by simp [le_def, le]

@[simp] theorem not_posInf_le_negInf : ¬ posInf ≤ negInf := by simp [le_def, le]

@[simp] theorem not_lt_negInf (a : Dbl) : ¬ a < negInf := by cases a <;> simp [lt_def, le]

@[simp] theorem not_posInf_lt (a : Dbl) : ¬ posInf < a := by cases a <;> simp [lt_def, le]

end Dbl

/-! ## Set membership on intervals -/

namespace Interval

theorem is_subset_eq_true_iff (x y : Interval) :
    x.is_subset y = true ↔
      x.is_empty = true ∨ (y.is_empty = false ∧ y.lb ≤ x.lb ∧ x.ub ≤ y.ub) := by
  simp [is_subset, basic_is_subset]

theorem contains_eq_true_iff (x : Interval) (d : Dbl) :
    x.contains d = true ↔ x.is_empty = false ∧ x.lb ≤ d ∧ d ≤ x.ub := by
  simp [contains, basic_contains]

theorem interval_is_subset_refl (x : Interval) : x.is_subset x = true := by
  cases h : x.is_empty <;> simp [is_subset_eq_true_iff, h]

theorem interval_is_subset_trans (x y z : Interval) (hxy : x.is_subset y = true)
    (hyz : y.is_subset z = true) : x.is_subset z = true := by
  rw [is_subset_eq_true_iff] at *
  rcases hxy with hx | ⟨hy, h1, h2⟩
  · exact Or.inl hx
  · rcases hyz with hy2 | ⟨hz, h3, h4⟩
    · rw [hy] at hy2; exact absurd hy2 (by simp)
    · exact Or.inr ⟨hz, le_trans h3 h1, le_trans h2 h4⟩

end Interval

/-- C3: for intervals `x` and `y` satisfying the invariant `lb <= ub` unless empty,
`is_subset(x,y)` is true exactly when every double `d` with `contains(x,d)` also has
`contains(y,d)`: `is_subset` is set inclusion of closed intervals, the empty interval being
included in everything. -/
theorem is_subset_iff_forall_contains (x y : Interval) (hx : x.valid) (_hy : y.valid) :
    x.is_subset y = true ↔ ∀ d : Dbl, x.contains d = true → y.contains d = true := by
  simp only [Interval.is_subset_eq_true_iff, Interval.contains_eq_true_iff]
  constructor
  · rintro (h | ⟨hye, h1, h2⟩) d ⟨hxe, h3, h4⟩
    · rw [h] at hxe; exact absurd hxe (by simp)
    · exact ⟨hye, le_trans h1 h3, le_trans h4 h2⟩
  · intro h
    cases hxe : x.is_empty
    · right
      have hle : x.lb ≤ x.ub := by
        rcases hx with h0 | h0
        · rw [hxe] at h0; exact absurd h0 (by simp)
        · exact h0
      have hl := h x.lb ⟨hxe, le_refl _, hle⟩
      have hu := h x.ub ⟨hxe, hle, le_refl _⟩
      exact ⟨hl.1, hl.2.1, hu.2.2⟩
    · exact Or.inl rfl

/-- The interval `[1,2]` is included in `[0,3]`, on both sides of C3. -/
theorem is_subset_iff_forall_contains_witness :
    (Interval.is_subset ⟨Dbl.fin 1, Dbl.fin 2, false⟩ ⟨Dbl.fin 0, Dbl.fin 3, false⟩ = true ↔
      ∀ d : Dbl, Interval.contains ⟨Dbl.fin 1, Dbl.fin 2, false⟩ d = true →
        Interval.contains ⟨Dbl.fin 0, Dbl.fin 3, false⟩ d = true) :=
  is_subset_iff_forall_contains ⟨Dbl.fin 1, Dbl.fin 2, false⟩ ⟨Dbl.fin 0, Dbl.fin 3, false⟩
    (Or.inr (by simp)) (Or.inr (by simp))

/-- The equivalence of C3 with `d` restricted to the finite doubles: it holds when the
non-empty `x` is not reduced to an infinity (`lb` is not plus infinity and `ub` is not minus
infinity), so that `x` contains a finite number. -/
theorem is_subset_iff_forall_finite (x y : Interval) (hx : x.valid)
    (hfin : x.is_empty = false → x.lb ≠ Dbl.posInf ∧ x.ub ≠ Dbl.negInf) :
    x.is_subset y = true ↔
      ∀ q : ℚ, x.contains (Dbl.fin q) = true → y.contains (Dbl.fin q) = true := by
  simp only [Interval.is_subset_eq_true_iff, Interval.contains_eq_true_iff]
  constructor
  · rintro (h | ⟨hye, h1, h2⟩) q ⟨hxe, h3, h4⟩
    · rw [h] at hxe; exact absurd hxe (by simp)
    · exact ⟨hye, le_trans h1 h3, le_trans h4 h2⟩
  · intro h
    cases hxe : x.is_empty
    · right
      have hle : x.lb ≤ x.ub := by
        rcases hx with h0 | h0
        · rw [hxe] at h0; exact absurd h0 (by simp)
        · exact h0
      obtain ⟨hl, hu⟩ := hfin hxe
      have hpt : ∃ q0 : ℚ, x.lb ≤ Dbl.fin q0 ∧ Dbl.fin q0 ≤ x.ub := by
        cases hxl : x.lb with
        | negInf =>
          cases hxu : x.ub with
          | negInf => exact absurd hxu hu
          | fin b => exact ⟨b, by simp, le_refl _⟩
          | posInf => exact ⟨0, by simp, by simp⟩
        | fin a => exact ⟨a, le_refl _, by rw [← hxl]; exact hle⟩
        | posInf => exact absurd hxl hl
      obtain ⟨q0, hq1, hq2⟩ := hpt
      have hy0 := h q0 ⟨hxe, hq1, hq2⟩
      refine ⟨hy0.1, ?_, ?_⟩
      · cases hxl : x.lb with
        | negInf =>
          cases hyl : y.lb with
          | negInf => exact le_refl _
          | fin c =>
            exfalso
            have hq : Dbl.fin (min c q0 - 1) ≤ x.ub :=
              le_trans ((Dbl.fin_le_fin _ _).2 (by linarith [min_le_right c q0])) hq2
            have h1 := (h (min c q0 - 1) ⟨hxe, by rw [hxl]; simp, hq⟩).2.1
            rw [hyl, Dbl.fin_le_fin] at h1
            linarith [min_le_left c q0]
          | posInf =>
            exfalso
            have h1 := hy0.2.1
            rw [hyl] at h1
            exact absurd h1 (by simp)
        | fin a =>
          have h1 := (h a ⟨hxe, by rw [hxl], by rw [← hxl]; exact hle⟩).2.1
          exact h1
        | posInf => exact absurd hxl hl
      · cases hxu : x.ub with
        | posInf =>
          cases hyu : y.ub with
          | posInf => exact le_refl _
          | fin c =>
            exfalso
            have hq : x.lb ≤ Dbl.fin (max c q0 + 1) :=
              le_trans hq1 ((Dbl.fin_le_fin _ _).2 (by linarith [le_max_right c q0]))
            have h1 := (h (max c q0 + 1) ⟨hxe, hq, by rw [hxu]; simp⟩).2.2
            rw [hyu, Dbl.fin_le_fin] at h1
            linarith [le_max_left c q0]
          | negInf =>
            exfalso
            have h1 := hy0.2.2
            rw [hyu] at h1
            exact absurd h1 (by simp)
        | fin b =>
          have h1 := (h b ⟨hxe, by rw [← hxu]; exact hle, by rw [hxu]⟩).2.2
          exact h1
        | negInf => exact absurd hxu hu
    · exact Or.inl rfl

/-! ## Set membership on interval vectors -/

theorem andLoop_eq_true_iff {α β : Type} (cond : α → β → Bool) (x : List α) (y : List β)
    (h : x.length = y.length) :
    andLoop cond x y = true ↔ List.Forall₂ (fun a b => cond a b = true) x y := by
  induction x generalizing y with
  | nil =>
    cases y with
    | nil => simp [andLoop]
    | cons b bs => simp at h
  | cons a as ih =>
    cases y with
    | nil => simp at h
    | cons b bs =>
      have h2 : as.length = bs.length := by simpa using h
      cases hc : cond a b <;> simp [andLoop, hc, ih bs h2]

theorem vectorAnd_eq_some_true_iff {α β : Type} (cond : α → β → Bool) (x : List α)
    (y : List β) :
    vectorAnd cond x y = some true ↔ List.Forall₂ (fun a b => cond a b = true) x y := by
  unfold vectorAnd
  by_cases h : x.length = y.length
  · simp [h, andLoop_eq_true_iff cond x y h]
  · simp only [h, if_false]
    constructor
    · intro h0; exact absurd h0 (by simp)
    · intro h0; exact absurd h0.length_eq h

theorem vectorAnd_eq_none_iff {α β : Type} (cond : α → β → Bool) (x : List α) (y : List β) :
    vectorAnd cond x y = none ↔ x.length ≠ y.length := by
  unfold vectorAnd
  by_cases h : x.length = y.length <;> simp [h]

theorem vectorOr_eq_none_iff {α β : Type} (cond : α → β → Bool) (x : List α) (y : List β) :
    vectorOr cond x y = none ↔ x.length ≠ y.length := by
  unfold vectorOr
  by_cases h : x.length = y.length <;> simp [h]

theorem basic_is_subset_eq_true_iff (x y : Interval) :
    basic_is_subset x y = true ↔ y.lb ≤ x.lb ∧ x.ub ≤ y.ub := by
  simp [basic_is_subset]

theorem forall₂_basic_is_subset_refl (x : IntervalVector) :
    List.Forall₂ (fun a b => basic_is_subset a b = true) x x := by
  induction x with
  | nil => exact List.Forall₂.nil
  | cons a as ih => exact List.Forall₂.cons (by simp [basic_is_subset]) ih

theorem forall₂_basic_is_subset_trans (x y z : IntervalVector)
    (hxy : List.Forall₂ (fun a b => basic_is_subset a b = true) x y)
    (hyz : List.Forall₂ (fun a b => basic_is_subset a b = true) y z) :
    List.Forall₂ (fun a b => basic_is_subset a b = true) x z := by
  induction hxy generalizing z with
  | nil => cases hyz; exact List.Forall₂.nil
  | cons hab _ ih =>
    cases hyz with
    | cons hbc htl =>
      rw [basic_is_subset_eq_true_iff] at hab hbc
      exact List.Forall₂.cons
        ((basic_is_subset_eq_true_iff _ _).2 ⟨le_trans hbc.1 hab.1, le_trans hab.2 hbc.2⟩)
        (ih _ htl)

namespace IntervalVector

theorem is_subset_eq_some_true_iff (x y : IntervalVector) :
    x.is_subset y = some true ↔
      x.is_empty = true ∨ (y.is_empty = false ∧
        List.Forall₂ (fun a b => basic_is_subset a b = true) x y) := by
  unfold is_subset guardOr guardNot
  cases hx : x.is_empty <;> cases hy : y.is_empty <;>
    simp [vectorAnd_eq_some_true_iff]

theorem box_is_subset_refl (x : IntervalVector) : x.is_subset x = some true := by
  rw [is_subset_eq_some_true_iff]
  cases hx : x.is_empty
  · exact Or.inr ⟨rfl, forall₂_basic_is_subset_refl x⟩
  · exact Or.inl rfl

theorem box_is_subset_trans (x y z : IntervalVector) (hxy : x.is_subset y = some true)
    (hyz : y.is_subset z = some true) : x.is_subset z = some true := by
  rw [is_subset_eq_some_true_iff] at *
  rcases hxy with hx | ⟨hy, h1⟩
  · exact Or.inl hx
  · rcases hyz with hy2 | ⟨hz, h2⟩
    · rw [hy] at hy2; exact absurd hy2 (by simp)
    · exact Or.inr ⟨hz, forall₂_basic_is_subset_trans x y z h1 h2⟩

end IntervalVector

/-- C4: `is_subset` is transitive on intervals and on interval vectors of one common size (if
`is_subset(x,y)` and `is_subset(y,z)` then `is_subset(x,z)`), and it is reflexive:
`is_subset(x,x)` for every interval and every interval vector, empty or not.  On vectors
"true" means that the call returns `true` without failing the size assertion. -/
theorem is_subset_trans_refl (x y z : Interval) (X Y Z : IntervalVector) :
    (x.is_subset y = true → y.is_subset z = true → x.is_subset z = true) ∧
    x.is_subset x = true ∧
    (X.size = Y.size → Y.size = Z.size → X.is_subset Y = some true →
      Y.is_subset Z = some true → X.is_subset Z = some true) ∧
    X.is_subset X = some true :=
  ⟨Interval.interval_is_subset_trans x y z, Interval.interval_is_subset_refl x,
    fun _ _ => IntervalVector.box_is_subset_trans X Y Z, IntervalVector.box_is_subset_refl X⟩

/-- A chain `[1,2]`, `[0,3]`, `[-1,4]` of intervals and of one-dimensional boxes, for C4. -/
theorem is_subset_trans_refl_witness :
    Interval.is_subset ⟨Dbl.fin 1, Dbl.fin 2, false⟩ ⟨Dbl.fin (-1), Dbl.fin 4, false⟩ = true ∧
    IntervalVector.is_subset [⟨Dbl.fin 1, Dbl.fin 2, false⟩]
      [⟨Dbl.fin (-1), Dbl.fin 4, false⟩] = some true :=
  have h := is_subset_trans_refl ⟨Dbl.fin 1, Dbl.fin 2, false⟩ ⟨Dbl.fin 0, Dbl.fin 3, false⟩
    ⟨Dbl.fin (-1), Dbl.fin 4, false⟩ [⟨Dbl.fin 1, Dbl.fin 2, false⟩]
    [⟨Dbl.fin 0, Dbl.fin 3, false⟩] [⟨Dbl.fin (-1), Dbl.fin 4, false⟩]
  ⟨h.1 (by norm_num [Interval.is_subset, basic_is_subset])
      (by norm_num [Interval.is_subset, basic_is_subset]),
    h.2.2.1 rfl rfl
      (by norm_num [IntervalVector.is_subset, IntervalVector.is_empty, guardOr, guardNot,
        vectorAnd, andLoop, basic_is_subset])
      (by norm_num [IntervalVector.is_subset, IntervalVector.is_empty, guardOr, guardNot,
        vectorAnd, andLoop, basic_is_subset])⟩

/-- C7: the empty value behaves as the empty set, for intervals (`e`) and for boxes (`E`):
`is_subset(empty,y)` is true, `is_subset(x,empty)` is true exactly when `x` is empty,
`contains(empty,d)` is false, `intersects(empty,y)` is false and `is_disjoint(empty,y)` is
true.  On boxes each of these calls returns its Boolean without failing the size assertion,
whatever the sizes. -/
theorem empty_behaves_as_empty_set (e x y : Interval) (d : Dbl) (E X Y : IntervalVector)
    (v : Vector) (he : e.is_empty = true) (hE : E.is_empty = true) :
    (e.is_subset y = true ∧ (x.is_subset e = true ↔ x.is_empty = true) ∧
      e.contains d = false ∧ e.intersects y = false ∧ e.is_disjoint y = true) ∧
    (E.is_subset Y = some true ∧ (X.is_subset E = some true ↔ X.is_empty = true) ∧
      E.contains v = some false ∧ E.intersects Y = some false ∧
      E.is_disjoint Y = some true) := by
  refine ⟨⟨?_, ?_, ?_, ?_, ?_⟩, ⟨?_, ?_, ?_, ?_, ?_⟩⟩
  · simp [Interval.is_subset, he]
  · simp [Interval.is_subset, he]
  · simp [Interval.contains, he]
  · simp [Interval.intersects, he]
  · simp [Interval.is_disjoint, he]
  · simp [IntervalVector.is_subset, guardOr, hE]
  · cases hX : X.is_empty <;> simp [IntervalVector.is_subset, guardOr, guardNot, hE, hX]
  · simp [IntervalVector.contains, guardNot, hE]
  · simp [IntervalVector.intersects, guardNot, hE]
  · simp [IntervalVector.is_disjoint, guardOr, hE]

/-- The empty interval and the empty box of size 1 against `[0,1]` and a box of size 2,
for C7. -/
theorem empty_behaves_as_empty_set_witness :
    Interval.is_subset Interval.EMPTY_SET ⟨Dbl.fin 0, Dbl.fin 1, false⟩ = true ∧
    IntervalVector.is_disjoint [Interval.EMPTY_SET]
      [⟨Dbl.fin 0, Dbl.fin 1, false⟩, ⟨Dbl.fin 0, Dbl.fin 1, false⟩] = some true :=
  have h := empty_behaves_as_empty_set Interval.EMPTY_SET ⟨Dbl.fin 0, Dbl.fin 1, false⟩
    ⟨Dbl.fin 0, Dbl.fin 1, false⟩ (Dbl.fin 0) [Interval.EMPTY_SET]
    [⟨Dbl.fin 0, Dbl.fin 1, false⟩]
    [⟨Dbl.fin 0, Dbl.fin 1, false⟩, ⟨Dbl.fin 0, Dbl.fin 1, false⟩] [Dbl.fin 0] rfl rfl
  ⟨h.1.1, h.2.2.2.2.2⟩

/-- C8, as stated, fails: `is_subset` called with an empty box of size 1 and a box of size 2
returns `true` instead of failing the size assertion. -/
theorem size_mismatch_counterexample :
    IntervalVector.size [Interval.EMPTY_SET] ≠
      IntervalVector.size [(⟨Dbl.fin 0, Dbl.fin 1, false⟩ : Interval),
        ⟨Dbl.fin 0, Dbl.fin 1, false⟩] ∧
    IntervalVector.is_subset [Interval.EMPTY_SET]
      [⟨Dbl.fin 0, Dbl.fin 1, false⟩, ⟨Dbl.fin 0, Dbl.fin 1, false⟩] = some true := by
  constructor
  · simp [IntervalVector.size]
  · simp [IntervalVector.is_subset, IntervalVector.is_empty, guardOr, Interval.EMPTY_SET]

/-- C8, amended: called with two operands of different sizes, none of which is empty, every
set-membership predicate on interval vectors fails the size assertion (for `contains` and
`strictly_contains`, whose second operand is a vector of doubles, when the interval vector is
not empty).  When an operand is empty the emptiness test of the template answers first and a
Boolean is returned although the sizes differ: `true` for `is_subset`, `is_strict_subset`
with an empty first operand and for `is_disjoint`, `false` for `is_subset`,
`is_strict_subset` with a non-empty first and an empty second operand, for `contains`,
`strictly_contains`, `intersects` and `strictly_intersects`; `is_superset` and
`is_strict_superset` are `is_subset` and `is_strict_subset` with the operands exchanged. -/
theorem size_mismatch_fails_on_non_empty (x y : IntervalVector) (v : Vector)
    (hxy : x.size ≠ y.size) (hxv : x.size ≠ v.length) :
    (x.is_empty = false → y.is_empty = false →
      x.is_subset y = none ∧ x.is_strict_subset y = none ∧ x.is_superset y = none ∧
      x.is_strict_superset y = none ∧ x.intersects y = none ∧
      x.strictly_intersects y = none ∧ x.is_disjoint y = none) ∧
    (x.is_empty = false → x.contains v = none ∧ x.strictly_contains v = none) ∧
    (x.is_empty = true →
      x.is_subset y = some true ∧ x.is_strict_subset y = some true ∧
      x.is_superset y = some y.is_empty ∧ x.is_strict_superset y = some y.is_empty ∧
      x.contains v = some false ∧ x.strictly_contains v = some false ∧
      x.intersects y = some false ∧ x.strictly_intersects y = some false ∧
      x.is_disjoint y = some true) ∧
    (x.is_empty = false → y.is_empty = true →
      x.is_subset y = some false ∧ x.is_strict_subset y = some false ∧
      x.is_superset y = some true ∧ x.is_strict_superset y = some true ∧
      x.intersects y = some false ∧ x.strictly_intersects y = some false ∧
      x.is_disjoint y = some true) := by
  have h1 : x.length ≠ y.length := hxy
  have h2 : y.length ≠ x.length := fun h => hxy h.symm
  have h3 : x.length ≠ v.length := hxv
  refine ⟨?_, ?_, ?_, ?_⟩
  · intro hx hy
    simp [IntervalVector.is_subset, IntervalVector.is_strict_subset,
      IntervalVector.is_superset, IntervalVector.is_strict_superset,
      IntervalVector.intersects, IntervalVector.strictly_intersects,
      IntervalVector.is_disjoint, guardOr, guardNot, hx, hy, vectorAnd, vectorOr, h1, h2]
  · intro hx
    simp [IntervalVector.contains, IntervalVector.strictly_contains, guardNot, hx,
      vectorAnd, h3]
  · intro hx
    cases hy : y.is_empty <;>
      simp [IntervalVector.is_subset, IntervalVector.is_strict_subset,
        IntervalVector.is_superset, IntervalVector.is_strict_superset,
        IntervalVector.contains, IntervalVector.strictly_contains,
        IntervalVector.intersects, IntervalVector.strictly_intersects,
        IntervalVector.is_disjoint, guardOr, guardNot, hx, hy]
  · intro hx hy
    simp [IntervalVector.is_subset, IntervalVector.is_strict_subset,
      IntervalVector.is_superset, IntervalVector.is_strict_superset,
      IntervalVector.intersects, IntervalVector.strictly_intersects,
      IntervalVector.is_disjoint, guardOr, guardNot, hx, hy]

/-- The non-empty boxes `([0,1])` and `([0,1],[0,1])` fail the size assertion of `is_subset`
and of `is_disjoint`, for the amended C8. -/
theorem size_mismatch_fails_on_non_empty_witness :
    IntervalVector.is_subset [⟨Dbl.fin 0, Dbl.fin 1, false⟩]
      [⟨Dbl.fin 0, Dbl.fin 1, false⟩, ⟨Dbl.fin 0, Dbl.fin 1, false⟩] = none ∧
    IntervalVector.is_disjoint [⟨Dbl.fin 0, Dbl.fin 1, false⟩]
      [⟨Dbl.fin 0, Dbl.fin 1, false⟩, ⟨Dbl.fin 0, Dbl.fin 1, false⟩] = none :=
  have h := (size_mismatch_fails_on_non_empty [⟨Dbl.fin 0, Dbl.fin 1, false⟩]
    [⟨Dbl.fin 0, Dbl.fin 1, false⟩, ⟨Dbl.fin 0, Dbl.fin 1, false⟩] []
    (by simp [IntervalVector.size]) (by simp [IntervalVector.size])).1
    (by simp [IntervalVector.is_empty]) (by simp [IntervalVector.is_empty])
  ⟨h.1, h.2.2.2.2.2.2⟩

/-! ## Bisection -/

theorem ofBounds_fin (a b : ℚ) (h : a ≤ b) :
    Interval.ofBounds (Dbl.fin a) (Dbl.fin b) = ⟨Dbl.fin a, Dbl.fin b, false⟩ := by
  simp [Interval.ofBounds, h]

theorem bisection_fin (l u : ℚ) (h : l ≤ u) :
    bisection (Interval.ofBounds (Dbl.fin l) (Dbl.fin u)) =
      some (⟨Dbl.fin l, Dbl.fin ((l + u) / 2), false⟩,
        ⟨Dbl.fin ((l + u) / 2), Dbl.fin u, false⟩) := by
  have h1 : l ≤ (l + u) / 2 := by linarith
  have h2 : (l + u) / 2 ≤ u := by linarith
  simp [bisection, Interval.mid, ofBounds_fin l u h, ofBounds_fin _ _ h1, ofBounds_fin _ _ h2]

/-- C5: bisection covering.  Splitting `[l,u]` with `l <= u` at its midpoint `m = (l+u)/2`, as
the bisection step of `optimize_pf` does, gives the halves `tl = [l,m]` and `tr = [m,u]`;
each half is `is_subset` of `[l,u]`, every `d` contained in `[l,u]` is contained in at least
one half, the halves do not `strictly_intersects`, and a `d` contained in both is `m`. -/
theorem bisection_covering (l u : ℚ) (h : l ≤ u) :
    ∃ tl tr : Interval,
      bisection (Interval.ofBounds (Dbl.fin l) (Dbl.fin u)) = some (tl, tr) ∧
      tl = ⟨Dbl.fin l, Dbl.fin ((l + u) / 2), false⟩ ∧
      tr = ⟨Dbl.fin ((l + u) / 2), Dbl.fin u, false⟩ ∧
      tl.is_subset (Interval.ofBounds (Dbl.fin l) (Dbl.fin u)) = true ∧
      tr.is_subset (Interval.ofBounds (Dbl.fin l) (Dbl.fin u)) = true ∧
      (∀ d : Dbl, (Interval.ofBounds (Dbl.fin l) (Dbl.fin u)).contains d = true →
        tl.contains d = true ∨ tr.contains d = true) ∧
      tl.strictly_intersects tr = false ∧
      (∀ d : Dbl, tl.contains d = true → tr.contains d = true →
        d = Dbl.fin ((l + u) / 2)) := by
  have h1 : l ≤ (l + u) / 2 := by linarith
  have h2 : (l + u) / 2 ≤ u := by linarith
  refine ⟨_, _, bisection_fin l u h, rfl, rfl, ?_, ?_, ?_, ?_, ?_⟩
  · simp [ofBounds_fin l u h, Interval.is_subset_eq_true_iff, h2]
  · simp [ofBounds_fin l u h, Interval.is_subset_eq_true_iff, h1]
  · intro d
    simp only [ofBounds_fin l u h, Interval.contains_eq_true_iff, true_and]
    rintro ⟨hl, hu⟩
    rcases le_total d (Dbl.fin ((l + u) / 2)) with hd | hd
    · exact Or.inl ⟨hl, hd⟩
    · exact Or.inr ⟨hd, hu⟩
  · simp [Interval.strictly_intersects, basic_strictly_intersects]
  · intro d
    simp only [Interval.contains_eq_true_iff, true_and]
    rintro ⟨_, hd1⟩ ⟨hd2, _⟩
    exact le_antisymm hd1 hd2

/-- The interval `[0,1]` of `optimize_pf` is split into `[0,1/2]` and `[1/2,1]`, for C5. -/
theorem bisection_covering_witness :
    (0 : ℚ) ≤ 1 ∧
    ∃ tl tr : Interval,
      bisection (Interval.ofBounds (Dbl.fin 0) (Dbl.fin 1)) = some (tl, tr) ∧
      tl = ⟨Dbl.fin 0, Dbl.fin ((0 + 1) / 2), false⟩ ∧
      tr = ⟨Dbl.fin ((0 + 1) / 2), Dbl.fin 1, false⟩ ∧
      tl.is_subset (Interval.ofBounds (Dbl.fin 0) (Dbl.fin 1)) = true ∧
      tr.is_subset (Interval.ofBounds (Dbl.fin 0) (Dbl.fin 1)) = true ∧
      (∀ d : Dbl, (Interval.ofBounds (Dbl.fin 0) (Dbl.fin 1)).contains d = true →
        tl.contains d = true ∨ tr.contains d = true) ∧
      tl.strictly_intersects tr = false ∧
      (∀ d : Dbl, tl.contains d = true → tr.contains d = true →
        d = Dbl.fin ((0 + 1) / 2)) :=
  ⟨by norm_num, bisection_covering 0 1 (by norm_num)⟩

/-! ## Rounding to the nearest double -/

theorem roundEven_intCast (n : ℤ) : roundEven (n : ℚ) = n := by
  simp [roundEven]

theorem roundEven_eq_of_lt (r : ℚ) (z : ℤ) (h1 : (z : ℚ) ≤ r) (h2 : r - z < 1 / 2) :
    roundEven r = z := by
  have hf : ⌊r⌋ = z := by
    rw [Int.floor_eq_iff]
    constructor
    · exact h1
    · linarith
  simp only [roundEven, hf]
  rw [if_pos h2]

theorem roundEven_eq_of_gt (r : ℚ) (z : ℤ) (h1 : r ≤ (z : ℚ)) (h2 : (z : ℚ) - r < 1 / 2) :
    roundEven r = z := by
  by_cases h : r = z
  · rw [h]; exact roundEven_intCast z
  have hlt : r < z := lt_of_le_of_ne h1 h
  have hf : ⌊r⌋ = z - 1 := by
    rw [Int.floor_eq_iff]
    push_cast
    constructor <;> linarith
  have h3 : ¬ (r - ((z : ℚ) - 1) < 1 / 2) := by
    intro h4; linarith
  have h4 : 1 / 2 < r - ((z : ℚ) - 1) := by linarith
  simp only [roundEven, hf]
  push_cast
  rw [if_neg h3, if_pos h4]
  ring

theorem roundEven_eq_of_tie (r : ℚ) (z : ℤ) (h1 : |r - z| = 1 / 2) (h2 : z % 2 = 0) :
    roundEven r = z := by
  rcases abs_eq (by norm_num : (0 : ℚ) ≤ 1 / 2) |>.mp h1 with h | h
  · have hf : ⌊r⌋ = z := by
      rw [Int.floor_eq_iff]
      constructor <;> linarith
    have h3 : ¬ (r - (z : ℚ) < 1 / 2) := by rw [h]; exact lt_irrefl _
    have h4 : ¬ (1 / 2 < r - (z : ℚ)) := by rw [h]; exact lt_irrefl _
    simp only [roundEven, hf]
    rw [if_neg h3, if_neg h4, if_pos h2]
  · have hf : ⌊r⌋ = z - 1 := by
      rw [Int.floor_eq_iff]
      push_cast
      constructor <;> linarith
    have h5 : r - ((z : ℚ) - 1) = 1 / 2 := by linarith
    have h6 : ¬ ((z - 1) % 2 = 0) := by omega
    simp only [roundEven, hf]
    push_cast
    rw [h5, if_neg (lt_irrefl _), if_neg (lt_irrefl _), if_neg h6]
    ring

/-- The characterisation of `roundEven`: the result is within one half, and even at a tie. -/
theorem roundEven_spec (r : ℚ) :
    |r - (roundEven r : ℚ)| < 1 / 2 ∨
      (|r - (roundEven r : ℚ)| = 1 / 2 ∧ roundEven r % 2 = 0) := by
  have h1 := Int.floor_le r
  have h2 := Int.lt_floor_add_one r
  unfold roundEven
  split_ifs with ha hb hc
  · left
    rw [abs_lt]; constructor <;> linarith
  · left
    push_cast
    rw [abs_lt]; constructor <;> linarith
  · right
    have : r - (⌊r⌋ : ℚ) = 1 / 2 := le_antisymm (not_lt.mp hb) (not_lt.mp ha)
    exact ⟨by rw [this]; norm_num, hc⟩
  · right
    have : r - (⌊r⌋ : ℚ) = 1 / 2 := le_antisymm (not_lt.mp hb) (not_lt.mp ha)
    refine ⟨?_, by omega⟩
    push_cast
    have h3 : r - ((⌊r⌋ : ℚ) + 1) = -(1 / 2) := by linarith
    rw [h3]; norm_num

theorem roundEven_unique (r : ℚ) (z : ℤ)
    (h : |r - (z : ℚ)| < 1 / 2 ∨ (|r - (z : ℚ)| = 1 / 2 ∧ z % 2 = 0)) : roundEven r = z := by
  rcases h with h | ⟨h, he⟩
  · rw [abs_lt] at h
    by_cases hz : (z : ℚ) ≤ r
    · exact roundEven_eq_of_lt r z hz (by linarith)
    · exact roundEven_eq_of_gt r z (by linarith) (by linarith)
  · exact roundEven_eq_of_tie r z h he

theorem roundEven_neg (r : ℚ) : roundEven (-r) = -roundEven r := by
  apply roundEven_unique
  have h : -r - ((-roundEven r : ℤ) : ℚ) = -(r - (roundEven r : ℚ)) := by push_cast; ring
  rw [h, abs_neg]
  rcases roundEven_spec r with h1 | ⟨h1, h2⟩
  · exact Or.inl h1
  · exact Or.inr ⟨h1, by omega⟩

theorem abs_sub_roundEven_le (r : ℚ) : |r - (roundEven r : ℚ)| ≤ 1 / 2 := by
  rcases roundEven_spec r with h | ⟨h, _⟩
  · exact le_of_lt h
  · exact le_of_eq h

theorem ulpExp_neg (q : ℚ) : ulpExp (-q) = ulpExp q := by
  simp [ulpExp]

theorem round64_neg (q : ℚ) : round64 (-q) = Dbl.neg (round64 q) := by
  by_cases h0 : q = 0
  · subst h0; simp [round64, Dbl.neg]
  have h0n : -q ≠ 0 := neg_ne_zero.mpr h0
  have hr : ((roundEven (-q / 2 ^ ulpExp q) : ℤ) : ℚ) * 2 ^ ulpExp q =
      -(((roundEven (q / 2 ^ ulpExp q) : ℤ) : ℚ) * 2 ^ ulpExp q) := by
    rw [neg_div, roundEven_neg]; push_cast; ring
  unfold round64
  rw [if_neg h0, if_neg h0n, ulpExp_neg, hr, abs_neg]
  by_cases hov : (2 : ℚ) ^ (1024 : ℤ) ≤ |((roundEven (q / 2 ^ ulpExp q) : ℤ) : ℚ) * 2 ^ ulpExp q|
  · rw [if_pos hov, if_pos hov]
    rcases lt_or_gt_of_ne h0 with h | h
    · have h1 : ¬ (0 < q) := not_lt.mpr (le_of_lt h)
      have h2 : 0 < -q := neg_pos.mpr h
      rw [if_pos h2, if_neg h1]; rfl
    · have h1 : ¬ (0 < -q) := by
        intro h'; linarith [neg_pos.mp h']
      rw [if_neg h1, if_pos h]; rfl
  · rw [if_neg hov, if_neg hov]; rfl

theorem log_eq_of_bounds (q : ℚ) (e : ℤ) (h1 : (2 : ℚ) ^ e ≤ |q|) (h2 : |q| < (2 : ℚ) ^ (e + 1)) :
    Int.log 2 |q| = e := by
  have hpos : 0 < |q| := lt_of_lt_of_le (by positivity) h1
  have ha : e ≤ Int.log 2 |q| := (Int.zpow_le_iff_le_log (by norm_num) hpos).mp (by exact_mod_cast h1)
  have hb : Int.log 2 |q| < e + 1 := (Int.lt_zpow_iff_log_lt (by norm_num) hpos).mp (by exact_mod_cast h2)
  omega

theorem ulpExp_eq (q : ℚ) (e : ℤ) (h1 : (2 : ℚ) ^ e ≤ |q|) (h2 : |q| < (2 : ℚ) ^ (e + 1)) :
    ulpExp q = max e (-1022) - 52 := by
  rw [ulpExp, log_eq_of_bounds q e h1 h2]

theorem ulpExp_ge (q : ℚ) : -1074 ≤ ulpExp q := by
  have := le_max_right (Int.log 2 |q|) (-1022)
  unfold ulpExp
  omega

theorem zpow_ulpExp_le (q : ℚ) (h : (2 : ℚ) ^ (-1074 : ℤ) ≤ |q|) : (2 : ℚ) ^ ulpExp q ≤ |q| := by
  have hpos : 0 < |q| := lt_of_lt_of_le (by positivity) h
  rcases le_total (Int.log 2 |q|) (-1022) with hc | hc
  · have : ulpExp q = -1074 := by
      unfold ulpExp; rw [max_eq_right hc]; norm_num
    rw [this]; exact h
  · have hu : ulpExp q ≤ Int.log 2 |q| := by
      unfold ulpExp; rw [max_eq_left hc]; omega
    have h1 : ((2 : ℕ) : ℚ) ^ Int.log 2 |q| ≤ |q| := Int.zpow_log_le_self (by norm_num) hpos
    have h2 : (2 : ℚ) ^ ulpExp q ≤ (2 : ℚ) ^ Int.log 2 |q| :=
      zpow_le_zpow_right₀ (by norm_num) hu
    exact le_trans h2 (by exact_mod_cast h1)

/-- The evaluation of `round64` at a number whose binary exponent is `e`. -/
theorem round64_eq (q : ℚ) (e u m : ℤ) (h1 : (2 : ℚ) ^ e ≤ |q|) (h2 : |q| < (2 : ℚ) ^ (e + 1))
    (hu : u = max e (-1022) - 52) (hm : roundEven (q / 2 ^ u) = m)
    (hlt : |(m : ℚ) * 2 ^ u| < (2 : ℚ) ^ (1024 : ℤ)) :
    round64 q = Dbl.fin ((m : ℚ) * 2 ^ u) := by
  have h0 : q ≠ 0 := by
    intro h; rw [h, abs_zero] at h1
    exact absurd h1 (not_le.mpr (by positivity))
  have hue : ulpExp q = u := by rw [ulpExp_eq q e h1 h2, hu]
  unfold round64
  rw [if_neg h0, hue, hm, if_neg (not_le.mpr hlt)]

/-- The evaluation of `round64` at a positive number that overflows. -/
theorem round64_eq_posInf (q : ℚ) (e u m : ℤ) (hq : 0 < q) (h1 : (2 : ℚ) ^ e ≤ |q|)
    (h2 : |q| < (2 : ℚ) ^ (e + 1)) (hu : u = max e (-1022) - 52)
    (hm : roundEven (q / 2 ^ u) = m) (hge : (2 : ℚ) ^ (1024 : ℤ) ≤ |(m : ℚ) * 2 ^ u|) :
    round64 q = Dbl.posInf := by
  have hue : ulpExp q = u := by rw [ulpExp_eq q e h1 h2, hu]
  unfold round64
  rw [if_neg (ne_of_gt hq), hue, hm, if_pos hge, if_pos hq]

/-- A number `m * 2^k` with a mantissa `m` of at most 53 bits and `k >= -1074`, below `2^1024`
in absolute value, is a double: rounding leaves it unchanged. -/
theorem round64_exact (m k : ℤ) (hm : |m| < 2 ^ 53) (hk : -1074 ≤ k)
    (hlt : |(m : ℚ) * 2 ^ k| < (2 : ℚ) ^ (1024 : ℤ)) :
    round64 ((m : ℚ) * 2 ^ k) = Dbl.fin ((m : ℚ) * 2 ^ k) := by
  by_cases hm0 : m = 0
  · subst hm0; simp [round64]
  have h2k : (0 : ℚ) < 2 ^ k := by positivity
  have hq0 : (m : ℚ) * 2 ^ k ≠ 0 := mul_ne_zero (by exact_mod_cast hm0) (ne_of_gt h2k)
  have hpos : 0 < |(m : ℚ) * 2 ^ k| := abs_pos.mpr hq0
  have hmq : |(m : ℚ)| < 2 ^ (53 : ℤ) := by
    have : ((|m| : ℤ) : ℚ) < ((2 ^ 53 : ℤ) : ℚ) := by exact_mod_cast hm
    rw [Int.cast_abs] at this
    norm_num at this ⊢
    exact this
  have hlog : Int.log 2 |(m : ℚ) * 2 ^ k| < k + 53 := by
    rw [← Int.lt_zpow_iff_log_lt (by norm_num) hpos]
    rw [abs_mul, abs_of_pos h2k, add_comm, zpow_add₀ (by norm_num)]
    push_cast
    exact mul_lt_mul_of_pos_right hmq h2k
  have hu : ulpExp ((m : ℚ) * 2 ^ k) ≤ k := by
    unfold ulpExp
    rcases le_total (Int.log 2 |(m : ℚ) * 2 ^ k|) (-1022) with hc | hc
    · rw [max_eq_right hc]; omega
    · rw [max_eq_left hc]; omega
  obtain ⟨j, hj⟩ : ∃ j : ℕ, k = ulpExp ((m : ℚ) * 2 ^ k) + j :=
    ⟨(k - ulpExp ((m : ℚ) * 2 ^ k)).toNat, by omega⟩
  have hdiv : (m : ℚ) * 2 ^ k / 2 ^ ulpExp ((m : ℚ) * 2 ^ k) = ((m * 2 ^ j : ℤ) : ℚ) := by
    have hne : (2 : ℚ) ^ ulpExp ((m : ℚ) * 2 ^ k) ≠ 0 := by positivity
    rw [div_eq_iff hne]
    nth_rewrite 1 [hj]
    rw [zpow_add₀ (by norm_num), zpow_natCast]
    push_cast; ring
  have hback : ((m * 2 ^ j : ℤ) : ℚ) * 2 ^ ulpExp ((m : ℚ) * 2 ^ k) = (m : ℚ) * 2 ^ k := by
    rw [← hdiv]
    have hne : (2 : ℚ) ^ ulpExp ((m : ℚ) * 2 ^ k) ≠ 0 := by positivity
    field_simp
  unfold round64
  rw [if_neg hq0, hdiv, roundEven_intCast, hback, if_neg (not_le.mpr hlt)]

/-- An integer below `2^53` in absolute value is a double. -/
theorem round64_intCast (n : ℤ) (h : |n| < 2 ^ 53) : round64 (n : ℚ) = Dbl.fin n := by
  have hq : |(n : ℚ)| < 2 ^ (53 : ℤ) := by
    have : ((|n| : ℤ) : ℚ) < ((2 ^ 53 : ℤ) : ℚ) := by exact_mod_cast h
    rw [Int.cast_abs] at this
    norm_num at this ⊢
    exact this
  have := round64_exact n 0 h (by norm_num) (by
    rw [zpow_zero, mul_one]
    exact lt_trans hq (by norm_num))
  simpa using this

/-- A number of absolute value at least `2^-1074`, the least positive double, does not round
to zero. -/
theorem round64_ne_zero (q : ℚ) (h : (2 : ℚ) ^ (-1074 : ℤ) ≤ |q|) : round64 q ≠ Dbl.fin 0 := by
  have hpos : 0 < |q| := lt_of_lt_of_le (by positivity) h
  have h0 : q ≠ 0 := abs_pos.mp hpos
  have h2u : (0 : ℚ) < 2 ^ ulpExp q := by positivity
  have ht : 1 ≤ |q / 2 ^ ulpExp q| := by
    rw [abs_div, abs_of_pos h2u, le_div_iff₀ h2u, one_mul]
    exact zpow_ulpExp_le q h
  have hm : (roundEven (q / 2 ^ ulpExp q) : ℚ) ≠ 0 := by
    intro hz
    have := abs_sub_roundEven_le (q / 2 ^ ulpExp q)
    rw [hz, sub_zero] at this
    linarith
  have hr : (roundEven (q / 2 ^ ulpExp q) : ℚ) * 2 ^ ulpExp q ≠ 0 :=
    mul_ne_zero hm (ne_of_gt h2u)
  unfold round64
  rw [if_neg h0]
  split_ifs <;> simp [hr]

/-- Every finite double is a multiple of `2^-1074`. -/
theorem round64_grid (q r : ℚ) (h : round64 q = Dbl.fin r) :
    ∃ n : ℤ, r = (n : ℚ) * 2 ^ (-1074 : ℤ) := by
  unfold round64 at h
  split_ifs at h with h0 hov hq
  · exact ⟨0, by simpa using (Dbl.fin.inj h).symm⟩
  · have hu := ulpExp_ge q
    obtain ⟨j, hj⟩ : ∃ j : ℕ, ulpExp q = -1074 + j := ⟨(ulpExp q + 1074).toNat, by omega⟩
    refine ⟨roundEven (q / 2 ^ ulpExp q) * 2 ^ j, ?_⟩
    rw [← Dbl.fin.inj h]
    nth_rewrite 2 [hj]
    rw [zpow_add₀ (by norm_num), zpow_natCast]
    push_cast; ring

/-- Two different finite doubles are at least `2^-1074` apart. -/
theorem abs_sub_ge_of_doubles (p q : ℚ) (hp : round64 p = Dbl.fin p) (hq : round64 q = Dbl.fin q)
    (hne : p ≠ q) : (2 : ℚ) ^ (-1074 : ℤ) ≤ |p - q| := by
  obtain ⟨n1, h1⟩ := round64_grid p p hp
  obtain ⟨n2, h2⟩ := round64_grid q q hq
  have hg : (0 : ℚ) < 2 ^ (-1074 : ℤ) := by positivity
  have hn : n1 ≠ n2 := by
    intro h; apply hne; rw [h1, h2, h]
  have h3 : (1 : ℚ) ≤ |((n1 - n2 : ℤ) : ℚ)| := by
    rw [← Int.cast_abs]
    have : (1 : ℤ) ≤ |n1 - n2| := Int.one_le_abs (sub_ne_zero.mpr hn)
    exact_mod_cast this
  have h4 : p - q = ((n1 - n2 : ℤ) : ℚ) * 2 ^ (-1074 : ℤ) := by
    rw [h1, h2]; push_cast; ring
  rw [h4, abs_mul, abs_of_pos hg]
  nlinarith

theorem round64_zero : round64 0 = Dbl.fin 0 := by simp [round64]

theorem round64_one : round64 1 = Dbl.fin 1 := by
  simpa using round64_intCast 1 (by norm_num)

theorem round64_two : round64 2 = Dbl.fin 2 := by
  simpa using round64_intCast 2 (by norm_num)

theorem round64_neg_one : round64 (-1) = Dbl.fin (-1) := by
  simpa using round64_intCast (-1) (by norm_num)

theorem round64_neg_two : round64 (-2) = Dbl.fin (-2) := by
  simpa using round64_intCast (-2) (by norm_num)

theorem round64_three : round64 3 = Dbl.fin 3 := by
  simpa using round64_intCast 3 (by norm_num)

theorem round64_half : round64 (1 / 2) = Dbl.fin (1 / 2) := by
  have h := round64_exact 1 (-1) (by norm_num) (by norm_num) (by norm_num [abs_of_pos])
  norm_num at h
  exact h

theorem round64_three_halves : round64 (3 / 2) = Dbl.fin (3 / 2) := by
  have h := round64_exact 3 (-1) (by norm_num) (by norm_num) (by norm_num [abs_of_pos])
  norm_num at h
  exact h

theorem round64_third :
    round64 (1 / 3) = Dbl.fin (6004799503160661 / 18014398509481984) := by
  have h := round64_eq (1 / 3) (-2) (-54) 6004799503160661
    (by norm_num [abs_of_pos]) (by norm_num [abs_of_pos]) (by norm_num)
    (roundEven_eq_of_lt _ _ (by norm_num) (by norm_num)) (by norm_num [abs_of_pos])
  rw [h]; norm_num

theorem round64_two_pow_53_add_one :
    round64 (9007199254740993) = Dbl.fin 9007199254740992 := by
  have h := round64_eq 9007199254740993 53 1 4503599627370496
    (by norm_num [abs_of_pos]) (by norm_num [abs_of_pos]) (by norm_num)
    (roundEven_eq_of_tie _ _ (by norm_num [abs_of_pos]) (by norm_num)) (by norm_num [abs_of_pos])
  rw [h]; norm_num

theorem round64_two_pow_1024 : round64 (2 ^ 1024) = Dbl.posInf := by
  have h := round64_eq_posInf (2 ^ 1024) 1024 972 (2 ^ 52) (by positivity)
    (by norm_num [abs_of_pos]) (by norm_num [abs_of_pos]) (by norm_num)
    (by
      have : ((2 : ℚ) ^ 1024 / 2 ^ (972 : ℤ)) = ((2 ^ 52 : ℤ) : ℚ) := by norm_num
      rw [this, roundEven_intCast]) (by norm_num [abs_of_pos])
  exact h

theorem round64_hundredth :
    round64 (1 / 100) = Dbl.fin (5764607523034235 / 576460752303423488) := by
  have h := round64_eq (1 / 100) (-7) (-59) 5764607523034235
    (by norm_num [abs_of_pos]) (by norm_num [abs_of_pos]) (by norm_num)
    (roundEven_eq_of_gt _ _ (by norm_num) (by norm_num)) (by norm_num [abs_of_pos])
  rw [h]; norm_num

theorem round64_hundredth_idem :
    round64 (5764607523034235 / 576460752303423488) =
      Dbl.fin (5764607523034235 / 576460752303423488) := by
  have h := round64_exact 5764607523034235 (-59) (by norm_num) (by norm_num)
    (by norm_num [abs_of_pos])
  norm_num at h
  exact h

/-! ## Segment intersection -/

namespace Double

theorem add_val (a b : Dbl) : (val a + val b : Double) = Dbl.add a b := rfl

theorem sub_val (a b : Dbl) : (val a - val b : Double) = Dbl.add a (Dbl.neg b) := rfl

theorem mul_val (a b : Dbl) : (val a * val b : Double) = Dbl.mul a b := rfl

theorem div_val (a b : Dbl) : (val a / val b : Double) = Dbl.div a b := rfl

@[simp] theorem nan_add (x : Double) : nan + x = nan := rfl

@[simp] theorem add_nan (x : Double) : x + nan = nan := by cases x <;> rfl

@[simp] theorem nan_sub (x : Double) : nan - x = nan := rfl

@[simp] theorem sub_nan (x : Double) : x - nan = nan := by cases x <;> rfl

@[simp] theorem nan_mul (x : Double) : nan * x = nan := rfl

@[simp] theorem mul_nan (x : Double) : x * nan = nan := by cases x <;> rfl

@[simp] theorem nan_div (x : Double) : nan / x = nan := rfl

@[simp] theorem div_nan (x : Double) : x / nan = nan := by cases x <;> rfl

@[simp] theorem ofRat_add (a b : ℚ) : ofRat a + ofRat b = val (round64 (a + b)) := rfl

@[simp] theorem ofRat_sub (a b : ℚ) : ofRat a - ofRat b = val (round64 (a - b)) := by
  simp [ofRat, sub_val, Dbl.add, Dbl.neg, sub_eq_add_neg]

@[simp] theorem ofRat_mul (a b : ℚ) : ofRat a * ofRat b = val (round64 (a * b)) := rfl

theorem ofRat_div (a b : ℚ) (h : b ≠ 0) : ofRat a / ofRat b = val (round64 (a / b)) := by
  simp [ofRat, div_val, Dbl.div, h]

@[simp] theorem val_round64_zero : val (round64 0) = ofRat 0 := by
  rw [round64_zero]; rfl

@[simp] theorem val_round64_one : val (round64 1) = ofRat 1 := by
  rw [round64_one]; rfl

@[simp] theorem val_round64_two : val (round64 2) = ofRat 2 := by
  rw [round64_two]; rfl

@[simp] theorem val_round64_neg_one : val (round64 (-1)) = ofRat (-1) := by
  rw [round64_neg_one]; rfl

@[simp] theorem val_round64_neg_two : val (round64 (-2)) = ofRat (-2) := by
  rw [round64_neg_two]; rfl

@[simp] theorem ofRat_div_zero (a : ℚ) :
    ofRat a / ofRat 0 =
      if a = 0 then nan else if 0 < a then val Dbl.posInf else val Dbl.negInf := by
  simp [ofRat, div_val, Dbl.div]

@[simp] theorem eq_ofRat (a b : ℚ) : eq (ofRat a) (ofRat b) = decide (a = b) := by
  simp [ofRat, eq]

@[simp] theorem le_ofRat (a b : ℚ) : le (ofRat a) (ofRat b) = decide (a ≤ b) := by
  simp [ofRat, le]

@[simp] theorem eq_ofRat_posInf (a : ℚ) : eq (ofRat a) (val Dbl.posInf) = false := by
  simp [ofRat, eq]

@[simp] theorem eq_ofRat_negInf (a : ℚ) : eq (ofRat a) (val Dbl.negInf) = false := by
  simp [ofRat, eq]

@[simp] theorem eq_posInf_ofRat (a : ℚ) : eq (val Dbl.posInf) (ofRat a) = false := by
  simp [ofRat, eq]

@[simp] theorem eq_posInf_posInf : eq (val Dbl.posInf) (val Dbl.posInf) = true := by
  simp [eq]

@[simp] theorem eq_nan_left (x : Double) : eq nan x = false := rfl

@[simp] theorem eq_nan_right (x : Double) : eq x nan = false := by cases x <;> rfl

end Double

/-- C9, failing input: the segments from `(0,0)` to `(1,1)` and from `(1,1)` to `(2,2)` have
exactly one common point, `(1,1)`, and `pointIntersection` returns `(NaN, NaN)` for them: both
slopes are 1 and the quotient `(d - c) / (m - n)` is `0/0`. -/
theorem pointIntersection_collinear_touching :
    (∀ p : ℚ × ℚ, (onSegment p (0, 0) (1, 1) ∧ onSegment p (1, 1) (2, 2)) ↔ p = (1, 1)) ∧
    pointIntersection (Pair.ofRat (0, 0)) (Pair.ofRat (1, 1)) (Pair.ofRat (1, 1))
      (Pair.ofRat (2, 2)) = (Double.nan, Double.nan) := by
  constructor
  · rintro ⟨x, y⟩
    constructor
    · rintro ⟨⟨t, ht0, ht1, hx, hy⟩, ⟨r, hr0, hr1, hx2, hy2⟩⟩
      simp only [sub_zero, zero_add, mul_one] at hx hy hx2 hy2
      have hr : r = 0 := by linarith
      have hxe : x = 1 := by rw [hx2, hr]; norm_num
      have hye : y = 1 := by rw [hy2, hr]; norm_num
      rw [hxe, hye]
    · intro h
      rw [Prod.mk.injEq] at h
      obtain ⟨hx, hy⟩ := h
      subst hx; subst hy
      exact ⟨⟨1, by norm_num, by norm_num, by norm_num, by norm_num⟩,
        ⟨0, by norm_num, by norm_num, by norm_num, by norm_num⟩⟩
  · norm_num [pointIntersection, getSlopeSegment, Pair.ofRat, Double.ofRat_div]

/-- C10, failing input: the segments from `(0,0)` to `(1,1)` and from `(2,0)` to `(3,-1)` have
no common point, and `pointIntersection` returns the point `(1,1)`, where their supporting
lines meet. -/
theorem pointIntersection_disjoint_segments :
    (¬ ∃ p : ℚ × ℚ, onSegment p (0, 0) (1, 1) ∧ onSegment p (2, 0) (3, -1)) ∧
    pointIntersection (Pair.ofRat (0, 0)) (Pair.ofRat (1, 1)) (Pair.ofRat (2, 0))
      (Pair.ofRat (3, -1)) = Pair.ofRat (1, 1) := by
  constructor
  · rintro ⟨⟨x, y⟩, ⟨t, ht0, ht1, hx, hy⟩, ⟨r, hr0, hr1, hx2, hy2⟩⟩
    simp only [sub_zero, zero_add, mul_one] at hx hy hx2 hy2
    have h3 : x = 2 + r := by rw [hx2]; ring
    linarith
  · norm_num [pointIntersection, getSlopeSegment, Pair.ofRat, Double.ofRat_div]

/-! ## The contractor model: soundness -/

namespace Interval

theorem inter_is_subset_left (x y : Interval) : (x.inter y).is_subset x = true := by
  rw [is_subset_eq_true_iff]
  unfold inter
  cases hx : x.is_empty <;> cases hy : y.is_empty <;> simp [EMPTY_SET]
  unfold ofBounds
  split <;> simp [EMPTY_SET]

end Interval

namespace IntervalVector

theorem is_subset_of_is_empty (x y : IntervalVector) (h : x.is_empty = true) :
    x.is_subset y = some true := by
  simp [is_subset, guardOr, h]

theorem is_empty_of_is_subset (x y : IntervalVector) (h : x.is_subset y = some true)
    (hy : y.is_empty = true) : x.is_empty = true := by
  rw [is_subset_eq_some_true_iff] at h
  rcases h with h | ⟨h, _⟩
  · exact h
  · rw [hy] at h; exact absurd h (by simp)

theorem is_subset_of_forall₂ (r b : IntervalVector)
    (h : List.Forall₂ (fun a c => Interval.is_subset a c = true) r b) :
    r.is_subset b = some true := by
  rw [is_subset_eq_some_true_iff]
  cases hr : r.is_empty
  · right
    induction h with
    | nil => exact ⟨rfl, List.Forall₂.nil⟩
    | cons hac _ ih =>
      rename_i a c as cs
      simp only [is_empty, List.any_cons, Bool.or_eq_false_iff] at hr
      have ih' := ih hr.2
      rw [Interval.is_subset_eq_true_iff] at hac
      rcases hac with hac | ⟨hc, h1, h2⟩
      · rw [hr.1] at hac; exact absurd hac (by simp)
      · refine ⟨?_, List.Forall₂.cons ((basic_is_subset_eq_true_iff _ _).2 ⟨h1, h2⟩) ih'.2⟩
        simp only [is_empty, List.any_cons, Bool.or_eq_false_iff]
        exact ⟨hc, ih'.1⟩
  · exact Or.inl rfl

theorem length_interFrom (f : Nat → Interval) (i : Nat) (b : IntervalVector) :
    (interFrom f i b).length = b.length := by
  induction b generalizing i with
  | nil => rfl
  | cons c cs ih => simp [interFrom, ih]

theorem forall₂_interFrom (f : Nat → Interval) (i : Nat) (b : IntervalVector) :
    List.Forall₂ (fun a c => Interval.is_subset a c = true) (interFrom f i b) b := by
  induction b generalizing i with
  | nil => exact List.Forall₂.nil
  | cons c cs ih => exact List.Forall₂.cons (Interval.inter_is_subset_left c (f i)) (ih (i + 1))

theorem contracted_refl (b : IntervalVector) : Contracted b b :=
  ⟨rfl, box_is_subset_refl b⟩

theorem contracted_trans {x y z : IntervalVector} (h1 : Contracted x y) (h2 : Contracted y z) :
    Contracted x z :=
  ⟨h1.1.trans h2.1, box_is_subset_trans x y z h1.2 h2.2⟩

theorem contracted_interFrom (f : Nat → Interval) (b : IntervalVector) :
    Contracted (interFrom f 0 b) b :=
  ⟨length_interFrom f 0 b, is_subset_of_forall₂ _ _ (forall₂_interFrom f 0 b)⟩

end IntervalVector

open IntervalVector in
theorem contracted_newtonLoop (gs : IntervalVector → Option (Nat → Interval))
    (rb : IntervalVector → IntervalVector → Bool) (fuel : Nat) (x : IntervalVector) :
    Contracted (newtonLoop gs rb fuel x) x := by
  induction fuel generalizing x with
  | zero => exact contracted_refl x
  | succ k ih =>
    unfold newtonLoop
    cases hg : gs x with
    | none => exact contracted_refl x
    | some cand =>
      have h1 := contracted_interFrom cand x
      simp only
      split
      · exact h1
      · split
        · exact h1
        · exact contracted_trans (ih _) h1

open IntervalVector in
theorem contracted_fixPointLoop (c : IntervalVector → IntervalVector)
    (rb : IntervalVector → IntervalVector → Bool) (hc : ∀ b, Contracted (c b) b)
    (fuel : Nat) (b : IntervalVector) :
    Contracted (fixPointLoop c rb fuel b) b := by
  induction fuel generalizing b with
  | zero => exact contracted_refl b
  | succ k ih =>
    unfold fixPointLoop
    simp only
    split
    · exact hc b
    · split
      · exact hc b
      · exact contracted_trans (ih _) (hc b)

theorem minList_mem (l : List Dbl) (m : Dbl) (h : minList l = some m) : m ∈ l := by
  induction l generalizing m with
  | nil => simp [minList] at h
  | cons d ds ih =>
    unfold minList at h
    cases hm : minList ds with
    | none =>
      rw [hm] at h
      simp only [Option.some.injEq] at h
      rw [← h]; exact List.mem_cons_self _ _
    | some m' =>
      rw [hm] at h
      simp only [Option.some.injEq] at h
      rcases min_choice d m' with h' | h'
      · rw [← h, h']; exact List.mem_cons_self _ _
      · rw [← h, h']; exact List.mem_cons_of_mem _ (ih m' hm)

theorem maxList_mem (l : List Dbl) (m : Dbl) (h : maxList l = some m) : m ∈ l := by
  induction l generalizing m with
  | nil => simp [maxList] at h
  | cons d ds ih =>
    unfold maxList at h
    cases hm : maxList ds with
    | none =>
      rw [hm] at h
      simp only [Option.some.injEq] at h
      rw [← h]; exact List.mem_cons_self _ _
    | some m' =>
      rw [hm] at h
      simp only [Option.some.injEq] at h
      rcases max_choice d m' with h' | h'
      · rw [← h, h']; exact List.mem_cons_self _ _
      · rw [← h, h']; exact List.mem_cons_of_mem _ (ih m' hm)

theorem qinter1_cases (xs : List Interval) (q : Nat) :
    (qinter1 xs q = Interval.EMPTY_SET) ∨
    ∃ l u, minList (lowers (xs.filter (fun x => !x.is_empty)) q) = some l ∧
      maxList (uppers (xs.filter (fun x => !x.is_empty)) q) = some u ∧
      qinter1 xs q = Interval.ofBounds l u := by
  unfold qinter1
  simp only
  cases hl : minList (lowers (xs.filter (fun x => !x.is_empty)) q) with
  | none => exact Or.inl rfl
  | some l =>
    cases hu : maxList (uppers (xs.filter (fun x => !x.is_empty)) q) with
    | none => exact Or.inl rfl
    | some u => exact Or.inr ⟨l, u, rfl, rfl, rfl⟩

theorem mem_lowers (ys : List Interval) (q : Nat) (d : Dbl) :
    d ∈ lowers ys q ↔ (∃ a ∈ ys, a.lb = d) ∧ q ≤ coverage ys d := by
  simp [lowers, List.mem_filter]

theorem mem_uppers (ys : List Interval) (q : Nat) (d : Dbl) :
    d ∈ uppers ys q ↔ (∃ a ∈ ys, a.ub = d) ∧ q ≤ coverage ys d := by
  simp [uppers, List.mem_filter]

theorem qinter1_is_subset (xs : List Interval) (q : Nat) (y : Interval)
    (h : ∀ x ∈ xs, x.is_empty = false → y.is_empty = false ∧ y.lb ≤ x.lb ∧ x.ub ≤ y.ub) :
    (qinter1 xs q).is_subset y = true := by
  rw [Interval.is_subset_eq_true_iff]
  rcases qinter1_cases xs q with h0 | ⟨l, u, hl, hu, h0⟩
  · rw [h0]; exact Or.inl rfl
  · rw [h0]
    have hl' := (mem_lowers _ _ _).1 (minList_mem _ _ hl)
    have hu' := (mem_uppers _ _ _).1 (maxList_mem _ _ hu)
    obtain ⟨⟨a, ha, hal⟩, _⟩ := hl'
    obtain ⟨⟨c, hc, hcu⟩, _⟩ := hu'
    simp only [List.mem_filter, Bool.not_eq_true'] at ha hc
    have h1 := h a ha.1 ha.2
    have h2 := h c hc.1 hc.2
    unfold Interval.ofBounds
    split
    · right
      refine ⟨h1.1, ?_, ?_⟩
      · rw [← hal]; exact h1.2.1
      · rw [← hcu]; exact h2.2.2
    · exact Or.inl rfl

theorem is_empty_eq_false_iff (b : IntervalVector) :
    b.is_empty = false ↔ ∀ x ∈ b, x.is_empty = false := by
  simp [IntervalVector.is_empty]

open IntervalVector in
theorem contracted_qinter (b : IntervalVector) (boxes : List IntervalVector) (q : Nat)
    (h : ∀ c ∈ boxes, Contracted c b) : Contracted (qinter b.size boxes q) b := by
  refine ⟨by simp [qinter, IntervalVector.size], ?_⟩
  unfold qinter
  apply is_subset_of_forall₂
  rw [List.forall₂_iff_get]
  refine ⟨by simp [IntervalVector.size], ?_⟩
  intro i h1 h2
  simp only [List.get_eq_getElem, List.getElem_map, List.getElem_range]
  apply qinter1_is_subset
  intro x hx hxe
  simp only [column, List.mem_map, List.mem_filter, Bool.not_eq_true'] at hx
  obtain ⟨c, ⟨hc, hce⟩, hcx⟩ := hx
  obtain ⟨hlen, hsub⟩ := h c hc
  rw [is_subset_eq_some_true_iff] at hsub
  rcases hsub with hsub | ⟨hb, hf⟩
  · rw [hce] at hsub; exact absurd hsub (by simp)
  · rw [List.forall₂_iff_get] at hf
    have hi : i < c.length := by rw [hlen]; exact h2
    have h3 := hf.2 i hi h2
    simp only [List.get_eq_getElem] at h3
    rw [basic_is_subset_eq_true_iff] at h3
    have hcx' : c.get ⟨i, hi⟩ = x := by
      rw [← hcx]; simp [List.getD, hi]
    simp only [List.get_eq_getElem] at hcx'
    rw [hcx'] at h3
    exact ⟨(is_empty_eq_false_iff b).1 hb _ (List.getElem_mem h2), h3.1, h3.2⟩

open IntervalVector in
theorem contracted_contract (fuel : Nat) (c : Ctc) :
    ∀ b : IntervalVector, Contracted (c.contract fuel b) b := by
  refine @Ctc.rec (fun c => ∀ b : IntervalVector, Contracted (c.contract fuel b) b)
    (fun l => (∀ b : IntervalVector, Contracted (Ctc.contractSeq fuel l b) b) ∧
      (∀ b : IntervalVector, ∀ r ∈ Ctc.contractEach fuel l b, Contracted r b))
    ?_ ?_ ?_ ?_ ?_ ?_ ?_ c
  · intro proj b
    exact contracted_interFrom (proj b) b
  · intro gs rb b
    exact contracted_newtonLoop gs rb fuel b
  · intro l ih b
    exact ih.1 b
  · intro c rb ih b
    exact contracted_fixPointLoop _ rb ih fuel b
  · intro l q ih b
    exact contracted_qinter b _ q (ih.2 b)
  · constructor
    · intro b; exact contracted_refl b
    · intro b r hr; simp [Ctc.contractEach] at hr
  · intro c l ihc ihl
    constructor
    · intro b
      unfold Ctc.contractSeq
      simp only
      split
      · exact ihc b
      · exact contracted_trans (ihl.1 _) (ihc b)
    · intro b r hr
      simp only [Ctc.contractEach, List.mem_cons] at hr
      rcases hr with hr | hr
      · rw [hr]; exact ihc b
      · exact ihl.2 b r hr

/-- C1: for every contractor of the model (`CtcFwdBwd`, `CtcNewton`, `CtcCompo`,
`CtcFixPoint`, `CtcQInter`, whatever their sub-contractors and parameters) and every box
`b`, the box left by `contract(b)` is a subset of `b` for the relation `is_subset` on
interval vectors, after any number of iterations of the loops. -/
theorem contract_is_subset (fuel : Nat) (c : Ctc) (b : IntervalVector) :
    (c.contract fuel b).is_subset b = some true :=
  (contracted_contract fuel c b).2

/-- C2: for all contractors `c1`, `c2` of the model and every box `b`,
`CtcCompo({c1,c2}).contract(b)` equals `c2.contract(c1.contract(b))` (equality of boxes: same
size, both empty or the same components).  If `c1` empties the box, the result is the empty
box left by `c1`: `c2` is not applied.  If `c1` leaves a non-empty box, the result is the very
box `c2.contract(c1.contract(b))`. -/
theorem compo_law (fuel : Nat) (c1 c2 : Ctc) (b : IntervalVector) :
    IntervalVector.eq ((Ctc.Compo [c1, c2]).contract fuel b)
      (c2.contract fuel (c1.contract fuel b)) = true ∧
    ((c1.contract fuel b).is_empty = true →
      (Ctc.Compo [c1, c2]).contract fuel b = c1.contract fuel b ∧
      ((Ctc.Compo [c1, c2]).contract fuel b).is_empty = true) ∧
    ((c1.contract fuel b).is_empty = false →
      (Ctc.Compo [c1, c2]).contract fuel b = c2.contract fuel (c1.contract fuel b)) := by
  have hdef : (Ctc.Compo [c1, c2]).contract fuel b =
      if (c1.contract fuel b).is_empty then c1.contract fuel b
      else c2.contract fuel (c1.contract fuel b) := by
    simp [Ctc.contract, Ctc.contractSeq]
  have h2 := contracted_contract fuel c2 (c1.contract fuel b)
  refine ⟨?_, ?_, ?_⟩
  · rw [hdef]
    cases h : (c1.contract fuel b).is_empty
    · simp [IntervalVector.eq]
    · have he := IntervalVector.is_empty_of_is_subset _ _ h2.2 h
      simp [IntervalVector.eq, IntervalVector.size, h, he, h2.1]
  · intro h
    rw [hdef]
    simp [h]
  · intro h
    rw [hdef]
    simp [h]

/-- A contractor that empties the one-dimensional box `([0,2])`, followed by a contractor
that would intersect with `[0,1]`: the composition returns the empty box, for C2. -/
theorem compo_law_witness :
    (Ctc.Compo [Ctc.FwdBwd (fun _ _ => Interval.EMPTY_SET),
      Ctc.FwdBwd (fun _ _ => ⟨Dbl.fin 0, Dbl.fin 1, false⟩)]).contract 0
        [⟨Dbl.fin 0, Dbl.fin 2, false⟩] = [Interval.EMPTY_SET] :=
  ((compo_law 0 (Ctc.FwdBwd (fun _ _ => Interval.EMPTY_SET))
    (Ctc.FwdBwd (fun _ _ => ⟨Dbl.fin 0, Dbl.fin 1, false⟩))
    [⟨Dbl.fin 0, Dbl.fin 2, false⟩]).2.1
    (by simp [Ctc.contract, IntervalVector.interFrom, Interval.inter, Interval.EMPTY_SET,
      IntervalVector.is_empty])).1.trans
    (by simp [Ctc.contract, IntervalVector.interFrom, Interval.inter, Interval.EMPTY_SET])

/-! ## The q-relaxed intersection: one dimension -/

theorem minList_le (l : List Dbl) (m : Dbl) (h : minList l = some m) : ∀ x ∈ l, m ≤ x := by
  induction l generalizing m with
  | nil => simp [minList] at h
  | cons d ds ih =>
    unfold minList at h
    intro x hx
    cases hm : minList ds with
    | none =>
      rw [hm] at h
      simp only [Option.some.injEq] at h
      cases ds with
      | nil =>
        simp only [List.mem_singleton] at hx
        rw [hx, h]
      | cons e es =>
        unfold minList at hm
        cases h' : minList es <;> rw [h'] at hm <;> simp at hm
    | some m' =>
      rw [hm] at h
      simp only [Option.some.injEq] at h
      rcases List.mem_cons.1 hx with hx | hx
      · rw [hx, ← h]; exact min_le_left _ _
      · rw [← h]; exact le_trans (min_le_right _ _) (ih m' hm x hx)

theorem le_maxList (l : List Dbl) (m : Dbl) (h : maxList l = some m) : ∀ x ∈ l, x ≤ m := by
  induction l generalizing m with
  | nil => simp [maxList] at h
  | cons d ds ih =>
    unfold maxList at h
    intro x hx
    cases hm : maxList ds with
    | none =>
      rw [hm] at h
      simp only [Option.some.injEq] at h
      cases ds with
      | nil =>
        simp only [List.mem_singleton] at hx
        rw [hx, h]
      | cons e es =>
        unfold maxList at hm
        cases h' : maxList es <;> rw [h'] at hm <;> simp at hm
    | some m' =>
      rw [hm] at h
      simp only [Option.some.injEq] at h
      rcases List.mem_cons.1 hx with hx | hx
      · rw [hx, ← h]; exact le_max_left _ _
      · rw [← h]; exact le_trans (ih m' hm x hx) (le_max_right _ _)

theorem minList_isSome (l : List Dbl) (h : l ≠ []) : ∃ m, minList l = some m := by
  cases l with
  | nil => exact absurd rfl h
  | cons d ds =>
    unfold minList
    cases minList ds with
    | none => exact ⟨d, rfl⟩
    | some m' => exact ⟨min d m', rfl⟩

theorem maxList_isSome (l : List Dbl) (h : l ≠ []) : ∃ m, maxList l = some m := by
  cases l with
  | nil => exact absurd rfl h
  | cons d ds =>
    unfold maxList
    cases maxList ds with
    | none => exact ⟨d, rfl⟩
    | some m' => exact ⟨max d m', rfl⟩

namespace Interval

theorem contains_ofBounds (a b d : Dbl) :
    (ofBounds a b).contains d = true ↔ a ≤ d ∧ d ≤ b := by
  unfold ofBounds
  split
  · simp [contains_eq_true_iff]
  · next h =>
    simp only [contains_eq_true_iff, EMPTY_SET]
    constructor
    · intro h'; exact absurd h'.1 (by simp)
    · intro h'; exact absurd (le_trans h'.1 h'.2) h

theorem contains_inter (x y : Interval) (d : Dbl) :
    (x.inter y).contains d = (x.contains d && y.contains d) := by
  rw [Bool.eq_iff_iff, Bool.and_eq_true]
  unfold inter
  cases hx : x.is_empty <;> cases hy : y.is_empty
  · simp only [Bool.or_self, Bool.false_eq_true, if_false]
    rw [contains_ofBounds, contains_eq_true_iff, contains_eq_true_iff]
    simp only [hx, hy, true_and, max_le_iff, le_min_iff]
    tauto
  · simp [contains_eq_true_iff, hx, hy, EMPTY_SET]
  · simp [contains_eq_true_iff, hx, hy, EMPTY_SET]
  · simp [contains_eq_true_iff, hx, hy, EMPTY_SET]

theorem canonical_ofBounds (a b : Dbl) : (ofBounds a b).canonical := by
  unfold ofBounds canonical
  split
  · next h => exact Or.inr ⟨rfl, h⟩
  · exact Or.inl rfl

theorem canonical_inter (x y : Interval) : (x.inter y).canonical := by
  unfold inter
  split
  · exact Or.inl rfl
  · exact canonical_ofBounds _ _

theorem canonical_of_valid (x : Interval) (h1 : x.is_empty = false) (h2 : x.valid) :
    x.canonical := by
  rcases h2 with h2 | h2
  · rw [h1] at h2; exact absurd h2 (by simp)
  · exact Or.inr ⟨h1, h2⟩

theorem valid_of_canonical (x : Interval) (h : x.canonical) : x.valid := by
  rcases h with h | h
  · rw [h]; exact Or.inl rfl
  · exact Or.inr h.2

theorem eq_of_canonical (x y : Interval) (hx : x.canonical) (hy : y.canonical)
    (h : ∀ d, x.contains d = y.contains d) : x = y := by
  rcases hx with hx | ⟨hx1, hx2⟩
  · rcases hy with hy | ⟨hy1, hy2⟩
    · rw [hx, hy]
    · have h1 := h y.lb
      rw [hx] at h1
      have h2 : y.contains y.lb = true := by simp [contains_eq_true_iff, hy1, hy2]
      rw [h2] at h1
      simp [contains, EMPTY_SET] at h1
  · rcases hy with hy | ⟨hy1, hy2⟩
    · have h1 := h x.lb
      rw [hy] at h1
      have h2 : x.contains x.lb = true := by simp [contains_eq_true_iff, hx1, hx2]
      rw [h2] at h1
      simp [contains, EMPTY_SET] at h1
    · have hxl : x.contains x.lb = true := by simp [contains_eq_true_iff, hx1, hx2]
      have hxu : x.contains x.ub = true := by simp [contains_eq_true_iff, hx1, hx2]
      have hyl : y.contains y.lb = true := by simp [contains_eq_true_iff, hy1, hy2]
      have hyu : y.contains y.ub = true := by simp [contains_eq_true_iff, hy1, hy2]
      have a1 := (h x.lb).symm.trans hxl
      have a2 := (h x.ub).symm.trans hxu
      have a3 := (h y.lb).trans hyl
      have a4 := (h y.ub).trans hyu
      rw [contains_eq_true_iff] at a1 a2 a3 a4
      cases x with
      | mk xl xu xe =>
        cases y with
        | mk yl yu ye =>
          simp only at *
          rw [hx1, hy1, le_antisymm a3.2.1 a1.2.1, le_antisymm a2.2.2 a4.2.2]

end Interval

theorem contains_foldl_inter (xs : List Interval) (acc : Interval) (d : Dbl) :
    (xs.foldl Interval.inter acc).contains d =
      (acc.contains d && xs.all (fun x => x.contains d)) := by
  induction xs generalizing acc with
  | nil => simp
  | cons x xs ih =>
    simp only [List.foldl_cons, List.all_cons]
    rw [ih, Interval.contains_inter, Bool.and_assoc]

theorem canonical_foldl_inter (xs : List Interval) (acc : Interval) (h : acc.canonical) :
    (xs.foldl Interval.inter acc).canonical := by
  induction xs generalizing acc with
  | nil => exact h
  | cons x xs ih => exact ih _ (Interval.canonical_inter acc x)

theorem coverage_le_length (ys : List Interval) (d : Dbl) : coverage ys d ≤ ys.length :=
  List.countP_le_length _

theorem contains_qinter1_length (xs : List Interval) (hne : xs ≠ []) (d : Dbl) :
    (qinter1 xs xs.length).contains d = true ↔ ∀ x ∈ xs, x.contains d = true := by
  constructor
  · intro h
    rcases qinter1_cases xs xs.length with h0 | ⟨l, u, hl, hu, h0⟩
    · rw [h0] at h; simp [Interval.contains, Interval.EMPTY_SET] at h
    · rw [h0, Interval.contains_ofBounds] at h
      have hl' := (mem_lowers _ _ _).1 (minList_mem _ _ hl)
      have hu' := (mem_uppers _ _ _).1 (maxList_mem _ _ hu)
      have hlen := List.length_filter_le (fun x : Interval => !x.is_empty) xs
      have hcl := coverage_le_length (xs.filter (fun x => !x.is_empty)) l
      have hcu := coverage_le_length (xs.filter (fun x => !x.is_empty)) u
      have hfl : (xs.filter (fun x => !x.is_empty)).length = xs.length :=
        le_antisymm hlen (le_trans hl'.2 hcl)
      have hys : xs.filter (fun x => !x.is_empty) = xs :=
        List.filter_eq_self.2 (List.filter_length_eq_length.1 hfl)
      rw [hys] at hl' hu' hcl hcu
      have hall_l := List.countP_eq_length.1 (le_antisymm hcl hl'.2)
      have hall_u := List.countP_eq_length.1 (le_antisymm hcu hu'.2)
      intro x hx
      have h1 := hall_l x hx
      have h2 := hall_u x hx
      rw [Interval.contains_eq_true_iff] at h1 h2 ⊢
      exact ⟨h1.1, le_trans h1.2.1 h.1, le_trans h.2 h2.2.2⟩
  · intro h
    have hne' : ∀ a ∈ xs, (!a.is_empty) = true := by
      intro a ha
      have := (Interval.contains_eq_true_iff a d).1 (h a ha)
      simp [this.1]
    have hys : xs.filter (fun x => !x.is_empty) = xs := List.filter_eq_self.2 hne'
    have hb : ∀ x ∈ xs, x.lb ≤ d ∧ d ≤ x.ub := fun x hx =>
      ((Interval.contains_eq_true_iff x d).1 (h x hx)).2
    obtain ⟨L, hL⟩ := maxList_isSome (xs.map (fun x => x.lb)) (by simpa using hne)
    obtain ⟨U, hU⟩ := minList_isSome (xs.map (fun x => x.ub)) (by simpa using hne)
    have hLmem := maxList_mem _ _ hL
    have hUmem := minList_mem _ _ hU
    have hLub := le_maxList _ _ hL
    have hUlb := minList_le _ _ hU
    simp only [List.mem_map] at hLmem hUmem
    obtain ⟨a, ha, haL⟩ := hLmem
    obtain ⟨c, hc, hcU⟩ := hUmem
    have hLd : L ≤ d := by rw [← haL]; exact (hb a ha).1
    have hdU : d ≤ U := by rw [← hcU]; exact (hb c hc).2
    have hcovL : xs.length ≤ coverage xs L := by
      apply le_of_eq
      symm
      apply List.countP_eq_length.2
      intro x hx
      rw [Interval.contains_eq_true_iff]
      refine ⟨((Interval.contains_eq_true_iff x d).1 (h x hx)).1,
        hLub _ (List.mem_map_of_mem _ hx), le_trans hLd (hb x hx).2⟩
    have hcovU : xs.length ≤ coverage xs U := by
      apply le_of_eq
      symm
      apply List.countP_eq_length.2
      intro x hx
      rw [Interval.contains_eq_true_iff]
      refine ⟨((Interval.contains_eq_true_iff x d).1 (h x hx)).1,
        le_trans (hb x hx).1 hdU, hUlb _ (List.mem_map_of_mem _ hx)⟩
    have hLin : L ∈ lowers xs xs.length := (mem_lowers _ _ _).2 ⟨⟨a, ha, haL⟩, hcovL⟩
    have hUin : U ∈ uppers xs xs.length := (mem_uppers _ _ _).2 ⟨⟨c, hc, hcU⟩, hcovU⟩
    obtain ⟨l, hl⟩ := minList_isSome _ (List.ne_nil_of_mem hLin)
    obtain ⟨u, hu⟩ := maxList_isSome _ (List.ne_nil_of_mem hUin)
    have hq : qinter1 xs xs.length = Interval.ofBounds l u := by
      unfold qinter1
      simp only [hys, hl, hu]
    rw [hq, Interval.contains_ofBounds]
    exact ⟨le_trans (minList_le _ _ hl L hLin) hLd, le_trans hdU (le_maxList _ _ hu U hUin)⟩

theorem canonical_qinter1 (xs : List Interval) (q : Nat) : (qinter1 xs q).canonical := by
  rcases qinter1_cases xs q with h0 | ⟨l, u, _, _, h0⟩
  · rw [h0]; exact Or.inl rfl
  · rw [h0]; exact Interval.canonical_ofBounds l u

/-- In one dimension, the q-relaxed intersection with `q` the number of intervals is their
intersection. -/
theorem qinter1_length_eq_foldl_inter (x : Interval) (xs : List Interval)
    (hx : x.canonical) :
    qinter1 (x :: xs) (xs.length + 1) = xs.foldl Interval.inter x := by
  apply Interval.eq_of_canonical _ _ (canonical_qinter1 _ _) (canonical_foldl_inter xs x hx)
  intro d
  rw [Bool.eq_iff_iff, contains_foldl_inter]
  have h := contains_qinter1_length (x :: xs) (List.cons_ne_nil x xs) d
  simp only [List.length_cons] at h
  rw [h]
  simp

theorem foldl_hull_spec (xs : List Interval) (acc : Interval) (hacc : acc.is_empty = false)
    (hxs : ∀ x ∈ xs, x.is_empty = false) :
    (xs.foldl Interval.hull acc).is_empty = false ∧
    (∀ x ∈ acc :: xs, (xs.foldl Interval.hull acc).lb ≤ x.lb) ∧
    (∀ x ∈ acc :: xs, x.ub ≤ (xs.foldl Interval.hull acc).ub) ∧
    (∃ x ∈ acc :: xs, x.lb = (xs.foldl Interval.hull acc).lb) ∧
    (∃ x ∈ acc :: xs, x.ub = (xs.foldl Interval.hull acc).ub) := by
  induction xs generalizing acc with
  | nil => simp [hacc]
  | cons y ys ih =>
    have hy : y.is_empty = false := hxs y (List.mem_cons_self _ _)
    have hh : acc.hull y = ⟨min acc.lb y.lb, max acc.ub y.ub, false⟩ := by
      simp [Interval.hull, hacc, hy]
    have hlb : (acc.hull y).lb = min acc.lb y.lb := by rw [hh]
    have hub : (acc.hull y).ub = max acc.ub y.ub := by rw [hh]
    have ih' := ih (acc.hull y) (by rw [hh]) (fun x hx => hxs x (List.mem_cons_of_mem _ hx))
    simp only [List.foldl_cons]
    obtain ⟨h1, h2, h3, h4, h5⟩ := ih'
    refine ⟨h1, ?_, ?_, ?_, ?_⟩
    · intro x hx
      have hb := h2 (acc.hull y) (List.mem_cons_self _ _)
      rw [hlb] at hb
      rcases List.mem_cons.1 hx with hx | hx
      · rw [hx]; exact le_trans hb (min_le_left _ _)
      · rcases List.mem_cons.1 hx with hx | hx
        · rw [hx]; exact le_trans hb (min_le_right _ _)
        · exact h2 x (List.mem_cons_of_mem _ hx)
    · intro x hx
      have hb := h3 (acc.hull y) (List.mem_cons_self _ _)
      rw [hub] at hb
      rcases List.mem_cons.1 hx with hx | hx
      · rw [hx]; exact le_trans (le_max_left _ _) hb
      · rcases List.mem_cons.1 hx with hx | hx
        · rw [hx]; exact le_trans (le_max_right _ _) hb
        · exact h3 x (List.mem_cons_of_mem _ hx)
    · obtain ⟨x, hx, hxl⟩ := h4
      rcases List.mem_cons.1 hx with hx | hx
      · rw [hx, hlb] at hxl
        rcases min_choice acc.lb y.lb with hm | hm
        · exact ⟨acc, List.mem_cons_self _ _, by rw [← hxl, hm]⟩
        · exact ⟨y, List.mem_cons_of_mem _ (List.mem_cons_self _ _), by rw [← hxl, hm]⟩
      · exact ⟨x, List.mem_cons_of_mem _ (List.mem_cons_of_mem _ hx), hxl⟩
    · obtain ⟨x, hx, hxl⟩ := h5
      rcases List.mem_cons.1 hx with hx | hx
      · rw [hx, hub] at hxl
        rcases max_choice acc.ub y.ub with hm | hm
        · exact ⟨acc, List.mem_cons_self _ _, by rw [← hxl, hm]⟩
        · exact ⟨y, List.mem_cons_of_mem _ (List.mem_cons_self _ _), by rw [← hxl, hm]⟩
      · exact ⟨x, List.mem_cons_of_mem _ (List.mem_cons_of_mem _ hx), hxl⟩

/-- In one dimension, the q-relaxed intersection with `q = 1` of non-empty intervals that
satisfy the invariant is their hull. -/
theorem qinter1_one_eq_foldl_hull (x : Interval) (xs : List Interval)
    (hne : ∀ a ∈ x :: xs, a.is_empty = false) (hv : ∀ a ∈ x :: xs, a.lb ≤ a.ub) :
    qinter1 (x :: xs) 1 = xs.foldl Interval.hull x := by
  have hys : (x :: xs).filter (fun a => !a.is_empty) = x :: xs :=
    List.filter_eq_self.2 (fun a ha => by simp [hne a ha])
  have hcov : ∀ a ∈ x :: xs, ∀ d, a.lb ≤ d → d ≤ a.ub → 1 ≤ coverage (x :: xs) d := by
    intro a ha d h1 h2
    exact List.countP_pos_iff.2 ⟨a, ha, (Interval.contains_eq_true_iff a d).2 ⟨hne a ha, h1, h2⟩⟩
  obtain ⟨f1, f2, f3, ⟨a, ha, hal⟩, ⟨c, hc, hcu⟩⟩ :=
    foldl_hull_spec xs x (hne x (List.mem_cons_self _ _))
      (fun a ha => hne a (List.mem_cons_of_mem _ ha))
  have hLin : a.lb ∈ lowers (x :: xs) 1 :=
    (mem_lowers _ _ _).2 ⟨⟨a, ha, rfl⟩, hcov a ha _ (le_refl _) (hv a ha)⟩
  have hUin : c.ub ∈ uppers (x :: xs) 1 :=
    (mem_uppers _ _ _).2 ⟨⟨c, hc, rfl⟩, hcov c hc _ (hv c hc) (le_refl _)⟩
  obtain ⟨l, hl⟩ := minList_isSome _ (List.ne_nil_of_mem hLin)
  obtain ⟨u, hu⟩ := maxList_isSome _ (List.ne_nil_of_mem hUin)
  have hq : qinter1 (x :: xs) 1 = Interval.ofBounds l u := by
    unfold qinter1
    simp only [hys, hl, hu]
  obtain ⟨⟨a', ha', hal'⟩, _⟩ := (mem_lowers _ _ _).1 (minList_mem _ _ hl)
  obtain ⟨⟨c', hc', hcu'⟩, _⟩ := (mem_uppers _ _ _).1 (maxList_mem _ _ hu)
  have hl_eq : l = (xs.foldl Interval.hull x).lb := by
    apply le_antisymm
    · rw [← hal]; exact minList_le _ _ hl _ hLin
    · rw [← hal']; exact f2 a' ha'
  have hu_eq : u = (xs.foldl Interval.hull x).ub := by
    apply le_antisymm
    · rw [← hcu']; exact f3 c' hc'
    · rw [← hcu]; exact le_maxList _ _ hu _ hUin
  have hlu : l ≤ u := by
    rw [hl_eq, hu_eq]
    exact le_trans (f2 x (List.mem_cons_self _ _))
      (le_trans (hv x (List.mem_cons_self _ _)) (f3 x (List.mem_cons_self _ _)))
  rw [hq]
  simp only [Interval.ofBounds, hlu, if_true]
  cases hr : xs.foldl Interval.hull x with
  | mk rl ru re =>
    rw [hr] at f1 hl_eq hu_eq
    simp only at f1 hl_eq hu_eq
    rw [hl_eq, hu_eq, f1]

/-- The meaning of the one-dimensional model: for `q >= 1`, `qinter1 xs q` contains every
point covered by at least `q` of the non-empty intervals of `xs`, and it is a subset of
every interval that contains all these points: it is the smallest such interval. -/
theorem qinter1_smallest (xs : List Interval) (q : Nat) (hq : 1 ≤ q) :
    (∀ d : Dbl, q ≤ coverage (xs.filter (fun x => !x.is_empty)) d →
      (qinter1 xs q).contains d = true) ∧
    (∀ y : Interval,
      (∀ d : Dbl, q ≤ coverage (xs.filter (fun x => !x.is_empty)) d → y.contains d = true) →
      (qinter1 xs q).is_subset y = true) := by
  constructor
  · intro d hd
    have hS : ∀ s ∈ (xs.filter (fun x => !x.is_empty)).filter (fun x => x.contains d),
        s ∈ xs.filter (fun x => !x.is_empty) ∧ s.lb ≤ d ∧ d ≤ s.ub := by
      intro s hs
      have h1 := List.mem_filter.1 hs
      exact ⟨h1.1, ((Interval.contains_eq_true_iff s d).1 h1.2).2⟩
    have hSlen : q ≤ ((xs.filter (fun x => !x.is_empty)).filter
        (fun x => x.contains d)).length := by
      rw [← List.countP_eq_length_filter]; exact hd
    have hSne : (xs.filter (fun x => !x.is_empty)).filter (fun x => x.contains d) ≠ [] := by
      intro h0
      rw [h0] at hSlen
      simp only [List.length_nil] at hSlen
      omega
    have hcov : ∀ p : Dbl,
        (∀ s ∈ (xs.filter (fun x => !x.is_empty)).filter (fun x => x.contains d),
          s.lb ≤ p ∧ p ≤ s.ub) →
        q ≤ coverage (xs.filter (fun x => !x.is_empty)) p := by
      intro p hp
      apply le_trans hd
      unfold coverage
      apply List.countP_mono_left
      intro s hs hsd
      have hmem : s ∈ (xs.filter (fun x => !x.is_empty)).filter (fun x => x.contains d) :=
        List.mem_filter.2 ⟨hs, hsd⟩
      rw [Interval.contains_eq_true_iff] at hsd ⊢
      exact ⟨hsd.1, hp s hmem⟩
    obtain ⟨L, hL⟩ := maxList_isSome (((xs.filter (fun x => !x.is_empty)).filter
      (fun x => x.contains d)).map (fun x => x.lb)) (by simpa using hSne)
    obtain ⟨U, hU⟩ := minList_isSome (((xs.filter (fun x => !x.is_empty)).filter
      (fun x => x.contains d)).map (fun x => x.ub)) (by simpa using hSne)
    have hLmem := maxList_mem _ _ hL
    have hUmem := minList_mem _ _ hU
    have hLub := le_maxList _ _ hL
    have hUlb := minList_le _ _ hU
    rw [List.mem_map] at hLmem hUmem
    obtain ⟨a, ha, haL⟩ := hLmem
    obtain ⟨c, hc, hcU⟩ := hUmem
    have hLd : L ≤ d := by rw [← haL]; exact (hS a ha).2.1
    have hdU : d ≤ U := by rw [← hcU]; exact (hS c hc).2.2
    have hLin : L ∈ lowers (xs.filter (fun x => !x.is_empty)) q :=
      (mem_lowers _ _ _).2 ⟨⟨a, (hS a ha).1, haL⟩, hcov L (fun s hs =>
        ⟨hLub _ (List.mem_map_of_mem _ hs), le_trans hLd (hS s hs).2.2⟩)⟩
    have hUin : U ∈ uppers (xs.filter (fun x => !x.is_empty)) q :=
      (mem_uppers _ _ _).2 ⟨⟨c, (hS c hc).1, hcU⟩, hcov U (fun s hs =>
        ⟨le_trans (hS s hs).2.1 hdU, hUlb _ (List.mem_map_of_mem _ hs)⟩)⟩
    obtain ⟨l, hl⟩ := minList_isSome _ (List.ne_nil_of_mem hLin)
    obtain ⟨u, hu⟩ := maxList_isSome _ (List.ne_nil_of_mem hUin)
    have hq' : qinter1 xs q = Interval.ofBounds l u := by
      unfold qinter1
      simp only [hl, hu]
    rw [hq', Interval.contains_ofBounds]
    exact ⟨le_trans (minList_le _ _ hl L hLin) hLd, le_trans hdU (le_maxList _ _ hu U hUin)⟩
  · intro y hy
    rw [Interval.is_subset_eq_true_iff]
    rcases qinter1_cases xs q with h0 | ⟨l, u, hl, hu, h0⟩
    · rw [h0]; exact Or.inl rfl
    · rw [h0]
      have hl' := (mem_lowers _ _ _).1 (minList_mem _ _ hl)
      have hu' := (mem_uppers _ _ _).1 (maxList_mem _ _ hu)
      have h1 := (Interval.contains_eq_true_iff y l).1 (hy l hl'.2)
      have h2 := (Interval.contains_eq_true_iff y u).1 (hy u hu'.2)
      unfold Interval.ofBounds
      split
      · exact Or.inr ⟨h1.1, h1.2.1, h2.2.2⟩
      · exact Or.inl rfl

/-! ## The q-relaxed intersection: boxes -/

namespace IntervalVector

theorem getD_inter (x y : IntervalVector) (h : x.length = y.length) (i : Nat) :
    (inter x y).getD i Interval.EMPTY_SET =
      (x.getD i Interval.EMPTY_SET).inter (y.getD i Interval.EMPTY_SET) := by
  induction x generalizing y i with
  | nil =>
    cases y with
    | nil => simp [inter, Interval.inter, Interval.EMPTY_SET]
    | cons b bs => simp at h
  | cons a as ih =>
    cases y with
    | nil => simp at h
    | cons b bs =>
      have h' : as.length = bs.length := by simpa using h
      cases i with
      | zero => simp [inter]
      | succ j =>
        have := ih bs h' j
        simpa [inter] using this

theorem length_inter (x y : IntervalVector) (h : x.length = y.length) :
    (inter x y).length = x.length := by
  simp [inter, h]

theorem getD_zipWith_hull (x y : IntervalVector) (h : x.length = y.length) (i : Nat) :
    (List.zipWith Interval.hull x y).getD i Interval.EMPTY_SET =
      (x.getD i Interval.EMPTY_SET).hull (y.getD i Interval.EMPTY_SET) := by
  induction x generalizing y i with
  | nil =>
    cases y with
    | nil => simp [Interval.hull, Interval.EMPTY_SET]
    | cons b bs => simp at h
  | cons a as ih =>
    cases y with
    | nil => simp at h
    | cons b bs =>
      have h' : as.length = bs.length := by simpa using h
      cases i with
      | zero => simp
      | succ j =>
        have := ih bs h' j
        simpa using this

theorem is_empty_inter_left (x y : IntervalVector) (h : x.length = y.length)
    (hx : x.is_empty = true) : (inter x y).is_empty = true := by
  induction x generalizing y with
  | nil => simp [is_empty] at hx
  | cons a as ih =>
    cases y with
    | nil => simp at h
    | cons b bs =>
      have h' : as.length = bs.length := by simpa using h
      simp only [is_empty, List.any_cons, Bool.or_eq_true] at hx
      simp only [inter, List.zipWith_cons_cons, is_empty, List.any_cons, Bool.or_eq_true]
      rcases hx with hx | hx
      · left; simp [Interval.inter, hx, Interval.EMPTY_SET]
      · right; exact ih bs h' hx

theorem is_empty_inter_right (x y : IntervalVector) (h : x.length = y.length)
    (hy : y.is_empty = true) : (inter x y).is_empty = true := by
  induction x generalizing y with
  | nil =>
    cases y with
    | nil => simp [is_empty] at hy
    | cons b bs => simp at h
  | cons a as ih =>
    cases y with
    | nil => simp at h
    | cons b bs =>
      have h' : as.length = bs.length := by simpa using h
      simp only [is_empty, List.any_cons, Bool.or_eq_true] at hy
      simp only [inter, List.zipWith_cons_cons, is_empty, List.any_cons, Bool.or_eq_true]
      rcases hy with hy | hy
      · left; simp [Interval.inter, hy, Interval.EMPTY_SET]
      · right; exact ih bs h' hy

theorem eq_refl (x : IntervalVector) : x.eq x = true := by
  simp [eq]

theorem eq_of_is_empty (x y : IntervalVector) (h : x.length = y.length)
    (hx : x.is_empty = true) (hy : y.is_empty = true) : x.eq y = true := by
  simp [eq, size, h, hx, hy]

theorem is_empty_empty (n : Nat) (h : 0 < n) : (empty n).is_empty = true := by
  cases n with
  | zero => exact absurd h (by simp)
  | succ k => simp [empty, is_empty, List.replicate_succ, Interval.EMPTY_SET]

theorem getD_mem (x : IntervalVector) (i : Nat) (h : i < x.length) :
    x.getD i Interval.EMPTY_SET ∈ x := by
  rw [List.getD_eq_getElem x Interval.EMPTY_SET h]
  exact List.getElem_mem h

end IntervalVector

theorem length_interAll (n : Nat) (cs : List IntervalVector) (c : IntervalVector)
    (hc : c.length = n) (hcs : ∀ b ∈ cs, b.length = n) : (interAll c cs).length = n := by
  induction cs generalizing c with
  | nil => exact hc
  | cons d ds ih =>
    have hd := hcs d (List.mem_cons_self _ _)
    exact ih _ (by rw [IntervalVector.length_inter c d (hc.trans hd.symm), hc])
      (fun b hb => hcs b (List.mem_cons_of_mem _ hb))

theorem getD_interAll (n : Nat) (cs : List IntervalVector) (c : IntervalVector)
    (hc : c.length = n) (hcs : ∀ b ∈ cs, b.length = n) (i : Nat) :
    (interAll c cs).getD i Interval.EMPTY_SET =
      (column i cs).foldl Interval.inter (c.getD i Interval.EMPTY_SET) := by
  induction cs generalizing c with
  | nil => rfl
  | cons d ds ih =>
    have hd := hcs d (List.mem_cons_self _ _)
    have h1 := ih (IntervalVector.inter c d)
      (by rw [IntervalVector.length_inter c d (hc.trans hd.symm), hc])
      (fun b hb => hcs b (List.mem_cons_of_mem _ hb))
    unfold interAll at h1 ⊢
    rw [List.foldl_cons, h1, IntervalVector.getD_inter c d (hc.trans hd.symm)]
    simp [column]

theorem is_empty_interAll (n : Nat) (cs : List IntervalVector) (c : IntervalVector)
    (hc : c.length = n) (hcs : ∀ b ∈ cs, b.length = n)
    (h : c.is_empty = true ∨ ∃ b ∈ cs, b.is_empty = true) :
    (interAll c cs).is_empty = true := by
  induction cs generalizing c with
  | nil =>
    rcases h with h | ⟨b, hb, _⟩
    · exact h
    · simp at hb
  | cons d ds ih =>
    have hd := hcs d (List.mem_cons_self _ _)
    have hlen : c.length = d.length := hc.trans hd.symm
    apply ih (IntervalVector.inter c d) (by rw [IntervalVector.length_inter c d hlen, hc])
      (fun b hb => hcs b (List.mem_cons_of_mem _ hb))
    rcases h with h | ⟨b, hb, hbe⟩
    · exact Or.inl (IntervalVector.is_empty_inter_left c d hlen h)
    · rcases List.mem_cons.1 hb with hb | hb
      · rw [hb] at hbe
        exact Or.inl (IntervalVector.is_empty_inter_right c d hlen hbe)
      · exact Or.inr ⟨b, hb, hbe⟩

theorem qinter1_eq_empty_of_length_lt (xs : List Interval) (q : Nat) (h : xs.length < q) :
    qinter1 xs q = Interval.EMPTY_SET := by
  rcases qinter1_cases xs q with h0 | ⟨l, u, hl, _, _⟩
  · exact h0
  · have hl' := (mem_lowers _ _ _).1 (minList_mem _ _ hl)
    have h1 := coverage_le_length (xs.filter (fun x => !x.is_empty)) l
    have h2 := List.length_filter_le (fun x : Interval => !x.is_empty) xs
    have h3 := hl'.2
    omega

theorem length_column (i : Nat) (boxes : List IntervalVector) :
    (column i boxes).length = boxes.length := by
  simp [column]

theorem length_qinter (n : Nat) (boxes : List IntervalVector) (q : Nat) :
    (qinter n boxes q).length = n := by
  simp [qinter]

theorem getD_qinter (n : Nat) (boxes : List IntervalVector) (q : Nat) (i : Nat) (h : i < n) :
    (qinter n boxes q).getD i Interval.EMPTY_SET =
      qinter1 (column i (boxes.filter (fun b => !b.is_empty))) q := by
  rw [List.getD_eq_getElem _ _ (by rw [length_qinter]; exact h)]
  simp [qinter]

theorem ext_getD (x y : IntervalVector) (h : x.length = y.length)
    (hi : ∀ i, i < x.length → x.getD i Interval.EMPTY_SET = y.getD i Interval.EMPTY_SET) :
    x = y := by
  apply List.ext_getElem h
  intro i h1 h2
  have := hi i h1
  rw [List.getD_eq_getElem x _ h1, List.getD_eq_getElem y _ h2] at this
  exact this

/-- With `q` the number of candidates, the q-relaxed intersection of candidate boxes of size
`n` that satisfy the invariant is their plain intersection. -/
theorem qinter_length_eq_interAll (n : Nat) (c : IntervalVector) (cs : List IntervalVector)
    (hsize : ∀ b ∈ c :: cs, b.length = n) (hvalid : ∀ b ∈ c :: cs, b.valid) :
    (qinter n (c :: cs) (cs.length + 1)).eq (interAll c cs) = true := by
  have hc : c.length = n := hsize c (List.mem_cons_self _ _)
  have hcs : ∀ b ∈ cs, b.length = n := fun b hb => hsize b (List.mem_cons_of_mem _ hb)
  by_cases hall : ∀ b ∈ c :: cs, (!b.is_empty) = true
  · have hrefs : (c :: cs).filter (fun b => !b.is_empty) = c :: cs :=
      List.filter_eq_self.2 hall
    have heq : qinter n (c :: cs) (cs.length + 1) = interAll c cs := by
      apply ext_getD _ _ (by rw [length_qinter, length_interAll n cs c hc hcs])
      intro i hi
      rw [length_qinter] at hi
      rw [getD_qinter n _ _ i hi, hrefs, getD_interAll n cs c hc hcs i]
      have h1 := qinter1_length_eq_foldl_inter (c.getD i Interval.EMPTY_SET) (column i cs)
        (by
          have hmem := IntervalVector.getD_mem c i (by rw [hc]; exact hi)
          have hce : c.is_empty = false := by
            have := hall c (List.mem_cons_self _ _)
            simpa using this
          exact Interval.canonical_of_valid _ ((is_empty_eq_false_iff c).1 hce _ hmem)
            (hvalid c (List.mem_cons_self _ _) _ hmem))
      rw [length_column] at h1
      exact h1
    rw [heq]
    exact IntervalVector.eq_refl _
  · have hex : ∃ b ∈ c :: cs, b.is_empty = true := by
      by_contra hcon
      apply hall
      intro b hb
      cases hbe : b.is_empty
      · rfl
      · exact absurd ⟨b, hb, hbe⟩ hcon
    obtain ⟨e, he, hee⟩ := hex
    have hn : 0 < n := by
      rw [← hsize e he]
      cases e with
      | nil => simp [IntervalVector.is_empty] at hee
      | cons a as => simp
    have hlt : ((c :: cs).filter (fun b => !b.is_empty)).length < cs.length + 1 := by
      have h1 := List.length_filter_le (fun b : IntervalVector => !b.is_empty) (c :: cs)
      rcases Nat.lt_or_ge ((c :: cs).filter (fun b => !b.is_empty)).length (cs.length + 1)
        with h2 | h2
      · exact h2
      · have h3 : ((c :: cs).filter (fun b => !b.is_empty)).length = (c :: cs).length :=
          le_antisymm h1 (by simpa using h2)
        have h4 := List.filter_length_eq_length.1 h3 e he
        rw [hee] at h4
        exact absurd h4 (by simp)
    apply IntervalVector.eq_of_is_empty _ _
      (by rw [length_qinter, length_interAll n cs c hc hcs])
    · have h0 : (qinter n (c :: cs) (cs.length + 1)).getD 0 Interval.EMPTY_SET =
          Interval.EMPTY_SET := by
        rw [getD_qinter n _ _ 0 hn]
        exact qinter1_eq_empty_of_length_lt _ _ (by rw [length_column]; exact hlt)
      have hmem := IntervalVector.getD_mem (qinter n (c :: cs) (cs.length + 1)) 0
        (by rw [length_qinter]; exact hn)
      rw [h0] at hmem
      simp only [IntervalVector.is_empty, List.any_eq_true]
      exact ⟨_, hmem, rfl⟩
    · apply is_empty_interAll n cs c hc hcs
      rcases List.mem_cons.1 he with he | he
      · rw [he] at hee; exact Or.inl hee
      · exact Or.inr ⟨e, he, hee⟩

namespace IntervalVector

theorem is_empty_zipWith_hull (x y : IntervalVector) (hx : x.is_empty = false)
    (hy : y.is_empty = false) : is_empty (List.zipWith Interval.hull x y) = false := by
  induction x generalizing y with
  | nil => simp [is_empty]
  | cons a as ih =>
    cases y with
    | nil => simp [is_empty]
    | cons b bs =>
      simp only [is_empty, List.any_cons, Bool.or_eq_false_iff] at hx hy
      simp only [List.zipWith_cons_cons, is_empty, List.any_cons, Bool.or_eq_false_iff]
      exact ⟨by simp [Interval.hull, hx.1, hy.1], ih bs hx.2 hy.2⟩

theorem hull_of_not_empty (x y : IntervalVector) (hx : x.is_empty = false)
    (hy : y.is_empty = false) : hull x y = List.zipWith Interval.hull x y := by
  simp [hull, hx, hy]

theorem length_hull (n : Nat) (x y : IntervalVector) (hx : x.length = n)
    (hy : y.length = n) : (hull x y).length = n := by
  unfold hull
  split
  · exact hy
  · split
    · exact hx
    · simp [hx, hy]

end IntervalVector

theorem length_foldl_hull (n : Nat) (boxes : List IntervalVector) (acc : IntervalVector)
    (hacc : acc.length = n) (hb : ∀ b ∈ boxes, b.length = n) :
    (boxes.foldl IntervalVector.hull acc).length = n := by
  induction boxes generalizing acc with
  | nil => exact hacc
  | cons d ds ih =>
    exact ih _ (IntervalVector.length_hull n acc d hacc (hb d (List.mem_cons_self _ _)))
      (fun b hb' => hb b (List.mem_cons_of_mem _ hb'))

theorem foldl_hull_of_not_empty (boxes : List IntervalVector) (acc : IntervalVector)
    (hacc : acc.is_empty = false) :
    boxes.foldl IntervalVector.hull acc =
      (boxes.filter (fun b => !b.is_empty)).foldl (List.zipWith Interval.hull) acc := by
  induction boxes generalizing acc with
  | nil => rfl
  | cons d ds ih =>
    cases hd : d.is_empty
    · have h1 : IntervalVector.hull acc d = List.zipWith Interval.hull acc d :=
        IntervalVector.hull_of_not_empty acc d hacc hd
      simp only [List.foldl_cons, List.filter_cons, hd, Bool.not_false, if_true]
      rw [h1]
      exact ih _ (IntervalVector.is_empty_zipWith_hull acc d hacc hd)
    · have h1 : IntervalVector.hull acc d = acc := by
        simp [IntervalVector.hull, hacc, hd]
      simp only [List.foldl_cons, List.filter_cons, hd, Bool.not_true, Bool.false_eq_true,
        if_false]
      rw [h1]
      exact ih acc hacc

theorem foldl_hull_of_is_empty (boxes : List IntervalVector) (acc : IntervalVector)
    (hacc : acc.is_empty = true) :
    (boxes.filter (fun b => !b.is_empty) = [] ∧
      (boxes.foldl IntervalVector.hull acc).is_empty = true) ∨
    ∃ y ys, boxes.filter (fun b => !b.is_empty) = y :: ys ∧
      boxes.foldl IntervalVector.hull acc = ys.foldl (List.zipWith Interval.hull) y := by
  induction boxes generalizing acc with
  | nil => exact Or.inl ⟨rfl, hacc⟩
  | cons d ds ih =>
    have h1 : IntervalVector.hull acc d = d := by simp [IntervalVector.hull, hacc]
    cases hd : d.is_empty
    · right
      refine ⟨d, ds.filter (fun b => !b.is_empty), by simp [List.filter_cons, hd], ?_⟩
      simp only [List.foldl_cons]
      rw [h1]
      exact foldl_hull_of_not_empty ds d hd
    · simp only [List.foldl_cons, List.filter_cons, hd, Bool.not_true, Bool.false_eq_true,
        if_false]
      rw [h1]
      exact ih d hd

theorem getD_foldl_zipWith_hull (n : Nat) (ys : List IntervalVector) (y : IntervalVector)
    (hy : y.length = n) (hys : ∀ b ∈ ys, b.length = n) (i : Nat) :
    (ys.foldl (List.zipWith Interval.hull) y).getD i Interval.EMPTY_SET =
      (column i ys).foldl Interval.hull (y.getD i Interval.EMPTY_SET) := by
  induction ys generalizing y with
  | nil => rfl
  | cons d ds ih =>
    have hd := hys d (List.mem_cons_self _ _)
    have h1 := ih (List.zipWith Interval.hull y d) (by simp [hy, hd])
      (fun b hb => hys b (List.mem_cons_of_mem _ hb))
    rw [List.foldl_cons, h1, IntervalVector.getD_zipWith_hull y d (hy.trans hd.symm)]
    simp [column]

/-- With `q = 1`, the q-relaxed intersection of candidate boxes of size `n` that satisfy the
invariant is their hull. -/
theorem qinter_one_eq_hullAll (n : Nat) (boxes : List IntervalVector)
    (hsize : ∀ b ∈ boxes, b.length = n) (hvalid : ∀ b ∈ boxes, b.valid) :
    (qinter n boxes 1).eq (hullAll n boxes) = true := by
  have hlenH : (hullAll n boxes).length = n :=
    length_foldl_hull n boxes _ (by simp [IntervalVector.empty]) hsize
  rcases Nat.eq_zero_or_pos n with hn | hn
  · have h1 : qinter n boxes 1 = [] := List.eq_nil_of_length_eq_zero (by rw [length_qinter, hn])
    have h2 : hullAll n boxes = [] := List.eq_nil_of_length_eq_zero (by rw [hlenH, hn])
    rw [h1, h2]
    exact IntervalVector.eq_refl _
  · have hrefs_size : ∀ b ∈ boxes.filter (fun b => !b.is_empty), b.length = n :=
      fun b hb => hsize b (List.mem_of_mem_filter hb)
    rcases foldl_hull_of_is_empty boxes (IntervalVector.empty n)
      (IntervalVector.is_empty_empty n hn) with ⟨hnil, hemp⟩ | ⟨y, ys, hcons, hfold⟩
    · apply IntervalVector.eq_of_is_empty _ _ (by rw [length_qinter]; exact hlenH.symm) _ hemp
      have h0 : (qinter n boxes 1).getD 0 Interval.EMPTY_SET = Interval.EMPTY_SET := by
        rw [getD_qinter n _ _ 0 hn, hnil]
        exact qinter1_eq_empty_of_length_lt _ _ (by simp [column])
      have hmem := IntervalVector.getD_mem (qinter n boxes 1) 0 (by rw [length_qinter]; exact hn)
      rw [h0] at hmem
      simp only [IntervalVector.is_empty, List.any_eq_true]
      exact ⟨_, hmem, rfl⟩
    · have hy : y.length = n := hrefs_size y (by rw [hcons]; exact List.mem_cons_self _ _)
      have hys : ∀ b ∈ ys, b.length = n :=
        fun b hb => hrefs_size b (by rw [hcons]; exact List.mem_cons_of_mem _ hb)
      have hne : ∀ b ∈ y :: ys, b.is_empty = false ∧ b.valid := by
        intro b hb
        rw [← hcons] at hb
        have h1 := List.mem_filter.1 hb
        exact ⟨by simpa using h1.2, hvalid b h1.1⟩
      have heq : qinter n boxes 1 = hullAll n boxes := by
        apply ext_getD _ _ (by rw [length_qinter, hlenH])
        intro i hi
        rw [length_qinter] at hi
        unfold hullAll
        rw [getD_qinter n _ _ i hi, hcons, hfold, getD_foldl_zipWith_hull n ys y hy hys i]
        have hcomp : ∀ a ∈ y.getD i Interval.EMPTY_SET :: column i ys,
            a.is_empty = false ∧ a.lb ≤ a.ub := by
          intro a ha
          have ha' : a ∈ column i (y :: ys) := by simpa [column] using ha
          simp only [column, List.mem_map] at ha'
          obtain ⟨b, hb, hba⟩ := ha'
          have hbl : b.length = n := hrefs_size b (by rw [hcons]; exact hb)
          have hmem := IntervalVector.getD_mem b i (by rw [hbl]; exact hi)
          rw [hba] at hmem
          have hae := (is_empty_eq_false_iff b).1 (hne b hb).1 a hmem
          refine ⟨hae, ?_⟩
          rcases (hne b hb).2 a hmem with hv | hv
          · rw [hae] at hv; exact absurd hv (by simp)
          · exact hv
        exact qinter1_one_eq_foldl_hull _ _ (fun a ha => (hcomp a ha).1)
          (fun a ha => (hcomp a ha).2)
      rw [heq]
      exact IntervalVector.eq_refl _

/-! ## The contractor model: the invariant of intervals is kept -/

theorem valid_interFrom (f : Nat → Interval) (i : Nat) (b : IntervalVector) :
    IntervalVector.valid (IntervalVector.interFrom f i b) := by
  induction b generalizing i with
  | nil => intro x hx; simp [IntervalVector.interFrom] at hx
  | cons c cs ih =>
    intro x hx
    simp only [IntervalVector.interFrom, List.mem_cons] at hx
    rcases hx with hx | hx
    · rw [hx]; exact Interval.valid_of_canonical _ (Interval.canonical_inter c (f i))
    · exact ih (i + 1) x hx

theorem valid_newtonLoop (gs : IntervalVector → Option (Nat → Interval))
    (rb : IntervalVector → IntervalVector → Bool) (fuel : Nat) (x : IntervalVector)
    (hx : x.valid) : IntervalVector.valid (newtonLoop gs rb fuel x) := by
  induction fuel generalizing x with
  | zero => exact hx
  | succ k ih =>
    unfold newtonLoop
    cases hg : gs x with
    | none => exact hx
    | some cand =>
      have h1 := valid_interFrom cand 0 x
      simp only
      split
      · exact h1
      · split
        · exact h1
        · exact ih _ h1

theorem valid_fixPointLoop (c : IntervalVector → IntervalVector)
    (rb : IntervalVector → IntervalVector → Bool)
    (hc : ∀ b : IntervalVector, b.valid → IntervalVector.valid (c b))
    (fuel : Nat) (b : IntervalVector) (hb : b.valid) :
    IntervalVector.valid (fixPointLoop c rb fuel b) := by
  induction fuel generalizing b with
  | zero => exact hb
  | succ k ih =>
    unfold fixPointLoop
    simp only
    split
    · exact hc b hb
    · split
      · exact hc b hb
      · exact ih _ (hc b hb)

theorem valid_qinter (n : Nat) (boxes : List IntervalVector) (q : Nat) :
    IntervalVector.valid (qinter n boxes q) := by
  intro x hx
  simp only [qinter, List.mem_map] at hx
  obtain ⟨i, _, hix⟩ := hx
  rw [← hix]
  exact Interval.valid_of_canonical _ (canonical_qinter1 _ _)

theorem valid_contract (fuel : Nat) (c : Ctc) :
    ∀ b : IntervalVector, b.valid → IntervalVector.valid (c.contract fuel b) := by
  refine @Ctc.rec
    (fun c => ∀ b : IntervalVector, b.valid → IntervalVector.valid (c.contract fuel b))
    (fun l => (∀ b : IntervalVector, b.valid →
        IntervalVector.valid (Ctc.contractSeq fuel l b)) ∧
      (∀ b : IntervalVector, b.valid → ∀ r ∈ Ctc.contractEach fuel l b,
        IntervalVector.valid r))
    ?_ ?_ ?_ ?_ ?_ ?_ ?_ c
  · intro proj b _
    exact valid_interFrom (proj b) 0 b
  · intro gs rb b hb
    exact valid_newtonLoop gs rb fuel b hb
  · intro l ih b hb
    exact ih.1 b hb
  · intro c rb ih b hb
    exact valid_fixPointLoop _ rb ih fuel b hb
  · intro l q _ b _
    exact valid_qinter _ _ q
  · constructor
    · intro b hb; exact hb
    · intro b _ r hr; simp [Ctc.contractEach] at hr
  · intro c l ihc ihl
    constructor
    · intro b hb
      unfold Ctc.contractSeq
      simp only
      split
      · exact ihc b hb
      · exact ihl.1 _ (ihc b hb)
    · intro b hb r hr
      simp only [Ctc.contractEach, List.mem_cons] at hr
      rcases hr with hr | hr
      · rw [hr]; exact ihc b hb
      · exact ihl.2 b hb r hr

theorem contractEach_spec (fuel : Nat) (l : List Ctc) (b : IntervalVector) (hb : b.valid) :
    ∀ r ∈ Ctc.contractEach fuel l b, r.length = b.size ∧ r.valid := by
  induction l with
  | nil => intro r hr; simp [Ctc.contractEach] at hr
  | cons c cs ih =>
    intro r hr
    simp only [Ctc.contractEach, List.mem_cons] at hr
    rcases hr with hr | hr
    · rw [hr]
      exact ⟨(contracted_contract fuel c b).1, valid_contract fuel c b hb⟩
    · exact ih r hr

/-- C6: the degenerate cases of `CtcQInter`.  For a box `b` that satisfies the invariant and
the candidates that the sub-contractors produce for `b`: with `q = m`, the number of
candidates (at least one), the result of `CtcQInter` equals the plain intersection of the
candidates, and with `q = 1` it equals their hull (equality of boxes: same size, both empty
or the same components). -/
theorem CtcQInter_degenerate (fuel : Nat) (c : Ctc) (cs l : List Ctc) (b : IntervalVector)
    (hb : b.valid) :
    ((Ctc.QInter (c :: cs) (c :: cs).length).contract fuel b).eq
      (interAll (c.contract fuel b) (Ctc.contractEach fuel cs b)) = true ∧
    ((Ctc.QInter l 1).contract fuel b).eq
      (hullAll b.size (Ctc.contractEach fuel l b)) = true := by
  constructor
  · have h := contractEach_spec fuel (c :: cs) b hb
    have hlen : (Ctc.contractEach fuel cs b).length = cs.length := by
      clear h
      induction cs with
      | nil => rfl
      | cons d ds ih => simp [Ctc.contractEach, ih]
    have h1 := qinter_length_eq_interAll b.size (c.contract fuel b)
      (Ctc.contractEach fuel cs b) (fun r hr => (h r hr).1) (fun r hr => (h r hr).2)
    rw [hlen] at h1
    exact h1
  · have h := contractEach_spec fuel l b hb
    exact qinter_one_eq_hullAll b.size (Ctc.contractEach fuel l b)
      (fun r hr => (h r hr).1) (fun r hr => (h r hr).2)

/-- Two contractors whose projections are `[1,5]` and `[3,8]`, on the box `([0,10])`, for
C6. -/
theorem CtcQInter_degenerate_witness :
    IntervalVector.valid [⟨Dbl.fin 0, Dbl.fin 10, false⟩] ∧
    ((Ctc.QInter [Ctc.FwdBwd (fun _ _ => ⟨Dbl.fin 1, Dbl.fin 5, false⟩),
        Ctc.FwdBwd (fun _ _ => ⟨Dbl.fin 3, Dbl.fin 8, false⟩)]
        (List.length [Ctc.FwdBwd (fun _ _ => ⟨Dbl.fin 1, Dbl.fin 5, false⟩),
          Ctc.FwdBwd (fun _ _ => ⟨Dbl.fin 3, Dbl.fin 8, false⟩)])).contract 0
          [⟨Dbl.fin 0, Dbl.fin 10, false⟩]).eq
        (interAll ((Ctc.FwdBwd (fun _ _ => ⟨Dbl.fin 1, Dbl.fin 5, false⟩)).contract 0
            [⟨Dbl.fin 0, Dbl.fin 10, false⟩])
          (Ctc.contractEach 0 [Ctc.FwdBwd (fun _ _ => ⟨Dbl.fin 3, Dbl.fin 8, false⟩)]
            [⟨Dbl.fin 0, Dbl.fin 10, false⟩])) = true ∧
      ((Ctc.QInter [Ctc.FwdBwd (fun _ _ => ⟨Dbl.fin 1, Dbl.fin 5, false⟩),
        Ctc.FwdBwd (fun _ _ => ⟨Dbl.fin 3, Dbl.fin 8, false⟩)] 1).contract 0
          [⟨Dbl.fin 0, Dbl.fin 10, false⟩]).eq
        (hullAll (IntervalVector.size [⟨Dbl.fin 0, Dbl.fin 10, false⟩])
          (Ctc.contractEach 0 [Ctc.FwdBwd (fun _ _ => ⟨Dbl.fin 1, Dbl.fin 5, false⟩),
            Ctc.FwdBwd (fun _ _ => ⟨Dbl.fin 3, Dbl.fin 8, false⟩)]
            [⟨Dbl.fin 0, Dbl.fin 10, false⟩])) = true :=
  have hv : IntervalVector.valid [⟨Dbl.fin 0, Dbl.fin 10, false⟩] := by
    intro x hx
    simp only [List.mem_singleton] at hx
    rw [hx]
    exact Or.inr (by simp)
  ⟨hv, CtcQInter_degenerate 0 (Ctc.FwdBwd (fun _ _ => ⟨Dbl.fin 1, Dbl.fin 5, false⟩))
    [Ctc.FwdBwd (fun _ _ => ⟨Dbl.fin 3, Dbl.fin 8, false⟩)]
    [Ctc.FwdBwd (fun _ _ => ⟨Dbl.fin 1, Dbl.fin 5, false⟩),
      Ctc.FwdBwd (fun _ _ => ⟨Dbl.fin 3, Dbl.fin 8, false⟩)]
    [⟨Dbl.fin 0, Dbl.fin 10, false⟩] hv⟩

/-! ## The slope of a segment -/

/-- C11, counterexample: between the finite points `(0,0)` and `(3,1)`, which differ in both
coordinates, `getSlopeSegment` returns the double nearest to `1/3`,
`6004799503160661 / 2^54`, and not `(1 - 0) / (3 - 0)`; between `(-2^1023, -2^1023)` and
`(2^1023, 2^1023)` both differences overflow to `+inf` and the result is NaN. -/
theorem getSlopeSegment_rounding_counterexample :
    getSlopeSegment (Pair.ofRat (0, 0)) (Pair.ofRat (3, 1)) =
      Double.ofRat (6004799503160661 / 18014398509481984) ∧
    getSlopeSegment (Pair.ofRat (0, 0)) (Pair.ofRat (3, 1)) ≠
      Double.ofRat ((1 - 0) / (3 - 0)) ∧
    getSlopeSegment (Pair.ofRat (-(2 ^ 1023), -(2 ^ 1023))) (Pair.ofRat (2 ^ 1023, 2 ^ 1023)) =
      Double.nan := by
  have h1 : getSlopeSegment (Pair.ofRat (0, 0)) (Pair.ofRat (3, 1)) =
      Double.ofRat (6004799503160661 / 18014398509481984) := by
    have h3 : Double.val (round64 3) = Double.ofRat 3 := by rw [round64_three]; rfl
    have ht : Double.val (round64 (1 / 3)) =
        Double.ofRat (6004799503160661 / 18014398509481984) := by rw [round64_third]; rfl
    have hd : Double.ofRat 1 / Double.ofRat 3 = Double.val (round64 (1 / 3)) :=
      Double.ofRat_div 1 3 (by norm_num)
    simp only [getSlopeSegment, Pair.ofRat, Double.eq_ofRat_negInf, Double.eq_ofRat_posInf,
      Bool.and_self, Bool.or_self, Bool.false_eq_true, if_false, Double.eq_ofRat,
      Double.ofRat_sub, sub_zero, Double.val_round64_one, h3, hd, ht]
    norm_num
  have h2 : (2 : ℚ) ^ 1023 - -(2 ^ 1023) = 2 ^ 1024 := by norm_num
  refine ⟨h1, ?_, ?_⟩
  · rw [h1]
    intro h
    have h' := Dbl.fin.inj (Double.val.inj h)
    norm_num at h'
  · simp only [getSlopeSegment, Pair.ofRat, Double.eq_ofRat_negInf, Double.eq_ofRat_posInf,
      Bool.and_self, Bool.or_self, Bool.false_eq_true, if_false, Double.eq_ofRat,
      Double.ofRat_sub, h2, round64_two_pow_1024]
    norm_num
    rfl

/-- C11, amended: for finite points with `first.x != last.x` and `first.y != last.y`,
`getSlopeSegment(first,last)` is the quotient, in double arithmetic, of the differences
`last.y - first.y` and `last.x - first.x` rounded to the nearest double; it is
`(last.y - first.y) / (last.x - first.x)` when the two differences and their quotient are
doubles. -/
theorem getSlopeSegment_rounded (fx fy lx ly : ℚ) (hx : fx ≠ lx) (hy : fy ≠ ly) :
    getSlopeSegment (Pair.ofRat (fx, fy)) (Pair.ofRat (lx, ly)) =
      Double.val (round64 (ly - fy)) / Double.val (round64 (lx - fx)) ∧
    (representable (ly - fy) → representable (lx - fx) →
      representable ((ly - fy) / (lx - fx)) →
      getSlopeSegment (Pair.ofRat (fx, fy)) (Pair.ofRat (lx, ly)) =
        Double.ofRat ((ly - fy) / (lx - fx))) := by
  have h1 : ¬ ly = fy := fun h => hy h.symm
  have h2 : ¬ lx = fx := fun h => hx h.symm
  have h3 : lx - fx ≠ 0 := sub_ne_zero.2 h2
  have h : getSlopeSegment (Pair.ofRat (fx, fy)) (Pair.ofRat (lx, ly)) =
      Double.val (round64 (ly - fy)) / Double.val (round64 (lx - fx)) := by
    simp [getSlopeSegment, Pair.ofRat, h1, h2]
  refine ⟨h, ?_⟩
  intro hy' hx' hq
  rw [h, hy', hx']
  show Double.ofRat (ly - fy) / Double.ofRat (lx - fx) = _
  rw [Double.ofRat_div _ _ h3, hq]
  rfl

/-- The segment from `(1,1)` to `(3,2)`: the differences `1` and `2` and their quotient `1/2`
are doubles and the result is `1/2`, for C11. -/
theorem getSlopeSegment_rounded_witness :
    getSlopeSegment (Pair.ofRat (1, 1)) (Pair.ofRat (3, 2)) =
      Double.ofRat ((2 - 1) / (3 - 1)) :=
  (getSlopeSegment_rounded 1 1 3 2 (by norm_num) (by norm_num)).2
    (by norm_num [representable, round64_one]) (by norm_num [representable, round64_two])
    (by norm_num [representable, round64_half])

/-! ## The orders `sorty2` and `sorty` -/

theorem sorty2_ofDbl (p1 p2 : Dbl × Dbl) :
    sorty2 (Pair.ofDbl p1) (Pair.ofDbl p2) = true ↔
      p1.1 < p2.1 ∨ (p1.1 = p2.1 ∧ p1.2 > p2.2) := by
  unfold sorty2 Pair.ofDbl
  by_cases h : p1.1 = p2.1
  · simp [Double.ne, Double.eq, Double.gt, Double.lt, h]
  · simp [Double.ne, Double.eq, Double.gt, Double.lt, h]

theorem sorty_ofDbl (p1 p2 : Dbl × Dbl) :
    sorty (Pair.ofDbl p1) (Pair.ofDbl p2) = true ↔ p1.2 > p2.2 := by
  simp [sorty, Pair.ofDbl, Double.gt, Double.lt]

/-- C12: on pairs of numbers, `sorty2(p1,p2)` holds iff `p1.x < p2.x` or (`p1.x = p2.x` and
`p1.y > p2.y`); `sorty2` is irreflexive and transitive, and for `p1 != p2` exactly one of
`sorty2(p1,p2)` and `sorty2(p2,p1)` holds: it is a strict total order. -/
theorem sorty2_strict_total_order (p1 p2 p3 : Dbl × Dbl) :
    (sorty2 (Pair.ofDbl p1) (Pair.ofDbl p2) = true ↔
      p1.1 < p2.1 ∨ (p1.1 = p2.1 ∧ p1.2 > p2.2)) ∧
    sorty2 (Pair.ofDbl p1) (Pair.ofDbl p1) = false ∧
    (sorty2 (Pair.ofDbl p1) (Pair.ofDbl p2) = true →
      sorty2 (Pair.ofDbl p2) (Pair.ofDbl p3) = true →
      sorty2 (Pair.ofDbl p1) (Pair.ofDbl p3) = true) ∧
    (p1 ≠ p2 →
      (sorty2 (Pair.ofDbl p1) (Pair.ofDbl p2) = true ∧
        sorty2 (Pair.ofDbl p2) (Pair.ofDbl p1) = false) ∨
      (sorty2 (Pair.ofDbl p1) (Pair.ofDbl p2) = false ∧
        sorty2 (Pair.ofDbl p2) (Pair.ofDbl p1) = true)) := by
  refine ⟨sorty2_ofDbl p1 p2, ?_, ?_, ?_⟩
  · rw [← Bool.not_eq_true, sorty2_ofDbl]
    simp
  · rw [sorty2_ofDbl, sorty2_ofDbl, sorty2_ofDbl]
    rintro (h | ⟨h, h'⟩) (k | ⟨k, k'⟩)
    · exact Or.inl (lt_trans h k)
    · exact Or.inl (k ▸ h)
    · exact Or.inl (h ▸ k)
    · exact Or.inr ⟨h.trans k, lt_trans k' h'⟩
  · intro hne
    rw [← Bool.not_eq_true (sorty2 (Pair.ofDbl p2) (Pair.ofDbl p1)),
      ← Bool.not_eq_true (sorty2 (Pair.ofDbl p1) (Pair.ofDbl p2)), sorty2_ofDbl, sorty2_ofDbl]
    rcases lt_trichotomy p1.1 p2.1 with h | h | h
    · left
      refine ⟨Or.inl h, ?_⟩
      rintro (k | ⟨k, _⟩)
      · exact absurd (lt_trans h k) (lt_irrefl _)
      · rw [k] at h; exact absurd h (lt_irrefl _)
    · rcases lt_trichotomy p1.2 p2.2 with k | k | k
      · right
        refine ⟨?_, Or.inr ⟨h.symm, k⟩⟩
        rintro (l | ⟨_, l⟩)
        · rw [h] at l; exact absurd l (lt_irrefl _)
        · exact absurd (lt_trans k l) (lt_irrefl _)
      · exact absurd (Prod.ext h k) hne
      · left
        refine ⟨Or.inr ⟨h, k⟩, ?_⟩
        rintro (l | ⟨_, l⟩)
        · rw [h] at l; exact absurd l (lt_irrefl _)
        · exact absurd (lt_trans k l) (lt_irrefl _)
    · right
      refine ⟨?_, Or.inl h⟩
      rintro (k | ⟨k, _⟩)
      · exact absurd (lt_trans h k) (lt_irrefl _)
      · rw [k] at h; exact absurd h (lt_irrefl _)

/-- The points `(1,5)`, `(1,3)` and `(2,7)` are in the order of `sorty2`, for C12. -/
theorem sorty2_strict_total_order_witness :
    sorty2 (Pair.ofDbl (Dbl.fin 1, Dbl.fin 5)) (Pair.ofDbl (Dbl.fin 2, Dbl.fin 7)) = true :=
  (sorty2_strict_total_order (Dbl.fin 1, Dbl.fin 5) (Dbl.fin 1, Dbl.fin 3)
    (Dbl.fin 2, Dbl.fin 7)).2.2.1
    (by norm_num [sorty2, Pair.ofDbl, Double.ne, Double.eq, Double.gt, Double.lt])
    (by norm_num [sorty2, Pair.ofDbl, Double.ne, Double.eq, Double.gt, Double.lt])

theorem mem_mapInsert {K : Type} (comp : K → K → Bool) (k x : K) (m : List K)
    (h : x ∈ mapInsert comp k m) : x = k ∨ x ∈ m := by
  induction m with
  | nil =>
    simp only [mapInsert, List.mem_singleton] at h
    exact Or.inl h
  | cons a as ih =>
    unfold mapInsert at h
    split at h
    · rcases List.mem_cons.1 h with h | h
      · exact Or.inl h
      · exact Or.inr h
    · split at h
      · rcases List.mem_cons.1 h with h | h
        · exact Or.inr (h ▸ List.mem_cons_self _ _)
        · rcases ih h with h | h
          · exact Or.inl h
          · exact Or.inr (List.mem_cons_of_mem _ h)
      · exact Or.inr h

theorem pairwise_mapInsert {K : Type} (comp : K → K → Bool)
    (htrans : ∀ a b c, comp a b = true → comp b c = true → comp a c = true)
    (k : K) (m : List K) (h : m.Pairwise (fun a b => comp a b = true)) :
    (mapInsert comp k m).Pairwise (fun a b => comp a b = true) := by
  induction m with
  | nil => simp [mapInsert]
  | cons a as ih =>
    rw [List.pairwise_cons] at h
    unfold mapInsert
    split
    · next hka =>
      rw [List.pairwise_cons]
      refine ⟨?_, List.pairwise_cons.2 h⟩
      intro x hx
      rcases List.mem_cons.1 hx with hx | hx
      · rw [hx]; exact hka
      · exact htrans _ _ _ hka (h.1 x hx)
    · split
      · next hak =>
        rw [List.pairwise_cons]
        refine ⟨?_, ih h.2⟩
        intro x hx
        rcases mem_mapInsert comp k x as hx with hx | hx
        · rw [hx]; exact hak
        · exact h.1 x hx
      · exact List.pairwise_cons.2 h

theorem pairwise_NDSy_keys (ps : List (Dbl × Dbl)) :
    (NDSy_keys ps).Pairwise (fun a b => sorty (Pair.ofDbl a) (Pair.ofDbl b) = true) := by
  unfold NDSy_keys
  have key : ∀ (m : List (Dbl × Dbl)),
      m.Pairwise (fun a b => sorty (Pair.ofDbl a) (Pair.ofDbl b) = true) →
      (ps.foldl (fun m p => mapInsert (fun a b => sorty (Pair.ofDbl a) (Pair.ofDbl b)) p m)
        m).Pairwise (fun a b => sorty (Pair.ofDbl a) (Pair.ofDbl b) = true) := by
    induction ps with
    | nil => intro m hm; exact hm
    | cons p ps ih =>
      intro m hm
      simp only [List.foldl_cons]
      apply ih
      apply pairwise_mapInsert _ _ p m hm
      intro a b c hab hbc
      rw [sorty_ofDbl] at hab hbc ⊢
      exact lt_trans hbc hab
  exact key [] List.Pairwise.nil

/-- C13: on pairs of numbers, `sorty(p1,p2)` holds iff `p1.y > p2.y`; `sorty` is a strict
weak order (irreflexive, transitive, with a transitive incomparability); two pairs are
equivalent (neither is before the other) exactly when their `y` are equal, whatever their
`x`; and a map keyed with `sorty` holds at most one point for each value of `y`: two keys of
`NDSy` with the same `y` are the same key. -/
theorem sorty_strict_weak_order (p1 p2 p3 : Dbl × Dbl) (ps : List (Dbl × Dbl)) :
    (sorty (Pair.ofDbl p1) (Pair.ofDbl p2) = true ↔ p1.2 > p2.2) ∧
    sorty (Pair.ofDbl p1) (Pair.ofDbl p1) = false ∧
    (sorty (Pair.ofDbl p1) (Pair.ofDbl p2) = true →
      sorty (Pair.ofDbl p2) (Pair.ofDbl p3) = true →
      sorty (Pair.ofDbl p1) (Pair.ofDbl p3) = true) ∧
    ((sorty (Pair.ofDbl p1) (Pair.ofDbl p2) = false ∧
        sorty (Pair.ofDbl p2) (Pair.ofDbl p1) = false) →
      (sorty (Pair.ofDbl p2) (Pair.ofDbl p3) = false ∧
        sorty (Pair.ofDbl p3) (Pair.ofDbl p2) = false) →
      (sorty (Pair.ofDbl p1) (Pair.ofDbl p3) = false ∧
        sorty (Pair.ofDbl p3) (Pair.ofDbl p1) = false)) ∧
    ((sorty (Pair.ofDbl p1) (Pair.ofDbl p2) = false ∧
        sorty (Pair.ofDbl p2) (Pair.ofDbl p1) = false) ↔ p1.2 = p2.2) ∧
    (p1 ∈ NDSy_keys ps → p2 ∈ NDSy_keys ps → p1.2 = p2.2 → p1 = p2) := by
  have hequiv : ∀ a b : Dbl × Dbl,
      (sorty (Pair.ofDbl a) (Pair.ofDbl b) = false ∧
        sorty (Pair.ofDbl b) (Pair.ofDbl a) = false) ↔ a.2 = b.2 := by
    intro a b
    rw [← Bool.not_eq_true, ← Bool.not_eq_true, sorty_ofDbl, sorty_ofDbl]
    constructor
    · rintro ⟨h1, h2⟩
      exact le_antisymm (not_lt.1 h1) (not_lt.1 h2)
    · intro h
      rw [h]
      exact ⟨lt_irrefl _, lt_irrefl _⟩
  refine ⟨sorty_ofDbl p1 p2, ?_, ?_, ?_, hequiv p1 p2, ?_⟩
  · rw [← Bool.not_eq_true, sorty_ofDbl]
    exact lt_irrefl _
  · rw [sorty_ofDbl, sorty_ofDbl, sorty_ofDbl]
    intro h k
    exact lt_trans k h
  · rw [hequiv, hequiv, hequiv]
    intro h k
    exact h.trans k
  · intro h1 h2 hy
    have hp := pairwise_NDSy_keys ps
    have hp' : (NDSy_keys ps).Pairwise (fun a b : Dbl × Dbl => a.2 = b.2 → a = b) := by
      apply hp.imp
      intro a b hab hy'
      rw [sorty_ofDbl, hy'] at hab
      exact absurd hab (lt_irrefl _)
    have hsymm : Symmetric (fun a b : Dbl × Dbl => a.2 = b.2 → a = b) :=
      fun a b hab hy' => (hab hy'.symm).symm
    exact List.Pairwise.forall_of_forall hsymm (fun _ _ _ => rfl) hp' h1 h2 hy

/-- The map `NDSy` after the insertion of `(1,5)`, `(2,5)` and `(3,4)` holds `(1,5)` and not
`(2,5)`, for C13. -/
theorem sorty_strict_weak_order_witness :
    ((Dbl.fin 1, Dbl.fin 5) : Dbl × Dbl) ∈
        NDSy_keys [(Dbl.fin 1, Dbl.fin 5), (Dbl.fin 2, Dbl.fin 5), (Dbl.fin 3, Dbl.fin 4)] ∧
      ((Dbl.fin 2, Dbl.fin 5) : Dbl × Dbl) ∉
        NDSy_keys [(Dbl.fin 1, Dbl.fin 5), (Dbl.fin 2, Dbl.fin 5), (Dbl.fin 3, Dbl.fin 4)] :=
  have h1 : ((Dbl.fin 1, Dbl.fin 5) : Dbl × Dbl) ∈
      NDSy_keys [(Dbl.fin 1, Dbl.fin 5), (Dbl.fin 2, Dbl.fin 5), (Dbl.fin 3, Dbl.fin 4)] := by
    norm_num [NDSy_keys, mapInsert, sorty, Pair.ofDbl, Double.gt, Double.lt]
  ⟨h1, fun h2 =>
    absurd ((sorty_strict_weak_order (Dbl.fin 1, Dbl.fin 5) (Dbl.fin 2, Dbl.fin 5)
      (Dbl.fin 3, Dbl.fin 4)
      [(Dbl.fin 1, Dbl.fin 5), (Dbl.fin 2, Dbl.fin 5), (Dbl.fin 3, Dbl.fin 4)]).2.2.2.2.2
      h1 h2 rfl) (by simp)⟩

/-! ## `is_disjoint` and `intersects` -/

theorem basic_is_disjoint_eq_not (x y : Interval) :
    basic_is_disjoint x y = !basic_intersects x y := by
  rw [Bool.eq_iff_iff]
  simp only [basic_is_disjoint, basic_intersects, Bool.or_eq_true, Bool.not_eq_true',
    Bool.and_eq_false_iff, decide_eq_true_eq, decide_eq_false_iff_not, not_le, gt_iff_lt,
    ge_iff_le]

theorem orLoop_eq_not_andLoop (x y : IntervalVector) :
    orLoop basic_is_disjoint x y = !andLoop basic_intersects x y := by
  induction x generalizing y with
  | nil => simp [orLoop, andLoop]
  | cons a as ih =>
    cases y with
    | nil => simp [orLoop, andLoop]
    | cons b bs =>
      unfold orLoop andLoop
      rw [basic_is_disjoint_eq_not, ih bs]
      cases basic_intersects a b <;> simp

/-- C17: `is_disjoint` is the exact negation of `intersects`: on intervals,
`is_disjoint(x,y) = !intersects(x,y)`; on interval vectors of the same size both calls
return a Boolean and `is_disjoint(X,Y)` is the negation of `intersects(X,Y)`. -/
theorem is_disjoint_eq_not_intersects (x y : Interval) (X Y : IntervalVector) :
    x.is_disjoint y = !x.intersects y ∧
    (X.size = Y.size →
      ∃ b : Bool, X.intersects Y = some b ∧ X.is_disjoint Y = some (!b)) := by
  constructor
  · unfold Interval.is_disjoint Interval.intersects
    rw [basic_is_disjoint_eq_not]
    cases x.is_empty <;> cases y.is_empty <;> simp
  · intro h
    have h' : X.length = Y.length := h
    unfold IntervalVector.intersects IntervalVector.is_disjoint guardNot guardOr vectorAnd
      vectorOr
    cases X.is_empty <;> cases Y.is_empty <;> simp [h', orLoop_eq_not_andLoop]

/-- The boxes `([0,1],[0,1])` and `([2,3],[0,1])` do not intersect and are disjoint, for
C17. -/
theorem is_disjoint_eq_not_intersects_witness :
    ∃ b : Bool,
      IntervalVector.intersects
        [⟨Dbl.fin 0, Dbl.fin 1, false⟩, ⟨Dbl.fin 0, Dbl.fin 1, false⟩]
        [⟨Dbl.fin 2, Dbl.fin 3, false⟩, ⟨Dbl.fin 0, Dbl.fin 1, false⟩] = some b ∧
      IntervalVector.is_disjoint
        [⟨Dbl.fin 0, Dbl.fin 1, false⟩, ⟨Dbl.fin 0, Dbl.fin 1, false⟩]
        [⟨Dbl.fin 2, Dbl.fin 3, false⟩, ⟨Dbl.fin 0, Dbl.fin 1, false⟩] = some (!b) :=
  (is_disjoint_eq_not_intersects ⟨Dbl.fin 0, Dbl.fin 1, false⟩ ⟨Dbl.fin 0, Dbl.fin 1, false⟩
    [⟨Dbl.fin 0, Dbl.fin 1, false⟩, ⟨Dbl.fin 0, Dbl.fin 1, false⟩]
    [⟨Dbl.fin 2, Dbl.fin 3, false⟩, ⟨Dbl.fin 0, Dbl.fin 1, false⟩]).2 rfl

/-! ## The test helpers -/

namespace Double

@[simp] theorem gt_ofRat (a b : ℚ) : gt (ofRat a) (ofRat b) = decide (b < a) := by
  simp [gt, lt, ofRat]

@[simp] theorem lt_ofRat (a b : ℚ) : lt (ofRat a) (ofRat b) = decide (a < b) := by
  simp [lt, ofRat]

@[simp] theorem fabs_ofRat (a : ℚ) : fabs (ofRat a) = ofRat |a| := rfl

end Double

theorem closeBoundsRounded_symm (a b : Dbl) (err : ℚ) (h : closeBoundsRounded a b err) :
    closeBoundsRounded b a err := by
  rcases h with ⟨h1, h2⟩ | ⟨h1, h2⟩ | ⟨p, q, h1, h2, h3⟩
  · exact Or.inl ⟨h2, h1⟩
  · exact Or.inr (Or.inl ⟨h2, h1⟩)
  · refine Or.inr (Or.inr ⟨q, p, h2, h1, ?_⟩)
    have hn : q - p = -(p - q) := by ring
    have ha : ∀ d : Dbl, Dbl.abs (Dbl.neg d) = Dbl.abs d := by
      intro d
      cases d <;> simp [Dbl.neg, Dbl.abs]
    rw [hn, round64_neg, ha]
    exact h3

theorem closeBoundsRounded_refl (a : Dbl) (err : ℚ) (h : 0 ≤ err) :
    closeBoundsRounded a a err := by
  cases a with
  | negInf => exact Or.inl ⟨rfl, rfl⟩
  | fin p =>
    refine Or.inr (Or.inr ⟨p, p, rfl, rfl, ?_⟩)
    rw [sub_self, round64_zero]
    simpa [Dbl.abs] using h
  | posInf => exact Or.inr (Or.inl ⟨rfl, rfl⟩)

theorem closeBoundsRounded_zero (a b : Dbl) (ha : a.isDouble) (hb : b.isDouble) :
    closeBoundsRounded a b 0 ↔ a = b := by
  constructor
  · rintro (⟨h1, h2⟩ | ⟨h1, h2⟩ | ⟨p, q, h1, h2, h3⟩)
    · rw [h1, h2]
    · rw [h1, h2]
    · rw [h1, h2]
      rw [h1] at ha
      rw [h2] at hb
      by_contra hne
      have hpq : p ≠ q := fun h => hne (by rw [h])
      have hz := round64_ne_zero (p - q) (abs_sub_ge_of_doubles p q ha hb hpq)
      cases hr : round64 (p - q) with
      | negInf => rw [hr] at h3; simp [Dbl.abs] at h3
      | posInf => rw [hr] at h3; simp [Dbl.abs] at h3
      | fin r =>
        rw [hr] at h3 hz
        simp only [Dbl.abs, Dbl.fin_le_fin] at h3
        have : r = 0 := abs_eq_zero.1 (le_antisymm h3 (abs_nonneg _))
        exact hz (by rw [this])
  · intro h
    rw [h]
    exact closeBoundsRounded_refl b 0 (le_refl _)

theorem fabs_sub_test (p q err : ℚ) :
    Double.gt (Double.fabs (Double.val (Dbl.fin p) - Double.val (Dbl.fin q)))
        (Double.ofRat err) = false ↔
      Dbl.abs (round64 (p - q)) ≤ Dbl.fin err := by
  have h : (Double.val (Dbl.fin p) - Double.val (Dbl.fin q) : Double) =
      Double.val (round64 (p - q)) := Double.ofRat_sub p q
  rw [h]
  simp [Double.fabs, Double.gt, Double.lt, Double.ofRat]

theorem almost_eq_lb_test (a b : Dbl) (err : ℚ) :
    (if Double.eq (Double.val a) (Double.val NEG_INFINITY) then
        Double.ne (Double.val b) (Double.val NEG_INFINITY)
      else Double.gt (Double.fabs (Double.val a - Double.val b)) (Double.ofRat err)) = false ↔
      closeBoundsRounded a b err := by
  cases a with
  | fin p =>
    cases b with
    | fin q =>
      have h : Double.eq (Double.val (Dbl.fin p)) (Double.val NEG_INFINITY) = false := by
        simp [Double.eq, NEG_INFINITY]
      rw [h]
      simp only [Bool.false_eq_true, if_false]
      rw [fabs_sub_test]
      simp [closeBoundsRounded]
    | negInf =>
      simp [closeBoundsRounded, Double.eq, Double.ne, Double.sub_val, Dbl.add, Dbl.neg,
        Double.fabs, Dbl.abs, Double.gt, Double.lt, Double.ofRat, NEG_INFINITY]
    | posInf =>
      simp [closeBoundsRounded, Double.eq, Double.ne, Double.sub_val, Dbl.add, Dbl.neg,
        Double.fabs, Dbl.abs, Double.gt, Double.lt, Double.ofRat, NEG_INFINITY]
  | negInf =>
    cases b <;>
      simp [closeBoundsRounded, Double.eq, Double.ne, Double.sub_val, Dbl.add, Dbl.neg,
        Double.fabs, Dbl.abs, Double.gt, Double.lt, Double.ofRat, NEG_INFINITY]
  | posInf =>
    cases b <;>
      simp [closeBoundsRounded, Double.eq, Double.ne, Double.sub_val, Dbl.add, Dbl.neg,
        Double.fabs, Dbl.abs, Double.gt, Double.lt, Double.ofRat, NEG_INFINITY]

theorem almost_eq_ub_test (a b : Dbl) (err : ℚ) :
    (if Double.eq (Double.val a) (Double.val POS_INFINITY) then
        Double.ne (Double.val b) (Double.val POS_INFINITY)
      else Double.gt (Double.fabs (Double.val a - Double.val b)) (Double.ofRat err)) = false ↔
      closeBoundsRounded a b err := by
  cases a with
  | fin p =>
    cases b with
    | fin q =>
      have h : Double.eq (Double.val (Dbl.fin p)) (Double.val POS_INFINITY) = false := by
        simp [Double.eq, POS_INFINITY]
      rw [h]
      simp only [Bool.false_eq_true, if_false]
      rw [fabs_sub_test]
      simp [closeBoundsRounded]
    | negInf =>
      simp [closeBoundsRounded, Double.eq, Double.ne, Double.sub_val, Dbl.add, Dbl.neg,
        Double.fabs, Dbl.abs, Double.gt, Double.lt, Double.ofRat, POS_INFINITY]
    | posInf =>
      simp [closeBoundsRounded, Double.eq, Double.ne, Double.sub_val, Dbl.add, Dbl.neg,
        Double.fabs, Dbl.abs, Double.gt, Double.lt, Double.ofRat, POS_INFINITY]
  | negInf =>
    cases b <;>
      simp [closeBoundsRounded, Double.eq, Double.ne, Double.sub_val, Dbl.add, Dbl.neg,
        Double.fabs, Dbl.abs, Double.gt, Double.lt, Double.ofRat, POS_INFINITY]
  | posInf =>
    cases b <;>
      simp [closeBoundsRounded, Double.eq, Double.ne, Double.sub_val, Dbl.add, Dbl.neg,
        Double.fabs, Dbl.abs, Double.gt, Double.lt, Double.ofRat, POS_INFINITY]

theorem almost_eq_iff (x y : Interval) (err : ℚ)
    (h : (x.is_empty && y.is_empty) = false) :
    TestIbex.almost_eq x y (Double.ofRat err) = true ↔
      closeBoundsRounded x.lb y.lb err ∧ closeBoundsRounded x.ub y.ub err := by
  unfold TestIbex.almost_eq
  rw [← almost_eq_lb_test, ← almost_eq_ub_test]
  simp only [h, Bool.false_eq_true, if_false]
  split
  · next h1 => simp [h1]
  · next h1 =>
    split
    · next h2 => simp [h2]
    · next h2 => simp [h1, h2]

/-- C19, counterexample: for `x = [2^53, 2^53]`, `y = [-1, -1]` and `err = 2^53`, the
corresponding bounds are finite and at distance `2^53 + 1`, more than `err`, and
`almost_eq(x,y,err)` is true: the difference `2^53 + 1` is rounded to the double `2^53`. -/
theorem almost_eq_rounding_counterexample :
    TestIbex.almost_eq ⟨Dbl.fin 9007199254740992, Dbl.fin 9007199254740992, false⟩
      ⟨Dbl.fin (-1), Dbl.fin (-1), false⟩ (Double.ofRat 9007199254740992) = true ∧
    ¬ closeBounds (Dbl.fin 9007199254740992) (Dbl.fin (-1)) 9007199254740992 := by
  constructor
  · rw [almost_eq_iff _ _ _ (by simp)]
    have hc : closeBoundsRounded (Dbl.fin 9007199254740992) (Dbl.fin (-1))
        9007199254740992 := by
      refine Or.inr (Or.inr ⟨9007199254740992, -1, rfl, rfl, ?_⟩)
      have h : (9007199254740992 : ℚ) - -1 = 9007199254740993 := by norm_num
      rw [h, round64_two_pow_53_add_one]
      simp [Dbl.abs]
    exact ⟨hc, hc⟩
  · rintro (⟨h, _⟩ | ⟨h, _⟩ | ⟨p, q, hp, hq, h⟩)
    · exact Dbl.noConfusion h
    · exact Dbl.noConfusion h
    · rw [← Dbl.fin.inj hp, ← Dbl.fin.inj hq] at h
      norm_num at h

/-- C19, amended: `almost_eq` on intervals is a symmetric tolerance relation.  For non-empty
intervals `x`, `y` whose bounds are doubles (possibly infinite, `lb <= ub`) and a finite
`err >= 0`: `almost_eq(x,y,err) = almost_eq(y,x,err)`; it holds iff each pair of
corresponding bounds is either the same infinity twice or two finite numbers whose
difference, rounded to the nearest double, is at most `err` in absolute value;
`almost_eq(x,x,err)` is true; and `almost_eq(x,y,0)` holds iff `x` and `y` have equal
bounds. -/
theorem almost_eq_rounded_tolerance (x y : Interval) (err : ℚ)
    (hx : x.is_empty = false) (hy : y.is_empty = false)
    (_hxv : x.lb ≤ x.ub) (_hyv : y.lb ≤ y.ub) (herr : 0 ≤ err)
    (hxl : x.lb.isDouble) (hxu : x.ub.isDouble) (hyl : y.lb.isDouble) (hyu : y.ub.isDouble) :
    TestIbex.almost_eq x y (Double.ofRat err) = TestIbex.almost_eq y x (Double.ofRat err) ∧
    (TestIbex.almost_eq x y (Double.ofRat err) = true ↔
      closeBoundsRounded x.lb y.lb err ∧ closeBoundsRounded x.ub y.ub err) ∧
    TestIbex.almost_eq x x (Double.ofRat err) = true ∧
    (TestIbex.almost_eq x y (Double.ofRat 0) = true ↔ x.lb = y.lb ∧ x.ub = y.ub) := by
  have hxy : (x.is_empty && y.is_empty) = false := by simp [hx]
  have hyx : (y.is_empty && x.is_empty) = false := by simp [hy]
  have hxx : (x.is_empty && x.is_empty) = false := by simp [hx]
  refine ⟨?_, almost_eq_iff x y err hxy, ?_, ?_⟩
  · rw [Bool.eq_iff_iff, almost_eq_iff x y err hxy, almost_eq_iff y x err hyx]
    constructor
    · rintro ⟨h1, h2⟩
      exact ⟨closeBoundsRounded_symm _ _ _ h1, closeBoundsRounded_symm _ _ _ h2⟩
    · rintro ⟨h1, h2⟩
      exact ⟨closeBoundsRounded_symm _ _ _ h1, closeBoundsRounded_symm _ _ _ h2⟩
  · rw [almost_eq_iff x x err hxx]
    exact ⟨closeBoundsRounded_refl _ _ herr, closeBoundsRounded_refl _ _ herr⟩
  · rw [almost_eq_iff x y 0 hxy, closeBoundsRounded_zero _ _ hxl hyl,
      closeBoundsRounded_zero _ _ hxu hyu]

/-- The intervals `[0,1]` and `[0,3/2]` with the tolerance `1/2`, for C19. -/
theorem almost_eq_rounded_tolerance_witness :
    TestIbex.almost_eq ⟨Dbl.fin 0, Dbl.fin 1, false⟩ ⟨Dbl.fin 0, Dbl.fin (3 / 2), false⟩
        (Double.ofRat (1 / 2)) =
      TestIbex.almost_eq ⟨Dbl.fin 0, Dbl.fin (3 / 2), false⟩ ⟨Dbl.fin 0, Dbl.fin 1, false⟩
        (Double.ofRat (1 / 2)) :=
  (almost_eq_rounded_tolerance ⟨Dbl.fin 0, Dbl.fin 1, false⟩
    ⟨Dbl.fin 0, Dbl.fin (3 / 2), false⟩ (1 / 2) rfl rfl (by norm_num) (by norm_num)
    (by norm_num) round64_zero round64_one round64_zero round64_three_halves).1

theorem almost_eq_self_fin (a b err : ℚ) (herr : 0 ≤ err) :
    TestIbex.almost_eq ⟨Dbl.fin a, Dbl.fin b, false⟩ ⟨Dbl.fin a, Dbl.fin b, false⟩
      (Double.ofRat err) = true := by
  rw [almost_eq_iff _ _ err (by simp)]
  exact ⟨closeBoundsRounded_refl _ _ herr, closeBoundsRounded_refl _ _ herr⟩

/-- C18, failing inputs: for every tolerance `err >= 0`,

* with `y_actual = ([0,1])` of size 1 and `y_expected = ([0,1],[5,6])` of size 2,
  `almost_eq` returns `true`, and the assertions of `check` that fail are those of the
  comparison of `[0,1]` with `[0,1]`: the size assertion does not fail;
* with `y_actual = ([0,1],[5,6])` of size 2 and `y_expected = ([0,1])` of size 1, `almost_eq`
  and `check` read `y_expected[1]`, past the end of the shorter vector. -/
theorem almost_eq_vector_size_mismatch (err : ℚ) (herr : 0 ≤ err)
    (deltaFails : Double → Double → Bool) (cont : Bool) :
    IntervalVector.size [(⟨Dbl.fin 0, Dbl.fin 1, false⟩ : Interval)] ≠
      IntervalVector.size [(⟨Dbl.fin 0, Dbl.fin 1, false⟩ : Interval),
        ⟨Dbl.fin 5, Dbl.fin 6, false⟩] ∧
    TestIbex.almost_eq_vector [⟨Dbl.fin 0, Dbl.fin 1, false⟩]
      [⟨Dbl.fin 0, Dbl.fin 1, false⟩, ⟨Dbl.fin 5, Dbl.fin 6, false⟩]
      (Double.ofRat err) = Outcome.value true ∧
    TestIbex.check_vector deltaFails cont [⟨Dbl.fin 0, Dbl.fin 1, false⟩]
      [⟨Dbl.fin 0, Dbl.fin 1, false⟩, ⟨Dbl.fin 5, Dbl.fin 6, false⟩] =
      Outcome.value (TestIbex.check deltaFails cont ⟨Dbl.fin 0, Dbl.fin 1, false⟩
        ⟨Dbl.fin 0, Dbl.fin 1, false⟩) ∧
    TestIbex.almost_eq_vector [⟨Dbl.fin 0, Dbl.fin 1, false⟩, ⟨Dbl.fin 5, Dbl.fin 6, false⟩]
      [⟨Dbl.fin 0, Dbl.fin 1, false⟩] (Double.ofRat err) = Outcome.outOfBounds ∧
    TestIbex.check_vector deltaFails cont
      [⟨Dbl.fin 0, Dbl.fin 1, false⟩, ⟨Dbl.fin 5, Dbl.fin 6, false⟩]
      [⟨Dbl.fin 0, Dbl.fin 1, false⟩] = Outcome.outOfBounds := by
  have ha := almost_eq_self_fin 0 1 err herr
  refine ⟨by simp [IntervalVector.size], ?_, ?_, ?_, ?_⟩
  · simp [TestIbex.almost_eq_vector, TestIbex.almost_eq_loop, IntervalVector.size,
      IntervalVector.is_empty, ha]
  · simp [TestIbex.check_vector, TestIbex.check_loop, IntervalVector.size,
      IntervalVector.is_empty]
  · simp [TestIbex.almost_eq_vector, TestIbex.almost_eq_loop, IntervalVector.size,
      IntervalVector.is_empty, ha]
  · simp [TestIbex.check_vector, TestIbex.check_loop, IntervalVector.size,
      IntervalVector.is_empty]

/-- The failing inputs of C18 with the tolerance `1/1000`. -/
theorem almost_eq_vector_size_mismatch_witness :
    TestIbex.almost_eq_vector [⟨Dbl.fin 0, Dbl.fin 1, false⟩]
      [⟨Dbl.fin 0, Dbl.fin 1, false⟩, ⟨Dbl.fin 5, Dbl.fin 6, false⟩]
      (Double.ofRat (1 / 1000)) = Outcome.value true :=
  (almost_eq_vector_size_mismatch (1 / 1000) (by norm_num) (fun _ _ => false) true).2.1

/-! ## The normalized system -/

namespace NormalizedSystem

/-- C16: with the array `_orig_index` of size `nb_ctr`, `original_index(i)` returns
`_orig_index[i]` for `0 <= i < nb_ctr` and fails the assertion for `i >= nb_ctr`; for every
`i < 0` the assertion holds and the array is read outside its bounds. -/
theorem original_index_cases {E : Type} (N : NormalizedSystem E)
    (hinv : N.nb_ctr = (N._orig_index.length : Int)) (i : Int) :
    (0 ≤ i → i < N.nb_ctr →
      ∃ v, N._orig_index.get? i.toNat = some v ∧ N.original_index i = Outcome.value v) ∧
    (N.nb_ctr ≤ i → N.original_index i = Outcome.assertFailed) ∧
    (i < 0 → N.original_index i = Outcome.outOfBounds) := by
  refine ⟨?_, ?_, ?_⟩
  · intro h0 h1
    have hlt : i.toNat < N._orig_index.length := by
      rw [hinv] at h1
      omega
    refine ⟨N._orig_index.get ⟨i.toNat, hlt⟩, List.get?_eq_get hlt, ?_⟩
    simp [original_index, h0, h1, List.getElem?_eq_getElem hlt]
  · intro h
    simp [original_index, not_lt.2 h]
  · intro h
    have h1 : i < N.nb_ctr := by
      rw [hinv]
      omega
    simp [original_index, h1, not_le.2 h]

/-- A normalized system with two constraints: `original_index(-1)` reads the array outside
its bounds, for C16. -/
theorem original_index_cases_witness :
    original_index (⟨2, [⟨(), false, 0⟩, ⟨(), true, 0⟩], [0, 0]⟩ : NormalizedSystem Unit) (-1) =
      Outcome.outOfBounds :=
  (original_index_cases (⟨2, [⟨(), false, 0⟩, ⟨(), true, 0⟩], [0, 0]⟩ : NormalizedSystem Unit)
    rfl (-1)).2.2 (by norm_num)

end NormalizedSystem

namespace NormalizedSystem

end NormalizedSystem

/-! ## `optimize_pf` -/

/-- A function `pf` whose enclosures are all `[0,0]`, on which the maximisation of
`optimize_pf` ends after three nodes and returns the pair `(1/2, 0)`. -/
theorem optimize_pf_maximize_example (A : IntervalArith) :
    optimize_pf A ⟨fun _ => ⟨Dbl.fin 0, Dbl.fin 0, false⟩,
      fun _ => ⟨Dbl.fin 0, Dbl.fin 0, false⟩⟩ false 4 =
      Outcome.value (Dbl.fin (1 / 2), Dbl.fin 0) := by
  norm_num [optimize_pf, searchLoop, contractLeft, contractRight, bisection, Interval.mid,
    Interval.ofBounds, Interval.ofDouble, Interval.diam, Double.lt, Double.sub_val,
    Double.add_val, Double.ofRat, round64_hundredth, round64_hundredth_idem, round64_one,
    round64_half, Dbl.add, Dbl.neg, NEG_INFINITY]

theorem searchLoop_ne_exit (A : IntervalArith) (pf : PFunction) (fuel0 fuel : Nat)
    (nodes : List Node_t) (LB UB best_t : Dbl) (st : Int) :
    searchLoop A pf fuel0 fuel nodes LB UB best_t ≠ Outcome.exit st := by
  induction fuel generalizing nodes LB UB best_t with
  | zero => simp [searchLoop]
  | succ k ih =>
    unfold searchLoop
    cases nodes with
    | nil => simp
    | cons n rest =>
      simp only
      split
      · exact ih _ _ _ _
      · split
        · exact ih _ _ _ _
        · split
          · simp
          · split
            · split
              · split
                · exact ih _ _ _ _
                · simp
              · simp
              · simp
            · simp
            · simp

/-- C14, failing input: for every function `pf`, `optimize_pf(pf, true)` ends the program
with `exit(0)` and returns no pair: the minimisation is not implemented.  The maximisation
`optimize_pf(pf, false)` never takes this exit. -/
theorem optimize_pf_minimize_exits (A : IntervalArith) (pf : PFunction) (fuel : Nat) :
    optimize_pf A pf true fuel = Outcome.exit 0 ∧
    (∀ p : Dbl × Dbl, optimize_pf A pf true fuel ≠ Outcome.value p) ∧
    (∀ st : Int, optimize_pf A pf false fuel ≠ Outcome.exit st) := by
  refine ⟨by simp [optimize_pf], ?_, ?_⟩
  · intro p
    simp [optimize_pf]
  · intro st
    simp only [optimize_pf, Bool.false_eq_true, if_false]
    exact searchLoop_ne_exit A pf fuel fuel _ _ _ _ st

end ibex
